import Mathlib

set_option maxHeartbeats 1600000
set_option linter.unusedTactic false
set_option linter.unusedVariables false

/-!
Verification of the Footprint subsystem of the afw image-analysis library
(src/src/detection/Footprint.cc), over a shallow embedding of the span-list
data model and the algorithms that operate on it.  Machine integers are
modelled as `Int` (pixel coordinates never approach the 32-bit range in the
properties considered), fallible operations return `Except`/`Option`, and
undefined behaviour (an out-of-bounds iterator dereference) is modelled as
`Option.none`.
-/

/-- A Span is one horizontal run of pixels: row `y`, inclusive columns
`x0..x1`.  Mirrors `lsst::afw::detection::Span` (fields `_y`, `_x0`, `_x1`). -/
structure Span where
  y : Int
  x0 : Int
  x1 : Int
deriving DecidableEq

/-- Modelled from the spec: `Span::getWidth`, `x1 - x0 + 1` (declared outside
src/; spec section 3: width = x1 - x0 + 1). -/
def Span.width (s : Span) : Int := s.x1 - s.x0 + 1

/-- Modelled from the spec: the ordering `Span::operator<` used by
`normalize()`'s sort — primary key `y`, then `x0`, then `x1` (declared outside
src/; spec section 3: "Ordering relation: primary key y, then x0, then x1"). -/
def spanLeB (s t : Span) : Bool :=
  decide (s.y < t.y ∨ (s.y = t.y ∧ (s.x0 < t.x0 ∨ (s.x0 = t.x0 ∧ s.x1 ≤ t.x1))))

/-- Modelled from the spec: a non-empty integer box given by its corner
coordinates; together with `Option` (`none` = empty box) this models
`lsst::afw::geom::Box2I`. -/
structure BoxRect where
  minX : Int
  minY : Int
  maxX : Int
  maxY : Int
deriving DecidableEq

/-- Modelled from the spec: `Box2I::include(Point2I)` — grow the box to
contain the given point. -/
def boxInclude : Option BoxRect → Int → Int → Option BoxRect
  | none, x, y => some ⟨x, y, x, y⟩
  | some b, x, y => some ⟨min b.minX x, min b.minY y, max b.maxX x, max b.maxY y⟩

/-- Modelled from the spec: `Box2I::clip` — intersect with another box,
becoming empty when the boxes are disjoint. -/
def boxClip : Option BoxRect → BoxRect → Option BoxRect
  | none, _ => none
  | some b, c =>
    let r : BoxRect := ⟨max b.minX c.minX, max b.minY c.minY,
                        min b.maxX c.maxX, min b.maxY c.maxY⟩
    if r.minX ≤ r.maxX ∧ r.minY ≤ r.maxY then some r else none

/-- The Footprint state: span list, area accumulator, bounding box, parent
region and the `_normalized` flag.  The peak catalog and the debugging id are
not modelled (no claim depends on them). -/
structure Footprint where
  spans : List Span
  area : Int
  bbox : Option BoxRect
  region : Option BoxRect
  normalized : Bool
deriving DecidableEq

/-- Error kinds thrown by the Footprint code
(`lsst::pex::exceptions::InvalidParameterError` and `OutOfRangeError`). -/
inductive FpErr where
  | invalidArgument : FpErr
  | outOfRange : FpErr
deriving DecidableEq

/-- The `Footprint(nspan, region)` constructor with `nspan = 0`: empty span
list, zero area, empty bbox, `_normalized = true`. -/
def Footprint.mkEmpty (region : Option BoxRect) : Footprint :=
  { spans := [], area := 0, bbox := none, region := region, normalized := true }

/-- `Footprint::addSpan(y, x0, x1)`: swap the column arguments if reversed,
append the span, add its width to `_area`, include both endpoints in `_bbox`,
clear `_normalized`. -/
def Footprint.addSpan (fp : Footprint) (y x0 x1 : Int) : Footprint :=
  let a := min x0 x1
  let b := max x0 x1
  { fp with
    spans := fp.spans ++ [⟨y, a, b⟩],
    area := fp.area + (b - a + 1),
    bbox := boxInclude (boxInclude fp.bbox a y) b y,
    normalized := false }

/-- `Footprint::addSpanInSeries(y, x0, x1)`: swap the column arguments if
reversed; if the footprint is empty, append and set `_normalized`; if the new
span is row-contiguous with the last span (`y` equal and `x0` one past the
last `x1`), extend the last span in place; if the new span is not strictly
after the last span, fail with InvalidArgument; otherwise append and set
`_normalized`. -/
def Footprint.addSpanInSeries (fp : Footprint) (y x0 x1 : Int) :
    Except FpErr Footprint :=
  let a := min x0 x1
  let b := max x0 x1
  match fp.spans.getLast? with
  | none => .ok { fp.addSpan y a b with normalized := true }
  | some last =>
    if y = last.y ∧ a = last.x1 + 1 then
      .ok { fp with
            spans := fp.spans.dropLast ++ [⟨last.y, last.x0, b⟩],
            area := fp.area + (1 + b - a),
            bbox := boxInclude fp.bbox b y }
    else if ¬(y > last.y ∨ a > last.x1 + 1) then
      .error .invalidArgument
    else
      .ok { fp.addSpan y a b with normalized := true }

/-- Insertion into a list sorted by `spanLeB` (helper for `sortSpans`). -/
def insertSorted (s : Span) : List Span → List Span
  | [] => [s]
  | t :: ts => if spanLeB s t then s :: t :: ts else t :: insertSorted s ts

/-- Insertion sort by `spanLeB`.  `normalize()` uses `std::sort` with
`compareSpanByYX`; because spans that tie under the comparator are equal as
`(y, x0, x1)` triples, every correct sort produces the same list, so insertion
sort is a faithful model. -/
def sortSpans : List Span → List Span
  | [] => []
  | s :: ss => insertSorted s (sortSpans ss)

/-- The result of `normalize()`'s left-to-right merging sweep: the surviving
spans together with the accumulated `_area`, the running `minX`/`maxX` bounds
and the final value of the row variable `y` (which becomes the bbox maxY). -/
structure SweepOut where
  spans : List Span
  area : Int
  minX : Int
  maxX : Int
  lastY : Int
deriving DecidableEq

/-- The merging sweep of `Footprint::normalize()`: `cur` is the running left
span (`lspan` with its current `_x1`), `area`/`minX`/`maxX` the accumulators.
A following span on the same row with `x0 ≤ cur.x1 + 1` is absorbed (extending
`cur.x1` and the area if it reaches further right); any other span is emitted
and becomes the new running span. -/
def normSweep (cur : Span) (area minX maxX : Int) : List Span → SweepOut
  | [] => ⟨[cur], area, minX, maxX, cur.y⟩
  | r :: rest =>
    if r.y = cur.y ∧ r.x0 ≤ cur.x1 + 1 then
      if cur.x1 < r.x1 then
        normSweep ⟨cur.y, cur.x0, r.x1⟩ (area + (r.x1 - cur.x1)) minX
          (if maxX < r.x1 then r.x1 else maxX) rest
      else
        normSweep cur area minX maxX rest
    else
      let o := normSweep r (area + r.width)
        (if r.x0 < minX then r.x0 else minX)
        (if maxX < r.x1 then r.x1 else maxX) rest
      ⟨cur :: o.spans, o.area, o.minX, o.maxX, o.lastY⟩

/-- `Footprint::normalize()`: no-op when `_normalized` is already set; an
empty span list resets bbox and area; otherwise sort by `(y, x0, x1)` and run
the merging sweep, rebuilding `_area` and `_bbox` from the sweep. -/
def Footprint.normalize (fp : Footprint) : Footprint :=
  if fp.normalized then fp
  else
    match sortSpans fp.spans with
    | [] => { fp with bbox := none, normalized := true, area := 0 }
    | s :: rest =>
      let o := normSweep s s.width s.x0 s.x1 rest
      { fp with
        spans := o.spans,
        area := o.area,
        bbox := some ⟨o.minX, s.y, o.maxX, o.lastY⟩,
        normalized := true }

/-- `spans` of the copy constructor / rectangle constructor.  The rectangle
constructor `Footprint(bbox, region)` sets `_bbox` to the given box, adds one
full-width span per row, and finally sets `_normalized = true`. -/
def rectFootprint (x0 y0 x1 y1 : Int) (region : Option BoxRect) : Footprint :=
  let base : Footprint :=
    { spans := [], area := 0, bbox := some ⟨x0, y0, x1, y1⟩,
      region := region, normalized := true }
  let built := (List.range (y1 - y0 + 1).toNat).foldl
    (fun fp i => fp.addSpan (y0 + i) x0 x1) base
  { built with normalized := true }

/-- Sum of span widths. -/
def sumWidths (l : List Span) : Int := (l.map Span.width).sum

/-- Separation relation of a normalized span list: the later span is on a
strictly later row, or on the same row strictly beyond the earlier span's end
with at least one empty pixel between them. -/
def sep (s t : Span) : Prop := s.y < t.y ∨ (s.y = t.y ∧ s.x1 + 1 < t.x0)

instance : DecidableRel sep := fun s t => by unfold sep; infer_instance

/-- Well-formedness of spans: `x0 ≤ x1` (the Span invariant of spec section 3,
enforced by every constructor by argument swapping). -/
def wfS (l : List Span) : Prop := ∀ s ∈ l, s.x0 ≤ s.x1

instance : DecidablePred wfS := fun l => by unfold wfS; infer_instance

/-- A span list in normal form: pairwise separated and well-formed. -/
def NormSpans (l : List Span) : Prop := l.Pairwise sep ∧ wfS l

instance : DecidablePred NormSpans := fun l => by unfold NormSpans; infer_instance

/-- Strict lexicographic order on `(y, x0, x1)`. -/
def spanLexLt (s t : Span) : Prop :=
  s.y < t.y ∨ (s.y = t.y ∧ (s.x0 < t.x0 ∨ (s.x0 = t.x0 ∧ s.x1 < t.x1)))

instance : DecidableRel spanLexLt := fun s t => by unfold spanLexLt; infer_instance

/-- Non-strict lexicographic order on `(y, x0, x1)` (the sort order). -/
def spanLexLe (s t : Span) : Prop :=
  s.y < t.y ∨ (s.y = t.y ∧ (s.x0 < t.x0 ∨ (s.x0 = t.x0 ∧ s.x1 ≤ t.x1)))

instance : DecidableRel spanLexLe := fun s t => by unfold spanLexLe; infer_instance

/-- Pixel membership in a single span. -/
def Span.containsPix (s : Span) (x y : Int) : Prop :=
  s.y = y ∧ s.x0 ≤ x ∧ x ≤ s.x1

instance : ∀ s x y, Decidable (Span.containsPix s x y) := fun s x y => by
  unfold Span.containsPix; infer_instance

/-- Pixel membership in a span list (the pixel set of a Footprint). -/
def memPix (l : List Span) (x y : Int) : Prop := ∃ s ∈ l, s.containsPix x y

instance : ∀ l x y, Decidable (memPix l x y) := fun l x y => by
  unfold memPix; infer_instance

/-- The tight enclosing box of a span list (empty for the empty list). -/
def tightBox : List Span → Option BoxRect
  | [] => none
  | s :: rest => some (rest.foldl
      (fun b t => ⟨min b.minX t.x0, min b.minY t.y, max b.maxX t.x1, max b.maxY t.y⟩)
      ⟨s.x0, s.y, s.x1, s.y⟩)

/-- A Footprint reachable through the public construction API on which the
claim C1 fails: two out-of-order `addSpan` calls followed by one in-series
`addSpanInSeries` call, which sets `_normalized = true` without sorting, so
the subsequent `normalize()` is a no-op on an unsorted span list. -/
def fpBad : Footprint :=
  match (((Footprint.mkEmpty none).addSpan 5 0 1).addSpan 3 0 1).addSpanInSeries 6 0 1 with
  | .ok f => f
  | .error _ => Footprint.mkEmpty none

/-- The list of integers `a, a+1, ..., b` (empty when `b < a`). -/
def intRange (a b : Int) : List Int :=
  (List.range (b - a + 1).toNat).map (fun (n : Nat) => a + (n : Int))

/-- Modelled from the spec: a Mask raster — an origin `(x0, y0)`, dimensions,
and a pixel buffer read in image-local coordinates (column, row), as provided
by the external raster interface of spec section 6. -/
structure Mask where
  x0 : Int
  y0 : Int
  width : Nat
  height : Nat
  pix : Int → Int → Nat

/-- Modelled from the spec: `Mask::getBBox()` in the parent frame:
`[x0, x0+width-1] × [y0, y0+height-1]`. -/
def Mask.bbox (m : Mask) : BoxRect :=
  ⟨m.x0, m.y0, m.x0 + (m.width : Int) - 1, m.y0 + (m.height : Int) - 1⟩

/-- The leading scan of `Footprint::intersectMask`:
`while((*s)->getY() < maskBBox.getMinY() && s != _spans.end()) ++s;`.
The loop condition dereferences `s` before testing it against `end`, so when
the scan reaches the end of the list (or the list is empty) it dereferences
the end iterator: that undefined behaviour is modelled by `none`. -/
def leadScan : List Span → Int → Option (List Span)
  | [], _ => none
  | s :: rest, minY => if s.y < minY then leadScan rest minY else some (s :: rest)

/-- The per-span pixel walk of `intersectMask`: iterate `x` over the clipped
span (`xs`), splitting at every masked pixel (`p x` true); `cur` is the start
of the pending unmasked run, and a final run `[cur, x1]` is emitted after the
loop when non-empty. -/
def sliceGo (p : Int → Bool) (y x1 : Int) : Int → List Int → List Span
  | cur, [] => if cur ≤ x1 then [⟨y, cur, x1⟩] else []
  | cur, x :: xs =>
    if p x then
      (if cur < x then [⟨y, cur, x - 1⟩] else []) ++ sliceGo p y x1 (x + 1) xs
    else
      sliceGo p y x1 cur xs

/-- The unmasked sub-runs of the clipped span `[a, b]` on row `y`. -/
def spanSlices (p : Int → Bool) (y a b : Int) : List Span :=
  sliceGo p y b a (intRange a b)

/-- The main loop of `intersectMask` over the spans at or beyond the mask's
first row: stop (`break`) at the first span beyond the mask's last row, skip
spans that are horizontally disjoint from the mask, otherwise clip to the
mask's columns and emit the unmasked sub-runs.  `p2 x y` reads the mask pixel
under `(x, y)` (parent coordinates) and tests it against the bitmask. -/
def imLoop (mb : BoxRect) (p2 : Int → Int → Bool) : List Span → List Span
  | [] => []
  | s :: rest =>
    if mb.maxY < s.y then []
    else if s.x1 < mb.minX ∨ mb.maxX < s.x0 then imLoop mb p2 rest
    else
      spanSlices (fun x => p2 x s.y) s.y (max s.x0 mb.minX) (min s.x1 mb.maxX) ++
        imLoop mb p2 rest

/-- `Footprint::intersectMask(mask, bitmask)`: normalize, scan past spans
before the mask's first row (undefined behaviour -> `none`), walk the
remaining spans splitting them at masked pixels, then replace `_spans`, set
`_area` to the accumulated width of the kept sub-runs, and clip `_bbox` to
the mask's bbox (`_normalized` is left untouched). -/
def Footprint.intersectMask (fp : Footprint) (m : Mask) (bm : Nat) :
    Option Footprint :=
  let fpn := fp.normalize
  let mb := m.bbox
  match leadScan fpn.spans mb.minY with
  | none => none
  | some tl =>
    let out := imLoop mb
      (fun x y => (m.pix (x - mb.minX) (y - mb.minY)) &&& bm != 0) tl
    some { fpn with spans := out, area := sumWidths out,
                    bbox := boxClip fpn.bbox mb }

/-- The number of unmasked positions in `[a, b]`. -/
def countUnmasked (p : Int → Bool) (a b : Int) : Int :=
  ((intRange a b).filter (fun x => !(p x))).length

/-- The number of pixels of span `s` that `intersectMask`'s main loop keeps:
zero if the span is beyond the mask's last row or horizontally disjoint,
otherwise the unmasked pixels of the clipped range. -/
def contribIm (mb : BoxRect) (p2 : Int → Int → Bool) (s : Span) : Int :=
  if mb.maxY < s.y ∨ s.x1 < mb.minX ∨ mb.maxX < s.x0 then 0
  else countUnmasked (fun x => p2 x s.y) (max s.x0 mb.minX) (min s.x1 mb.maxX)

/-- The exact number of kept (unmasked) pixels of a normalized footprint
under `intersectMask(m, bm)`: per span, the unmasked pixels of the span
clipped to the mask's bbox (rows outside the mask contribute nothing). -/
def keptCount (fp : Footprint) (m : Mask) (bm : Nat) : Int :=
  (fp.spans.map (fun s =>
    if s.y < m.bbox.minY then 0
    else contribIm m.bbox
      (fun x y => (m.pix (x - m.bbox.minX) (y - m.bbox.minY)) &&& bm != 0) s)).sum

/-- Concrete mask for the C2 witness: 4x1 at the origin, pixel (1,0) set. -/
def mC2 : Mask := ⟨0, 0, 4, 1, fun x _ => if x = 1 then 1 else 0⟩

/-- Concrete normalized footprint for the C2 witness. -/
def fpC2 : Footprint := ⟨[⟨0, 0, 3⟩], 4, some ⟨0, 0, 3, 0⟩, none, true⟩

/-- The result of `intersectMask` on the C2 witness inputs. -/
def fpC2' : Footprint :=
  match fpC2.intersectMask mC2 1 with
  | some f => f
  | none => Footprint.mkEmpty none

/-- The column clamp of `setMaskFromFootprint`/`clearMaskFromFootprint`:
`x = (x < 0) ? 0 : (x >= width ? width - 1 : x)`. -/
def clampW (width v : Int) : Int :=
  if v < 0 then 0 else if width ≤ v then width - 1 else v

/-- One span of `setMaskFromFootprint(mask, foot, bitmask)`: skip rows
outside the raster, clamp the span's columns into `[0, width-1]`, and OR the
bitmask into the pixels of the clamped range (`Mask::x_at` iteration modelled
as a pointwise update in image-local coordinates). -/
def setMaskStep (bm : Nat) (acc : Mask) (s : Span) : Mask :=
  let y := s.y - acc.y0
  if y < 0 ∨ (acc.height : Int) ≤ y then acc
  else
    let a := clampW (acc.width : Int) (s.x0 - acc.x0)
    let b := clampW (acc.width : Int) (s.x1 - acc.x0)
    { acc with pix := fun xx yy =>
        if yy = y ∧ a ≤ xx ∧ xx ≤ b then acc.pix xx yy ||| bm
        else acc.pix xx yy }

/-- `setMaskFromFootprint(mask, foot, bitmask)`: `setMaskStep` over every
span of the footprint. -/
def setMaskFromFootprint (mk : Mask) (fp : Footprint) (bm : Nat) : Mask :=
  fp.spans.foldl (setMaskStep bm) mk

/-- The set of local pixels `setMaskFromFootprint` writes: some span on an
in-range row whose clamped column range covers the pixel. -/
def maskWritten (mk : Mask) (fp : Footprint) (x y : Int) : Prop :=
  ∃ s ∈ fp.spans, y = s.y - mk.y0 ∧ 0 ≤ y ∧ y < (mk.height : Int) ∧
    clampW (mk.width : Int) (s.x0 - mk.x0) ≤ x ∧
    x ≤ clampW (mk.width : Int) (s.x1 - mk.x0)

instance : ∀ mk fp x y, Decidable (maskWritten mk fp x y) := fun mk fp x y => by
  unfold maskWritten; infer_instance

/-- Concrete mask for the C7 counterexample: 4x1 at the origin, all zero. -/
def mC7 : Mask := ⟨0, 0, 4, 1, fun _ _ => 0⟩

/-- Concrete footprint for the C7 counterexample: one span entirely to the
right of the mask's columns. -/
def fpC7 : Footprint := ⟨[⟨0, 10, 12⟩], 3, some ⟨10, 0, 12, 0⟩, none, true⟩

/-- Modelled from the spec: an Image raster of a numeric pixel type `T` —
dimensions, `numeric_limits<T>::max()`, and a pixel buffer in image-local
coordinates; assignment wraps modulo `maxVal + 1`. -/
structure Image where
  width : Nat
  height : Nat
  maxVal : Nat
  pix : Int → Int → Nat

/-- Modelled from the spec: width of an `Option BoxRect` (`Box2I::getWidth`,
0 for the empty box). -/
def regW : Option BoxRect → Int
  | some b => b.maxX - b.minX + 1
  | none => 0

/-- Modelled from the spec: height of an `Option BoxRect`. -/
def regH : Option BoxRect → Int
  | some b => b.maxY - b.minY + 1
  | none => 0

/-- Modelled from the spec: `getMinX` of an `Option BoxRect` (0 when empty). -/
def regX0 : Option BoxRect → Int
  | some b => b.minX
  | none => 0

/-- Modelled from the spec: `getMinY` of an `Option BoxRect` (0 when empty). -/
def regY0 : Option BoxRect → Int
  | some b => b.minY
  | none => 0

/-- `doInsertIntoImage`: pick the explicit region if non-empty else the
footprint's `_region`; fail with InvalidArgument if its size does not match
the image, then fail with InvalidArgument if the id sets bits of the
protected mask; otherwise write the id under every span (rows outside the
region skipped, columns clamped as in the source), with
`*ptr = (*ptr & mask) + id` when overwriting and `*ptr += id` otherwise. -/
def doInsertIntoImage (overwriteId : Bool) (fpRegion : Option BoxRect)
    (spans : List Span) (img : Image) (id : Nat) (region : Option BoxRect)
    (mask : Nat) : Except FpErr Image :=
  let r := if region ≠ none then region else fpRegion
  if ¬(regW r = (img.width : Int) ∧ regH r = (img.height : Int)) then
    .error .invalidArgument
  else if id &&& mask ≠ 0 then .error .invalidArgument
  else .ok (spans.foldl (fun im s =>
    let sy0 := s.y - regY0 r
    if sy0 < 0 ∨ regH r ≤ sy0 then im
    else
      let sx0 := max (s.x0 - regX0 r) 0
      let sx1 := s.x1 - regX0 r
      let swidth := if regW r ≤ sx1 then regW r - sx0 else sx1 - sx0 + 1
      { im with pix := fun xx yy =>
          if yy = sy0 ∧ sx0 ≤ xx ∧ xx ≤ sx0 + swidth - 1 then
            (if overwriteId then (im.pix xx yy &&& mask) + id
             else im.pix xx yy + id) % (img.maxVal + 1)
          else im.pix xx yy }) img)

/-- The `insertIntoImage(idImage, id, region)` overload: calls
`doInsertIntoImage<false>` directly, with no check that the id fits the pixel
type and with protected mask 0. -/
def Footprint.insertIntoImage1 (fp : Footprint) (img : Image) (id : Nat)
    (region : Option BoxRect) : Except FpErr Image :=
  doInsertIntoImage false fp.region fp.spans img id region 0

/-- The `insertIntoImage(idImage, id, overwriteId, mask, oldIds, region)`
overload: fails with OutOfRange when the id exceeds
`numeric_limits<PixelT>::max()`, then runs `doInsertIntoImage`. -/
def Footprint.insertIntoImage2 (fp : Footprint) (img : Image) (id : Nat)
    (overwriteId : Bool) (mask : Nat) (region : Option BoxRect) :
    Except FpErr Image :=
  if img.maxVal < id then .error .outOfRange
  else doInsertIntoImage overwriteId fp.region fp.spans img id region mask

/-- Concrete 1x1 8-bit image for the C8 counterexample. -/
def imgC8 : Image := ⟨1, 1, 255, fun _ _ => 0⟩

/-- Concrete footprint (one pixel, region matching `imgC8`) for C8. -/
def fpC8 : Footprint :=
  ⟨[⟨0, 0, 0⟩], 1, some ⟨0, 0, 0, 0⟩, some ⟨0, 0, 0, 0⟩, true⟩

/-- Fill one span into a boolean row (local index `i = x - xStart`), as
`std::fill(row.begin() + x0 - xStart, row.begin() + x1 + 1 - xStart, true)`. -/
def fillRow (xStart : Int) (f : Int → Bool) (s : Span) : Int → Bool :=
  fun i => if s.x0 - xStart ≤ i ∧ i ≤ s.x1 - xStart then true else f i

/-- Fill a group of spans into a boolean row. -/
def fillRows (xStart : Int) (f : Int → Bool) (group : List Span) : Int → Bool :=
  group.foldl (fillRow xStart) f

/-- The inner column scan of `findEdgePixels` for one span: walk
`x = x0+1 .. x1-1`; while on an edge run, a pixel with both vertical
neighbours ends the run (emitting it); while interior, a pixel missing a
vertical neighbour starts a new edge run at `x`.  After the loop the pending
run (or the single last pixel) is emitted. -/
def edgeScanGo (before after : Int → Bool) (y x1 xStart : Int) :
    Bool → Int → List Int → List Span
  | onEdge, x0cur, [] => if onEdge then [⟨y, x0cur, x1⟩] else [⟨y, x1, x1⟩]
  | onEdge, x0cur, x :: xs =>
    if onEdge then
      if before (x - xStart) ∧ after (x - xStart) then
        ⟨y, x0cur, x - 1⟩ :: edgeScanGo before after y x1 xStart false x0cur xs
      else
        edgeScanGo before after y x1 xStart true x0cur xs
    else
      if ¬ (before (x - xStart) = true) ∨ ¬ (after (x - xStart) = true) then
        edgeScanGo before after y x1 xStart true x xs
      else
        edgeScanGo before after y x1 xStart false x0cur xs

/-- The spans emitted (in order, as `addSpanInSeries` arguments) by the main
loop of `findEdgePixels`: spans on the first or last row are emitted whole;
for any other span, on a row change the three-row window slides (`before` :=
`now`, `now` := `after`, `after` refilled from the spans of the next row read
ahead, rows skipped by the `<=` read-ahead) and the column scan emits the
edge runs of the span. -/
def edgeEmissions (xStart yStart yEnd : Int) :
    (Int → Bool) → (Int → Bool) → (Int → Bool) → Int → List Span →
    List Span → List Span
  | _, _, _, _, _, [] => []
  | before, now, after, yLast, ahead, s :: rest =>
    if s.y = yStart ∨ s.y = yEnd then
      (⟨s.y, s.x0, s.x1⟩ : Span) ::
        edgeEmissions xStart yStart yEnd before now after yLast ahead rest
    else if s.y ≠ yLast then
      let a1 := ahead.dropWhile (fun t => t.y ≤ s.y)
      let grp := a1.takeWhile (fun t => t.y = s.y + 1)
      let after2 := fillRows xStart (fun _ => false) grp
      edgeScanGo now after2 s.y s.x1 xStart true s.x0
          (intRange (s.x0 + 1) (s.x1 - 1)) ++
        edgeEmissions xStart yStart yEnd now after after2 s.y
          (a1.drop grp.length) rest
    else
      edgeScanGo before after s.y s.x1 xStart true s.x0
          (intRange (s.x0 + 1) (s.x1 - 1)) ++
        edgeEmissions xStart yStart yEnd before now after yLast ahead rest

/-- Append a list of spans to a footprint through `addSpanInSeries`,
propagating the first failure. -/
def emitAll (fp : Footprint) : List Span → Except FpErr Footprint
  | [] => .ok fp
  | s :: rest =>
    match fp.addSpanInSeries s.y s.x0 s.x1 with
    | .error e => .error e
    | .ok fp2 => emitAll fp2 rest

/-- `Footprint::findEdgePixels()`: fail with InvalidArgument on a
non-normalized footprint; return a copy when the bbox height or the span
count is at most 2; otherwise run the three-row sliding-window scan (window
preloaded with the first two row groups), appending every emitted edge run
through `addSpanInSeries` into a fresh footprint, and normalize the result.
The emitted runs are computed by `edgeEmissions` (they do not depend on the
accumulating footprint) and appended in emission order, exactly as the
interleaved `addSpanInSeries` calls of the source do. -/
def Footprint.findEdgePixels (fp : Footprint) : Except FpErr Footprint :=
  if fp.normalized = false then .error .invalidArgument
  else if regH fp.bbox ≤ 2 ∨ fp.spans.length ≤ 2 then .ok fp
  else
    let xStart := regX0 fp.bbox
    let yStart := regY0 fp.bbox
    let yEnd := (fp.spans.getLast?.getD ⟨0, 0, 0⟩).y
    let g1 := fp.spans.takeWhile (fun t => t.y = yStart)
    let r1 := fp.spans.drop g1.length
    let g2 := r1.takeWhile (fun t => t.y = yStart + 1)
    let r2 := r1.drop g2.length
    let rowNow := fillRows xStart (fun _ => false) g1
    let rowAfter := fillRows xStart (fun _ => false) g2
    let ems := edgeEmissions xStart yStart yEnd
      (fun _ => false) rowNow rowAfter yStart r2 fp.spans
    match emitAll (Footprint.mkEmpty none) ems with
    | .error e => .error e
    | .ok edges => .ok edges.normalize

/-- The edge footprint of the 1x4 rectangle of the C6 counterexample. -/
def edgeC6 : Footprint :=
  match (rectFootprint 0 0 0 3 none).findEdgePixels with
  | .ok f => f
  | .error _ => Footprint.mkEmpty none

/-- The edge runs `findEdgePixels` emits for one interior row of a solid
rectangle of columns `[x0, x1]`: the whole row when the rectangle is two
columns wide, otherwise the two boundary pixels. -/
def scanEmit (x0 x1 y : Int) : List Span :=
  if x0 + 1 = x1 then [⟨y, x0, x1⟩] else [⟨y, x0, x0⟩, ⟨y, x1, x1⟩]

/-- The inner `while (true)` absorption loop of `_mergeFootprints`: starting
from a span on row `y` reaching `x1`, repeatedly consume the next span of A
(preferred) or of B while it lies on row `y` and starts at or before
`x1 + 1`, extending the reach to its `x1`.  Returns the final reach and how
many spans of each list were consumed (the iterator advances). -/
def absorb : Int → Int → List Span → List Span → Int × Nat × Nat
  | y, x1, a :: aT, bL =>
    if a.y = y ∧ a.x0 ≤ x1 + 1 then
      let r := absorb y (max x1 a.x1) aT bL
      (r.1, r.2.1 + 1, r.2.2)
    else
      match bL with
      | b :: bT =>
        if b.y = y ∧ b.x0 ≤ x1 + 1 then
          let r := absorb y (max x1 b.x1) (a :: aT) bT
          (r.1, r.2.1, r.2.2 + 1)
        else (x1, 0, 0)
      | [] => (x1, 0, 0)
  | y, x1, [], b :: bT =>
    if b.y = y ∧ b.x0 ≤ x1 + 1 then
      let r := absorb y (max x1 b.x1) [] bT
      (r.1, r.2.1, r.2.2 + 1)
    else (x1, 0, 0)
  | _, x1, [], [] => (x1, 0, 0)
termination_by y x1 aL bL => aL.length + bL.length
decreasing_by
  all_goals simp only [List.length_cons]
  all_goals omega

/-- The two-pointer sweep of `_mergeFootprints` over the span lists of A and
B, emitting through `addSpanInSeries` into the accumulating footprint: the
positionally earlier non-touching span is emitted whole; otherwise the two
heads overlap or touch and the merged span, extended over all connected
spans by `absorb`, is emitted.  When either list is exhausted the remaining
spans of the other are appended one by one (the two trailing `for` loops),
which is exactly `emitAll`. -/
def mergeLoop : List Span → List Span → Footprint → Except FpErr Footprint
  | [], bL, fp => emitAll fp bL
  | aL, [], fp => emitAll fp aL
  | a :: aT, b :: bT, fp =>
    if a.y < b.y ∨ (a.y = b.y ∧ a.x1 < b.x0 - 1) then
      match fp.addSpanInSeries a.y a.x0 a.x1 with
      | .error e => .error e
      | .ok fp2 => mergeLoop aT (b :: bT) fp2
    else if b.y < a.y ∨ (a.y = b.y ∧ b.x1 < a.x0 - 1) then
      match fp.addSpanInSeries b.y b.x0 b.x1 with
      | .error e => .error e
      | .ok fp2 => mergeLoop (a :: aT) bT fp2
    else
      let x0 := min a.x0 b.x0
      let x1 := max a.x1 b.x1
      let r := absorb a.y x1 aT bT
      match fp.addSpanInSeries a.y x0 r.1 with
      | .error e => .error e
      | .ok fp2 => mergeLoop (aT.drop r.2.1) (bT.drop r.2.2) fp2
termination_by aL bL fp => aL.length + bL.length
decreasing_by
  all_goals simp only [List.length_cons, List.length_drop]
  all_goals omega

/-- `_mergeFootprints(aFoot, bFoot)`: run the merge sweep into a fresh
default footprint (`new Footprint()`: no spans, area 0, empty bbox).  The
peak-catalog concatenation of the source is not modelled: it does not touch
spans or area. -/
def mergeFootprintsCore (f1 f2 : Footprint) : Except FpErr Footprint :=
  mergeLoop f1.spans f2.spans (Footprint.mkEmpty none)

/-- `mergeFootprints(Footprint const&, Footprint const&)`: require both
inputs normalized (else InvalidParameter), then run the core merge. -/
def mergeFootprints (f1 f2 : Footprint) : Except FpErr Footprint :=
  if ¬(f1.normalized = true) ∨ ¬(f2.normalized = true) then
    .error .invalidArgument
  else mergeFootprintsCore f1 f2

/-- `mergeFootprints(Footprint&, Footprint&)`: normalize both inputs in
place, then run the core merge. -/
def mergeFootprintsMut (f1 f2 : Footprint) : Except FpErr Footprint :=
  mergeFootprintsCore f1.normalize f2.normalize

/-- A diamond (Manhattan) `StructuringElement(Shape::DIAMOND, r)`: one span
per `dy` from `-r` to `r` with half-width `r - |dy|`; its `_yRange` is
`2r + 1`. -/
def diamondElement (r : Int) : List Span :=
  (intRange (-r) r).map (fun dy => (⟨dy, -(r - |dy|), r - |dy|⟩ : Span))

/-- `std::set<std::pair<int,int>>::insert`: insert a pair into the sorted
(lexicographic, duplicate-free) list of pairs. -/
def rowInsert (pr : Int × Int) : List (Int × Int) → List (Int × Int)
  | [] => [pr]
  | q :: rest =>
    if pr.1 < q.1 ∨ (pr.1 = q.1 ∧ pr.2 < q.2) then pr :: q :: rest
    else if pr = q then q :: rest
    else q :: rowInsert pr rest

/-- The inner merge pass of `growFootprintImpl` over one row's sorted pair
set: starting a run at `(start, e)`, absorb following pairs while they begin
at or before `e + 1`, extending the end by `max`; emit the run when a gap of
at least 2 appears. -/
def coalGo (start e : Int) : List (Int × Int) → List (Int × Int)
  | [] => [(start, e)]
  | q :: rest =>
    if q.1 ≤ e + 1 then coalGo start (max e q.2) rest
    else (start, e) :: coalGo q.1 q.2 rest

/-- One full merge pass (`newSpans` construction) over a row's pair set. -/
def rowCoalesce : List (Int × Int) → List (Int × Int)
  | [] => []
  | q :: rest => coalGo q.1 q.2 rest

/-- `spans[yval].insert(xmin, xmax)` followed by the merge pass on that row:
the `std::map` keyed by `y` is a y-sorted association list; a missing row is
created (insertion into the empty set). -/
def mapInsert (y0 : Int) (pr : Int × Int) :
    List (Int × List (Int × Int)) → List (Int × List (Int × Int))
  | [] => [(y0, rowCoalesce (rowInsert pr []))]
  | (y, ps) :: rest =>
    if y0 < y then (y0, rowCoalesce (rowInsert pr [])) :: (y, ps) :: rest
    else if y0 = y then (y, rowCoalesce (rowInsert pr ps)) :: rest
    else (y, ps) :: mapInsert y0 pr rest

/-- The double loop of `growFootprintImpl` building the proto-footprint map:
for every span and every structuring-element row, insert the dilated
interval and re-merge that row. -/
def growAccum (spans elem : List Span) : List (Int × List (Int × Int)) :=
  spans.foldl (fun acc s =>
    elem.foldl (fun acc2 e =>
      mapInsert (s.y + e.y) (s.x0 + e.x0, s.x1 + e.x1) acc2) acc) []

/-- Flatten the proto-footprint map in (y, xmin) order, as the trailing
emission loops of `growFootprintImpl` visit it. -/
def accFlatten (acc : List (Int × List (Int × Int))) : List Span :=
  acc.flatMap (fun rp => rp.2.map (fun p => (⟨rp.1, p.1, p.2⟩ : Span)))

/-- `growFootprintImpl(foot, element)`: build the proto-footprint map, then
append every merged span through `addSpanInSeries` into an empty footprint
carrying `foot`'s region (the peak-catalog copy is not modelled). -/
def growFootprintImpl (fp : Footprint) (elem : List Span) :
    Except FpErr Footprint :=
  emitAll (Footprint.mkEmpty fp.region) (accFlatten (growAccum fp.spans elem))

/-- `growFootprint(foot, nGrow, false)` (the non-isotropic overload the
claim uses): an unchanged copy when `nGrow <= 0` or the footprint has no
pixels (`getNpix() == 0`, the area accumulator), else the RLE dilation with
the diamond element. -/
def growFootprint (fp : Footprint) (nGrow : Int) : Except FpErr Footprint :=
  if nGrow ≤ 0 ∨ fp.area = 0 then .ok fp
  else growFootprintImpl fp (diamondElement nGrow)

/-- `PrimaryRun {m, y, xmin, xmax}` of the Kim et al. erosion. -/
structure PrimaryRun where
  m : Int
  y : Int
  xmin : Int
  xmax : Int
deriving DecidableEq

/-- All primary runs: for every span and every element row (indexed by `m`)
no wider than the span, the run `[x0 - e.x0, x1 - e.x1]` on row `y - e.y`. -/
def primaryRuns (spans elem : List Span) : List PrimaryRun :=
  spans.flatMap (fun s =>
    (elem.enum).filterMap (fun em =>
      if em.2.x1 - em.2.x0 ≤ s.x1 - s.x0 then
        some ⟨(em.1 : Int), s.y - em.2.y, s.x0 - em.2.x0, s.x1 - em.2.x1⟩
      else none))

/-- `comparePrimaryRun` as a weak order: lexicographic on (y, m, xmin).
`std::sort` leaves the order of ties unspecified; ties in the comparator
with different `xmax` are ordered arbitrarily by this insertion sort (the
claim's use never produces such ties). -/
def prLeB (p q : PrimaryRun) : Bool :=
  if p.y = q.y then
    if p.m = q.m then p.xmin ≤ q.xmin else p.m < q.m
  else p.y < q.y

/-- Insertion into a `prLeB`-sorted list. -/
def prInsert (p : PrimaryRun) : List PrimaryRun → List PrimaryRun
  | [] => [p]
  | q :: rest => if prLeB p q then p :: q :: rest else q :: prInsert p rest

/-- `std::sort(primaryRuns, comparePrimaryRun)` as an insertion sort. -/
def prSort (l : List PrimaryRun) : List PrimaryRun :=
  l.foldr prInsert []

/-- The consolidation loop of `shrinkFootprintImpl` over the sorted runs at
one `(y, m)`: `end_x` is assigned (not max-ed) from each continuation run,
exactly as the source does. -/
def consolidate (m y : Int) : Int → Int → List PrimaryRun → List PrimaryRun
  | start, e, [] => [⟨m, y, start, e⟩]
  | start, e, r :: rest =>
    if r.xmin > e then ⟨m, y, start, e⟩ :: consolidate m y r.xmin r.xmax rest
    else consolidate m y start r.xmax rest

/-- The intersection step: every nonempty pairwise intersection of a good
run with a candidate run. -/
def intersectRuns (m y : Int) (good cand : List PrimaryRun) :
    List PrimaryRun :=
  good.flatMap (fun g => cand.filterMap (fun c =>
    if max g.xmin c.xmin ≤ min g.xmax c.xmax then
      some ⟨m, y, max g.xmin c.xmin, min g.xmax c.xmax⟩
    else none))

/-- The `m` loop whittling down the good runs for one row: a missing `m`
clears the list (Kim et al. step 3.2); `m = 0` accepts its consolidated
candidates; later `m`s intersect. -/
def goodFold (M : Nat) (yRuns : List PrimaryRun) (y : Int) :
    List PrimaryRun :=
  (List.range M).foldl (fun good (m : Nat) =>
    match yRuns.filter (fun r => r.m = (m : Int)) with
    | [] => []
    | r0 :: rest =>
      let cand := consolidate (m : Int) y r0.xmin r0.xmax rest
      if m = 0 then cand else intersectRuns (m : Int) y good cand) []

/-- One iteration of the row loop of `shrinkFootprintImpl`: skip the row
when it has fewer runs than the element's y-range (step 3.1), else add all
good runs with plain `addSpan`. -/
def shrinkRow (M : Nat) (runs : List PrimaryRun) (acc : Footprint)
    (y : Int) : Footprint :=
  let yRuns := runs.filter (fun r => r.y = y)
  if yRuns.length < M then acc
  else (goodFold M yRuns y).foldl
    (fun fp r => fp.addSpan r.y r.xmin r.xmax) acc

/-- `shrinkFootprintImpl(foot, element)`: sort the primary runs, loop `y`
from the first run's row to the last run's row, and normalize the result.
`primaryRuns.front()` on an empty vector is undefined behavior, modelled as
`none` (the peak filtering is not modelled). -/
def shrinkFootprintImpl (fp : Footprint) (elem : List Span) (M : Nat) :
    Option Footprint :=
  match prSort (primaryRuns fp.spans elem) with
  | [] => none
  | r0 :: rest =>
    some (((intRange r0.y ((r0 :: rest).getLast (List.cons_ne_nil r0 rest)).y).foldl
      (shrinkRow M (r0 :: rest)) (Footprint.mkEmpty fp.region)).normalize)

/-- `shrinkFootprint(foot, nShrink, false)` (the non-isotropic overload the
claim uses): the RLE erosion with the diamond element of radius `nShrink`,
whose y-range is `2*nShrink + 1`. -/
def shrinkFootprint (fp : Footprint) (nShrink : Int) : Option Footprint :=
  shrinkFootprintImpl fp (diamondElement nShrink) (2 * nShrink + 1).toNat

/-- Strict lexicographic order on interval pairs (the `std::set` order). -/
def rowLt (p q : Int × Int) : Prop := p.1 < q.1 ∨ (p.1 = q.1 ∧ p.2 < q.2)

/-- Horizontal separation of interval pairs: a gap of at least one pixel. -/
def rowSepP (p q : Int × Int) : Prop := p.2 + 1 < q.1

/-- A column is covered by some pair of the row set. -/
def pairCov (ps : List (Int × Int)) (x : Int) : Prop :=
  ∃ p ∈ ps, p.1 ≤ x ∧ x ≤ p.2

/-- Invariant of the proto-footprint map: row keys strictly increasing,
each row's pairs separated and valid. -/
def accOK (acc : List (Int × List (Int × Int))) : Prop :=
  acc.Pairwise (fun rp rq => rp.1 < rq.1) ∧
  ∀ rp ∈ acc, rp.2.Pairwise rowSepP ∧ ∀ p ∈ rp.2, p.1 ≤ p.2

/-- Pixel membership in the proto-footprint map. -/
def accPix (acc : List (Int × List (Int × Int))) (x y : Int) : Prop :=
  ∃ rp ∈ acc, rp.1 = y ∧ pairCov rp.2 x

/-- The dilation pixel set: some span shifted by some element row covers
the pixel. -/
def dilPix (spans elem : List Span) (x y : Int) : Prop :=
  ∃ s ∈ spans, ∃ e ∈ elem, y = s.y + e.y ∧ s.x0 + e.x0 ≤ x ∧ x ≤ s.x1 + e.x1

/-! ### Sorting lemmas -/

theorem spanLeB_iff (s t : Span) : spanLeB s t = true ↔ spanLexLe s t := by
  simp [spanLeB, spanLexLe]

theorem spanLexLe_total (s t : Span) : spanLexLe s t ∨ spanLexLe t s := by
  unfold spanLexLe; omega

theorem spanLexLe_trans {a b c : Span} (h1 : spanLexLe a b) (h2 : spanLexLe b c) :
    spanLexLe a c := by
  unfold spanLexLe at *; omega

theorem insertSorted_perm (s : Span) (l : List Span) :
    List.Perm (insertSorted s l) (s :: l) := by
  induction l with
  | nil => simp [insertSorted]
  | cons t ts ih =>
    by_cases h : spanLeB s t
    · simp [insertSorted, h]
    · simp only [insertSorted, h, if_neg, Bool.false_eq_true, if_false]
      exact ((ih.cons t).trans (List.Perm.swap s t ts))

theorem mem_insertSorted {u s : Span} {l : List Span} :
    u ∈ insertSorted s l ↔ u = s ∨ u ∈ l := by
  have h := (insertSorted_perm s l).mem_iff (a := u)
  simpa using h

theorem insertSorted_pairwise {s : Span} {l : List Span}
    (h : l.Pairwise spanLexLe) : (insertSorted s l).Pairwise spanLexLe := by
  induction l with
  | nil => simp [insertSorted]
  | cons t ts ih =>
    rcases List.pairwise_cons.mp h with ⟨ht, hts⟩
    by_cases hc : spanLeB s t
    · have hst : spanLexLe s t := (spanLeB_iff s t).mp hc
      simp only [insertSorted, hc, if_true]
      refine List.pairwise_cons.mpr ⟨?_, h⟩
      intro u hu
      rcases List.mem_cons.mp hu with rfl | hu
      · exact hst
      · exact spanLexLe_trans hst (ht u hu)
    · have hts' : spanLexLe t s := by
        rcases spanLexLe_total s t with h1 | h1
        · exact absurd ((spanLeB_iff s t).mpr h1) hc
        · exact h1
      simp only [insertSorted, hc, Bool.false_eq_true, if_false]
      refine List.pairwise_cons.mpr ⟨?_, ih hts⟩
      intro u hu
      rcases mem_insertSorted.mp hu with rfl | hu
      · exact hts'
      · exact ht u hu

theorem sortSpans_perm (l : List Span) : List.Perm (sortSpans l) l := by
  induction l with
  | nil => simp [sortSpans]
  | cons s ss ih =>
    exact (insertSorted_perm s (sortSpans ss)).trans (ih.cons s)

theorem sortSpans_pairwise (l : List Span) : (sortSpans l).Pairwise spanLexLe := by
  induction l with
  | nil => simp [sortSpans]
  | cons s ss ih => exact insertSorted_pairwise ih

/-! ### Claim C5: addSpanInSeries rejects out-of-series spans -/

/-- Claim C5: calling `addSpanInSeries` on a non-empty Footprint with a span
that is neither a contiguous same-row extension of the last span nor strictly
after it fails with InvalidArgument, returning no mutated state (the check
precedes every mutation); in particular `addSpanInSeries(5,3,3)` followed by
`addSpanInSeries(5,0,1)` fails with InvalidArgument. -/
theorem addSpanInSeries_out_of_series (fp : Footprint) (y x0 x1 : Int)
    (last : Span) (hl : fp.spans.getLast? = some last) (hx : x0 ≤ x1)
    (hnc : ¬(y = last.y ∧ x0 = last.x1 + 1))
    (hna : ¬(y > last.y ∨ x0 > last.x1 + 1)) :
    fp.addSpanInSeries y x0 x1 = .error .invalidArgument ∧
    Except.bind ((Footprint.mkEmpty none).addSpanInSeries 5 3 3)
      (fun f => f.addSpanInSeries 5 0 1) = .error .invalidArgument := by
  constructor
  · unfold Footprint.addSpanInSeries
    rw [hl]
    have hmin : min x0 x1 = x0 := by omega
    simp only [hmin]
    rw [if_neg hnc, if_pos hna]
  · rfl

/-- Witness for C5: the general part applied to the concrete two-call
scenario of the claim. -/
theorem addSpanInSeries_out_of_series_witness :
    (⟨[⟨5, 3, 3⟩], 1, some ⟨3, 5, 3, 5⟩, none, true⟩ : Footprint).addSpanInSeries
      5 0 1 = .error .invalidArgument :=
  (addSpanInSeries_out_of_series ⟨[⟨5, 3, 3⟩], 1, some ⟨3, 5, 3, 5⟩, none, true⟩
    5 0 1 ⟨5, 3, 3⟩ (by decide) (by decide) (by decide) (by decide)).1

/-! ### Lemmas about the normalize sweep -/

theorem normSweep_shape (l : List Span) :
    ∀ (cur : Span) (a mX MX : Int), ∃ z t,
      (normSweep cur a mX MX l).spans = ⟨cur.y, cur.x0, z⟩ :: t ∧ cur.x1 ≤ z := by
  induction l with
  | nil =>
    intro cur a mX MX
    exact ⟨cur.x1, [], rfl, le_refl _⟩
  | cons r rest ih =>
    intro cur a mX MX
    by_cases hm : r.y = cur.y ∧ r.x0 ≤ cur.x1 + 1
    · by_cases hx : cur.x1 < r.x1
      · simp only [normSweep, if_pos hm, if_pos hx]
        obtain ⟨z, t, hspan, hz⟩ :=
          ih ⟨cur.y, cur.x0, r.x1⟩ (a + (r.x1 - cur.x1)) mX (if MX < r.x1 then r.x1 else MX)
        refine ⟨z, t, hspan, ?_⟩
        try dsimp only at hz
        omega
      · simp only [normSweep, if_pos hm, if_neg hx]
        exact ih cur a mX MX
    · simp only [normSweep, if_neg hm]
      exact ⟨cur.x1,
        (normSweep r (a + r.width) (if r.x0 < mX then r.x0 else mX)
          (if MX < r.x1 then r.x1 else MX) rest).spans, rfl, le_refl _⟩

theorem normSweep_area (l : List Span) :
    ∀ (cur : Span) (a mX MX : Int),
      (normSweep cur a mX MX l).area =
        a + sumWidths (normSweep cur a mX MX l).spans - cur.width := by
  induction l with
  | nil =>
    intro cur a mX MX
    simp [normSweep, sumWidths]
  | cons r rest ih =>
    intro cur a mX MX
    by_cases hm : r.y = cur.y ∧ r.x0 ≤ cur.x1 + 1
    · by_cases hx : cur.x1 < r.x1
      · simp only [normSweep, if_pos hm, if_pos hx]
        have h := ih ⟨cur.y, cur.x0, r.x1⟩ (a + (r.x1 - cur.x1)) mX
          (if MX < r.x1 then r.x1 else MX)
        rw [h]
        simp only [Span.width]
        omega
      · simp only [normSweep, if_pos hm, if_neg hx]
        exact ih cur a mX MX
    · simp only [normSweep, if_neg hm]
      have h := ih r (a + r.width) (if r.x0 < mX then r.x0 else mX)
        (if MX < r.x1 then r.x1 else MX)
      simp only [sumWidths, List.map_cons, List.sum_cons] at *
      rw [h]
      simp only [Span.width]
      omega

theorem normSweep_minX (l : List Span) :
    ∀ (cur : Span) (a mX MX : Int),
      (normSweep cur a mX MX l).minX =
        (normSweep cur a mX MX l).spans.tail.foldl (fun m s => min m s.x0) mX := by
  induction l with
  | nil =>
    intro cur a mX MX
    simp [normSweep]
  | cons r rest ih =>
    intro cur a mX MX
    by_cases hm : r.y = cur.y ∧ r.x0 ≤ cur.x1 + 1
    · by_cases hx : cur.x1 < r.x1
      · simp only [normSweep, if_pos hm, if_pos hx]
        exact ih ⟨cur.y, cur.x0, r.x1⟩ _ _ _
      · simp only [normSweep, if_pos hm, if_neg hx]
        exact ih cur a mX MX
    · simp only [normSweep, if_neg hm, List.tail_cons]
      obtain ⟨z, t, hspan, hz⟩ := normSweep_shape rest r (a + r.width)
        (if r.x0 < mX then r.x0 else mX) (if MX < r.x1 then r.x1 else MX)
      have h := ih r (a + r.width) (if r.x0 < mX then r.x0 else mX)
        (if MX < r.x1 then r.x1 else MX)
      rw [h, hspan, List.tail_cons, List.foldl_cons]
      have hminr : min mX (⟨r.y, r.x0, z⟩ : Span).x0 = (if r.x0 < mX then r.x0 else mX) := by
        try dsimp only
        omega
      rw [hminr]

theorem normSweep_maxX (l : List Span) :
    ∀ (cur : Span) (a mX MX : Int), cur.x1 ≤ MX →
      (normSweep cur a mX MX l).maxX =
        (normSweep cur a mX MX l).spans.foldl (fun m s => max m s.x1) MX := by
  induction l with
  | nil =>
    intro cur a mX MX hMX
    simp only [normSweep, List.foldl_cons, List.foldl_nil]
    omega
  | cons r rest ih =>
    intro cur a mX MX hMX
    by_cases hm : r.y = cur.y ∧ r.x0 ≤ cur.x1 + 1
    · by_cases hx : cur.x1 < r.x1
      · simp only [normSweep, if_pos hm, if_pos hx]
        obtain ⟨z, t, hspan, hz⟩ := normSweep_shape rest ⟨cur.y, cur.x0, r.x1⟩
          (a + (r.x1 - cur.x1)) mX (if MX < r.x1 then r.x1 else MX)
        have h := ih ⟨cur.y, cur.x0, r.x1⟩ (a + (r.x1 - cur.x1)) mX
          (if MX < r.x1 then r.x1 else MX) (by (try dsimp only); omega)
        rw [h, hspan, List.foldl_cons, List.foldl_cons]
        have : max (if MX < r.x1 then r.x1 else MX) (⟨cur.y, cur.x0, z⟩ : Span).x1 =
            max MX (⟨cur.y, cur.x0, z⟩ : Span).x1 := by
          simp only [] at hz ⊢
          omega
        rw [this]
      · simp only [normSweep, if_pos hm, if_neg hx]
        exact ih cur a mX MX hMX
    · simp only [normSweep, if_neg hm, List.foldl_cons]
      obtain ⟨z, t, hspan, hz⟩ := normSweep_shape rest r (a + r.width)
        (if r.x0 < mX then r.x0 else mX) (if MX < r.x1 then r.x1 else MX)
      have h := ih r (a + r.width) (if r.x0 < mX then r.x0 else mX)
        (if MX < r.x1 then r.x1 else MX) (by omega)
      rw [h, hspan, List.foldl_cons, List.foldl_cons]
      have h1 : max (if MX < r.x1 then r.x1 else MX) (⟨r.y, r.x0, z⟩ : Span).x1 =
          max (max MX cur.x1) (⟨r.y, r.x0, z⟩ : Span).x1 := by
        try dsimp only at hz ⊢
        omega
      rw [h1]

theorem normSweep_sep (l : List Span) :
    ∀ (cur : Span) (a mX MX : Int),
      cur.x0 ≤ cur.x1 → (∀ s ∈ l, s.x0 ≤ s.x1) → l.Pairwise spanLexLe →
      (∀ s ∈ l, cur.y ≤ s.y) →
      (normSweep cur a mX MX l).spans.Pairwise sep ∧
      (∀ u ∈ (normSweep cur a mX MX l).spans,
        u.x0 ≤ u.x1 ∧ cur.y ≤ u.y ∧ u.y ≤ (normSweep cur a mX MX l).lastY) ∧
      (∃ w ∈ (normSweep cur a mX MX l).spans, w.y = (normSweep cur a mX MX l).lastY) := by
  induction l with
  | nil =>
    intro cur a mX MX hwc _ _ _
    refine ⟨List.pairwise_singleton _ _, ?_, ⟨cur, by simp [normSweep], by simp [normSweep]⟩⟩
    intro u hu
    simp only [normSweep, List.mem_singleton] at hu ⊢
    subst hu
    exact ⟨hwc, le_refl _, le_refl _⟩
  | cons r rest ih =>
    intro cur a mX MX hwc hwl hpl hyl
    rcases List.pairwise_cons.mp hpl with ⟨hrall, hprest⟩
    have hrestwf : ∀ s ∈ rest, s.x0 ≤ s.x1 := fun s hs => hwl s (List.mem_cons_of_mem r hs)
    have hrwf : r.x0 ≤ r.x1 := hwl r (List.mem_cons_self _ _)
    have hcury : cur.y ≤ r.y := hyl r (List.mem_cons_self _ _)
    have hresty : ∀ s ∈ rest, r.y ≤ s.y := by
      intro s hs
      rcases hrall s hs with h | ⟨h, _⟩
      · omega
      · omega
    by_cases hm : r.y = cur.y ∧ r.x0 ≤ cur.x1 + 1
    · by_cases hx : cur.x1 < r.x1
      · simp only [normSweep, if_pos hm, if_pos hx]
        have hresty' : ∀ s ∈ rest, (⟨cur.y, cur.x0, r.x1⟩ : Span).y ≤ s.y := by
          intro s hs
          try dsimp only
          have := hresty s hs
          omega
        have := ih ⟨cur.y, cur.x0, r.x1⟩ (a + (r.x1 - cur.x1)) mX
          (if MX < r.x1 then r.x1 else MX) (by (try dsimp only); omega) hrestwf hprest hresty'
        exact this
      · simp only [normSweep, if_pos hm, if_neg hx]
        have hresty' : ∀ s ∈ rest, cur.y ≤ s.y := by
          intro s hs
          have := hresty s hs
          omega
        exact ih cur a mX MX hwc hrestwf hprest hresty'
    · simp only [normSweep, if_neg hm]
      obtain ⟨hps, hall, hex⟩ := ih r (a + r.width) (if r.x0 < mX then r.x0 else mX)
        (if MX < r.x1 then r.x1 else MX) hrwf hrestwf hprest hresty
      obtain ⟨z, t, hspan, hz⟩ := normSweep_shape rest r (a + r.width)
        (if r.x0 < mX then r.x0 else mX) (if MX < r.x1 then r.x1 else MX)
      have hsepcur : ∀ u ∈ (normSweep r (a + r.width) (if r.x0 < mX then r.x0 else mX)
          (if MX < r.x1 then r.x1 else MX) rest).spans, sep cur u := by
        intro u hu
        rw [hspan] at hu
        have hhead : sep cur ⟨r.y, r.x0, z⟩ := by
          unfold sep
          try dsimp only
          omega
        rcases List.mem_cons.mp hu with rfl | hu
        · exact hhead
        · have hsep2 : sep (⟨r.y, r.x0, z⟩ : Span) u := by
            rw [hspan] at hps
            exact (List.pairwise_cons.mp hps).1 u hu
          have hwfh : (⟨r.y, r.x0, z⟩ : Span).x0 ≤ (⟨r.y, r.x0, z⟩ : Span).x1 := by
            try dsimp only
            omega
          unfold sep at hhead hsep2 ⊢
          try dsimp only at hhead hsep2 hwfh
          omega
      refine ⟨List.pairwise_cons.mpr ⟨hsepcur, hps⟩, ?_, ?_⟩
      · intro u hu
        rcases List.mem_cons.mp hu with rfl | hu
        · try dsimp only
          obtain ⟨w, hw, hwy⟩ := hex
          have := (hall w hw).2.1
          have := (hall w hw).2.2
          exact ⟨hwc, le_refl _, by omega⟩
        · obtain ⟨h1, h2, h3⟩ := hall u hu
          exact ⟨h1, by omega, h3⟩
      · obtain ⟨w, hw, hwy⟩ := hex
        exact ⟨w, List.mem_cons_of_mem cur hw, hwy⟩

theorem normSweep_pix (l : List Span) :
    ∀ (cur : Span) (a mX MX : Int),
      cur.x0 ≤ cur.x1 → (∀ s ∈ l, s.x0 ≤ s.x1) → l.Pairwise spanLexLe →
      (∀ s ∈ l, cur.y < s.y ∨ (cur.y = s.y ∧ cur.x0 ≤ s.x0)) →
      ∀ x y, memPix (normSweep cur a mX MX l).spans x y ↔
        (Span.containsPix cur x y ∨ memPix l x y) := by
  induction l with
  | nil =>
    intro cur a mX MX _ _ _ _ x y
    simp [normSweep, memPix]
  | cons r rest ih =>
    intro cur a mX MX hwc hwl hpl hH x y
    rcases List.pairwise_cons.mp hpl with ⟨hrall, hprest⟩
    have hrestwf : ∀ s ∈ rest, s.x0 ≤ s.x1 := fun s hs => hwl s (List.mem_cons_of_mem r hs)
    have hrwf : r.x0 ≤ r.x1 := hwl r (List.mem_cons_self _ _)
    have hHr := hH r (List.mem_cons_self _ _)
    by_cases hm : r.y = cur.y ∧ r.x0 ≤ cur.x1 + 1
    · have hcx0 : cur.x0 ≤ r.x0 := by
        rcases hHr with h | ⟨_, h⟩
        · omega
        · exact h
      have hHrest : ∀ s ∈ rest, cur.y < s.y ∨ (cur.y = s.y ∧ cur.x0 ≤ s.x0) := by
        intro s hs
        rcases hrall s hs with h | ⟨h1, h2⟩
        · left; omega
        · rcases h2 with h2 | ⟨h2, _⟩
          · right; constructor
            · omega
            · omega
          · right; constructor
            · omega
            · omega
      by_cases hx : cur.x1 < r.x1
      · simp only [normSweep, if_pos hm, if_pos hx]
        have hHrest' : ∀ s ∈ rest, (⟨cur.y, cur.x0, r.x1⟩ : Span).y < s.y ∨
            ((⟨cur.y, cur.x0, r.x1⟩ : Span).y = s.y ∧
             (⟨cur.y, cur.x0, r.x1⟩ : Span).x0 ≤ s.x0) := by
          intro s hs
          exact hHrest s hs
        have h := ih ⟨cur.y, cur.x0, r.x1⟩ (a + (r.x1 - cur.x1)) mX
          (if MX < r.x1 then r.x1 else MX) (by (try dsimp only); omega) hrestwf hprest hHrest' x y
        rw [h]
        unfold Span.containsPix
        simp only [memPix, List.mem_cons]
        constructor
        · rintro (⟨h1, h2, h3⟩ | ⟨s, hs, hcont⟩)
          · try dsimp only at h1 h2 h3
            by_cases hle : x ≤ cur.x1
            · exact Or.inl ⟨h1, h2, hle⟩
            · exact Or.inr ⟨r, Or.inl rfl, by unfold Span.containsPix; omega⟩
          · exact Or.inr ⟨s, Or.inr hs, hcont⟩
        · rintro (⟨h1, h2, h3⟩ | ⟨s, hs | hs, hcont⟩)
          · exact Or.inl ⟨h1, by (try dsimp only); omega⟩
          · subst hs
            unfold Span.containsPix at hcont
            exact Or.inl ⟨by (try dsimp only); omega, by (try dsimp only); omega⟩
          · exact Or.inr ⟨s, hs, hcont⟩
      · simp only [normSweep, if_pos hm, if_neg hx]
        have h := ih cur a mX MX hwc hrestwf hprest hHrest x y
        rw [h]
        simp only [memPix, List.mem_cons]
        constructor
        · rintro (h1 | ⟨s, hs, hcont⟩)
          · exact Or.inl h1
          · exact Or.inr ⟨s, Or.inr hs, hcont⟩
        · rintro (h1 | ⟨s, hs | hs, hcont⟩)
          · exact Or.inl h1
          · subst hs
            unfold Span.containsPix at hcont
            unfold Span.containsPix
            exact Or.inl (by omega)
          · exact Or.inr ⟨s, hs, hcont⟩
    · simp only [normSweep, if_neg hm]
      have hHrest : ∀ s ∈ rest, r.y < s.y ∨ (r.y = s.y ∧ r.x0 ≤ s.x0) := by
        intro s hs
        rcases hrall s hs with h | ⟨h1, h2⟩
        · left; exact h
        · rcases h2 with h2 | ⟨h2, _⟩
          · right; exact ⟨h1, by omega⟩
          · right; exact ⟨h1, by omega⟩
      have h := ih r (a + r.width) (if r.x0 < mX then r.x0 else mX)
        (if MX < r.x1 then r.x1 else MX) hrwf hrestwf hprest hHrest x y
      simp only [memPix, List.mem_cons] at h ⊢
      constructor
      · rintro ⟨s, hs | hs, hcont⟩
        · subst hs
          exact Or.inl hcont
        · rcases h.mp ⟨s, hs, hcont⟩ with h1 | ⟨u, hu, hcu⟩
          · exact Or.inr ⟨r, Or.inl rfl, h1⟩
          · exact Or.inr ⟨u, Or.inr hu, hcu⟩
      · rintro (h1 | ⟨s, hs | hs, hcont⟩)
        · exact ⟨cur, Or.inl rfl, h1⟩
        · subst hs
          rcases h.mpr (Or.inl hcont) with ⟨u, hu, hcu⟩
          exact ⟨u, Or.inr hu, hcu⟩
        · rcases h.mpr (Or.inr ⟨s, hs, hcont⟩) with ⟨u, hu, hcu⟩
          exact ⟨u, Or.inr hu, hcu⟩

/-! ### Helper lemmas for the normalize invariant -/

theorem pairwise_sep_lexLt {l : List Span} (hp : l.Pairwise sep)
    (hw : ∀ u ∈ l, u.x0 ≤ u.x1) : l.Pairwise spanLexLt := by
  induction l with
  | nil => exact List.Pairwise.nil
  | cons h t ih =>
    rcases List.pairwise_cons.mp hp with ⟨hall, hrest⟩
    refine List.pairwise_cons.mpr ⟨?_, ih hrest (fun u hu => hw u (List.mem_cons_of_mem h hu))⟩
    intro u hu
    have hs := hall u hu
    have hwh := hw h (List.mem_cons_self _ _)
    unfold sep at hs
    unfold spanLexLt
    omega

theorem foldl_min_y_const (t : List Span) :
    ∀ i : Int, (∀ u ∈ t, i ≤ u.y) → t.foldl (fun m s => min m s.y) i = i := by
  induction t with
  | nil => intro i _; rfl
  | cons h t ih =>
    intro i hall
    rw [List.foldl_cons]
    have h1 : min i h.y = i := by
      have := hall h (List.mem_cons_self _ _)
      omega
    rw [h1]
    exact ih i (fun u hu => hall u (List.mem_cons_of_mem h hu))

theorem foldl_max_y_le (t : List Span) :
    ∀ (i M : Int), (∀ u ∈ t, u.y ≤ M) → i ≤ M →
      t.foldl (fun m s => max m s.y) i ≤ M := by
  induction t with
  | nil => intro i M _ hi; exact hi
  | cons h t ih =>
    intro i M hall hi
    rw [List.foldl_cons]
    refine ih _ M (fun u hu => hall u (List.mem_cons_of_mem h hu)) ?_
    have := hall h (List.mem_cons_self _ _)
    omega

theorem foldl_max_y_ge_init (t : List Span) :
    ∀ i : Int, i ≤ t.foldl (fun m s => max m s.y) i := by
  induction t with
  | nil => intro i; exact le_refl _
  | cons h t ih =>
    intro i
    rw [List.foldl_cons]
    have := ih (max i h.y)
    omega

theorem foldl_max_y_ge_mem (t : List Span) :
    ∀ (i : Int) (u : Span), u ∈ t → u.y ≤ t.foldl (fun m s => max m s.y) i := by
  induction t with
  | nil => intro i u hu; cases hu
  | cons h t ih =>
    intro i u hu
    rw [List.foldl_cons]
    rcases List.mem_cons.mp hu with rfl | hu
    · have := foldl_max_y_ge_init t (max i u.y)
      omega
    · exact ih _ u hu

theorem tightBox_cons (h : Span) (t : List Span) :
    tightBox (h :: t) = some ⟨t.foldl (fun m s => min m s.x0) h.x0,
                              t.foldl (fun m s => min m s.y) h.y,
                              t.foldl (fun m s => max m s.x1) h.x1,
                              t.foldl (fun m s => max m s.y) h.y⟩ := by
  suffices hgen : ∀ (t : List Span) (b : BoxRect),
      t.foldl (fun b t => (⟨min b.minX t.x0, min b.minY t.y,
                           max b.maxX t.x1, max b.maxY t.y⟩ : BoxRect)) b =
        ⟨t.foldl (fun m s => min m s.x0) b.minX,
         t.foldl (fun m s => min m s.y) b.minY,
         t.foldl (fun m s => max m s.x1) b.maxX,
         t.foldl (fun m s => max m s.y) b.maxY⟩ by
    simp only [tightBox]
    rw [hgen t ⟨h.x0, h.y, h.x1, h.y⟩]
  intro t
  induction t with
  | nil => intro b; rfl
  | cons u t ih =>
    intro b
    simp only [List.foldl_cons]
    exact ih ⟨min b.minX u.x0, min b.minY u.y, max b.maxX u.x1, max b.maxY u.y⟩

theorem memPix_perm {l l' : List Span} (h : List.Perm l l') (x y : Int) :
    memPix l x y ↔ memPix l' x y := by
  unfold memPix
  constructor
  · rintro ⟨s, hs, hc⟩
    exact ⟨s, h.mem_iff.mp hs, hc⟩
  · rintro ⟨s, hs, hc⟩
    exact ⟨s, h.mem_iff.mpr hs, hc⟩

/-! ### Claim C1: the normalization invariant -/

/-- Claim C1, counterexample: on `fpBad` (built as `addSpan(5,0,1)`;
`addSpan(3,0,1)`; `addSpanInSeries(6,0,1)`, all succeeding), `normalize()`
returns with the span list not sorted by `(y, x0, x1)`, refuting the claim's
universal quantification over every Footprint. -/
theorem c1_counterexample :
    fpBad.normalized = true ∧
    fpBad.normalize.spans = [⟨5, 0, 1⟩, ⟨3, 0, 1⟩, ⟨6, 0, 1⟩] ∧
    ¬ fpBad.normalize.spans.Pairwise spanLexLe := by
  decide

/-- Claim C1 (amended): for every Footprint whose spans satisfy the Span
invariant `x0 ≤ x1` and whose `_normalized` flag is false when `normalize()`
is called (so that the normalization pass actually runs; `addSpanInSeries` can
leave the flag spuriously true after out-of-order `addSpan` calls), after
`normalize()` returns the span list is sorted strictly by `(y, x0, x1)`, no
two spans on the same row overlap or touch (every later same-row span starts
strictly beyond `x1 + 1`), the area equals the sum of span widths, and the
bbox is the tight enclosing box of the spans. -/
theorem c1_normalize_establishes_invariant (fp : Footprint)
    (hwf : wfS fp.spans) (hflag : fp.normalized = false) :
    fp.normalize.spans.Pairwise spanLexLt ∧
    fp.normalize.spans.Pairwise sep ∧
    fp.normalize.area = sumWidths fp.normalize.spans ∧
    fp.normalize.bbox = tightBox fp.normalize.spans := by
  unfold Footprint.normalize
  rw [hflag]
  simp only [Bool.false_eq_true, if_false]
  rcases hs : sortSpans fp.spans with _ | ⟨s, rest⟩
  · have hperm := sortSpans_perm fp.spans
    rw [hs] at hperm
    have hnil : fp.spans = [] := hperm.symm.eq_nil
    refine ⟨?_, ?_, ?_, ?_⟩ <;> simp [hnil, sumWidths, tightBox]
  · have hperm := sortSpans_perm fp.spans
    rw [hs] at hperm
    have hsorted := sortSpans_pairwise fp.spans
    rw [hs] at hsorted
    rcases List.pairwise_cons.mp hsorted with ⟨hsall, hprest⟩
    have hwfsorted : ∀ u ∈ (s :: rest), u.x0 ≤ u.x1 := by
      intro u hu
      exact hwf u (hperm.mem_iff.mp hu)
    have hwfs : s.x0 ≤ s.x1 := hwfsorted s (List.mem_cons_self _ _)
    have hwfrest : ∀ u ∈ rest, u.x0 ≤ u.x1 :=
      fun u hu => hwfsorted u (List.mem_cons_of_mem s hu)
    have hyrest : ∀ u ∈ rest, s.y ≤ u.y := by
      intro u hu
      have := hsall u hu
      unfold spanLexLe at this
      omega
    obtain ⟨hps, hall, hex⟩ :=
      normSweep_sep rest s s.width s.x0 s.x1 hwfs hwfrest hprest hyrest
    obtain ⟨z, t, hspan, hz⟩ := normSweep_shape rest s s.width s.x0 s.x1
    have harea := normSweep_area rest s s.width s.x0 s.x1
    have hminX := normSweep_minX rest s s.width s.x0 s.x1
    have hmaxX := normSweep_maxX rest s s.width s.x0 s.x1 (le_refl _)
    refine ⟨?_, ?_, ?_, ?_⟩
    · exact pairwise_sep_lexLt hps (fun u hu => (hall u hu).1)
    · exact hps
    · simp only []
      omega
    · simp only []
      rw [hspan, tightBox_cons]
      have e1 : (normSweep s s.width s.x0 s.x1 rest).minX =
          t.foldl (fun m s => min m s.x0) (⟨s.y, s.x0, z⟩ : Span).x0 := by
        rw [hminX, hspan, List.tail_cons]
      have e2 : s.y = t.foldl (fun m s => min m s.y) (⟨s.y, s.x0, z⟩ : Span).y := by
        refine (foldl_min_y_const t _ ?_).symm
        intro u hu
        have := (hall u (by rw [hspan]; exact List.mem_cons_of_mem _ hu)).2.1
        try dsimp only
        omega
      have e3 : (normSweep s s.width s.x0 s.x1 rest).maxX =
          t.foldl (fun m s => max m s.x1) (⟨s.y, s.x0, z⟩ : Span).x1 := by
        rw [hmaxX, hspan, List.foldl_cons]
        have : max s.x1 (⟨s.y, s.x0, z⟩ : Span).x1 = (⟨s.y, s.x0, z⟩ : Span).x1 := by
          try dsimp only
          omega
        rw [this]
      have e4 : (normSweep s s.width s.x0 s.x1 rest).lastY =
          t.foldl (fun m s => max m s.y) (⟨s.y, s.x0, z⟩ : Span).y := by
        have hub : t.foldl (fun m s => max m s.y) (⟨s.y, s.x0, z⟩ : Span).y ≤
            (normSweep s s.width s.x0 s.x1 rest).lastY := by
          refine foldl_max_y_le t _ _ ?_ ?_
          · intro u hu
            exact (hall u (by rw [hspan]; exact List.mem_cons_of_mem _ hu)).2.2
          · exact (hall ⟨s.y, s.x0, z⟩ (by rw [hspan]; exact List.mem_cons_self _ _)).2.2
        have hlb : (normSweep s s.width s.x0 s.x1 rest).lastY ≤
            t.foldl (fun m s => max m s.y) (⟨s.y, s.x0, z⟩ : Span).y := by
          obtain ⟨w, hw, hwy⟩ := hex
          rw [hspan] at hw
          rcases List.mem_cons.mp hw with rfl | hw
          · rw [← hwy]
            exact foldl_max_y_ge_init t _
          · rw [← hwy]
            exact foldl_max_y_ge_mem t _ w hw
        omega
      try dsimp only at e1 e2 e3 e4
      simp only [Option.some.injEq, BoxRect.mk.injEq]
      exact ⟨e1, e2, e3, e4⟩

/-- Witness for C1 (amended): the hypotheses and conclusion instantiated on a
concrete unnormalized Footprint with overlapping, unsorted spans. -/
theorem c1_witness :
    wfS (⟨[⟨0, 3, 5⟩, ⟨0, 0, 4⟩, ⟨1, 2, 2⟩], 11, none, none, false⟩ : Footprint).spans ∧
    (⟨[⟨0, 3, 5⟩, ⟨0, 0, 4⟩, ⟨1, 2, 2⟩], 11, none, none, false⟩ : Footprint).normalized = false ∧
    ((⟨[⟨0, 3, 5⟩, ⟨0, 0, 4⟩, ⟨1, 2, 2⟩], 11, none, none,
        false⟩ : Footprint).normalize.spans.Pairwise spanLexLt ∧
     (⟨[⟨0, 3, 5⟩, ⟨0, 0, 4⟩, ⟨1, 2, 2⟩], 11, none, none,
        false⟩ : Footprint).normalize.spans.Pairwise sep ∧
     (⟨[⟨0, 3, 5⟩, ⟨0, 0, 4⟩, ⟨1, 2, 2⟩], 11, none, none,
        false⟩ : Footprint).normalize.area =
       sumWidths (⟨[⟨0, 3, 5⟩, ⟨0, 0, 4⟩, ⟨1, 2, 2⟩], 11, none, none,
        false⟩ : Footprint).normalize.spans ∧
     (⟨[⟨0, 3, 5⟩, ⟨0, 0, 4⟩, ⟨1, 2, 2⟩], 11, none, none,
        false⟩ : Footprint).normalize.bbox =
       tightBox (⟨[⟨0, 3, 5⟩, ⟨0, 0, 4⟩, ⟨1, 2, 2⟩], 11, none, none,
        false⟩ : Footprint).normalize.spans) :=
  ⟨by decide, rfl,
   c1_normalize_establishes_invariant
     ⟨[⟨0, 3, 5⟩, ⟨0, 0, 4⟩, ⟨1, 2, 2⟩], 11, none, none, false⟩ (by decide) rfl⟩

/-! ### Claim C9: normalize preserves the pixel set -/

/-- Claim C9: `normalize()` never changes the set of pixels a Footprint
covers — for every Footprint (whose spans satisfy the Span invariant
`x0 ≤ x1`, which every constructor enforces by swapping), a pixel is in some
span before the call iff it is in some span after. -/
theorem c9_normalize_preserves_pixels (fp : Footprint) (hwf : wfS fp.spans) :
    ∀ x y, memPix fp.normalize.spans x y ↔ memPix fp.spans x y := by
  intro x y
  unfold Footprint.normalize
  by_cases hflag : fp.normalized
  · rw [if_pos hflag]
  · rw [if_neg hflag]
    rcases hs : sortSpans fp.spans with _ | ⟨s, rest⟩
    · simp only []
    · have hperm := sortSpans_perm fp.spans
      rw [hs] at hperm
      have hsorted := sortSpans_pairwise fp.spans
      rw [hs] at hsorted
      rcases List.pairwise_cons.mp hsorted with ⟨hsall, hprest⟩
      have hwfsorted : ∀ u ∈ (s :: rest), u.x0 ≤ u.x1 := by
        intro u hu
        exact hwf u (hperm.mem_iff.mp hu)
      have hwfs : s.x0 ≤ s.x1 := hwfsorted s (List.mem_cons_self _ _)
      have hwfrest : ∀ u ∈ rest, u.x0 ≤ u.x1 :=
        fun u hu => hwfsorted u (List.mem_cons_of_mem s hu)
      have hH : ∀ u ∈ rest, s.y < u.y ∨ (s.y = u.y ∧ s.x0 ≤ u.x0) := by
        intro u hu
        have := hsall u hu
        unfold spanLexLe at this
        omega
      have h := normSweep_pix rest s s.width s.x0 s.x1 hwfs hwfrest hprest hH x y
      simp only []
      rw [h]
      have : (Span.containsPix s x y ∨ memPix rest x y) ↔ memPix (s :: rest) x y := by
        simp [memPix]
      rw [this]
      exact memPix_perm hperm x y

/-- Witness for C9: the theorem applied to a concrete Footprint and pixel. -/
theorem c9_witness :
    wfS (⟨[⟨0, 3, 5⟩, ⟨0, 0, 4⟩], 9, none, none, false⟩ : Footprint).spans ∧
    (memPix (⟨[⟨0, 3, 5⟩, ⟨0, 0, 4⟩], 9, none, none,
        false⟩ : Footprint).normalize.spans 3 0 ↔
     memPix (⟨[⟨0, 3, 5⟩, ⟨0, 0, 4⟩], 9, none, none, false⟩ : Footprint).spans 3 0) :=
  ⟨by decide,
   c9_normalize_preserves_pixels ⟨[⟨0, 3, 5⟩, ⟨0, 0, 4⟩], 9, none, none, false⟩
     (by decide) 3 0⟩

/-! ### Claim C10 and intersectMask lemmas -/

/-- Claim C10: the claim asserts that the leading scan of `intersectMask`
never dereferences the end of the span list; the code evaluates
`(*s)->getY()` before testing `s != _spans.end()`, so on an empty footprint
(or one all of whose spans lie on rows before the mask's first row) it
dereferences the end iterator.  The theorem evaluates the scan (end
dereference modelled as `none`) at both failing inputs. -/
theorem c10_lead_scan_dereferences_end :
    leadScan [] 0 = none ∧
    (Footprint.mkEmpty none).intersectMask ⟨0, 0, 4, 4, fun _ _ => 0⟩ 1 = none ∧
    (⟨[⟨-5, 0, 1⟩], 2, some ⟨0, -5, 1, -5⟩, none, true⟩ : Footprint).intersectMask
      ⟨0, 0, 4, 4, fun _ _ => 0⟩ 1 = none :=
  ⟨rfl, rfl, rfl⟩

theorem mem_intRange {x a b : Int} : x ∈ intRange a b ↔ a ≤ x ∧ x ≤ b := by
  simp only [intRange, List.mem_map, List.mem_range]
  constructor
  · rintro ⟨n, hn, rfl⟩
    omega
  · rintro ⟨h1, h2⟩
    exact ⟨(x - a).toNat, by omega, by omega⟩

theorem intRange_pairwise (a b : Int) :
    (intRange a b).Pairwise (fun u v => u < v) := by
  unfold intRange
  rw [List.pairwise_map]
  refine (List.pairwise_lt_range _).imp ?_
  intro hmn
  omega

theorem intRange_length_of_le {a b : Int} (h : a ≤ b + 1) :
    ((intRange a b).length : Int) = b - a + 1 := by
  rw [intRange, List.length_map, List.length_range]
  omega

theorem length_filter_not_add {α : Type} (p : α → Bool) (l : List α) :
    (l.filter p).length + (l.filter (fun x => !(p x))).length = l.length := by
  induction l with
  | nil => rfl
  | cons x xs ih =>
    rw [List.filter_cons, List.filter_cons]
    by_cases hp : p x
    · simp only [hp, if_true, Bool.not_true, Bool.false_eq_true, if_false, List.length_cons]
      omega
    · have hp' : p x = false := by simpa using hp
      simp only [hp', Bool.false_eq_true, if_false, Bool.not_false, if_true, List.length_cons]
      omega

theorem sumWidths_append (l1 l2 : List Span) :
    sumWidths (l1 ++ l2) = sumWidths l1 + sumWidths l2 := by
  simp [sumWidths]

theorem sliceGo_spec (p : Int → Bool) (y x1 : Int) :
    ∀ (xs : List Int) (cur : Int),
      (∀ u, cur ≤ u → u ≤ x1 → (u ∈ xs ∨ p u = false)) →
      xs.Pairwise (fun u v => u < v) →
      (∀ u ∈ xs, cur ≤ u ∧ u ≤ x1) →
      cur ≤ x1 + 1 →
      (∀ s ∈ sliceGo p y x1 cur xs,
        s.y = y ∧ cur ≤ s.x0 ∧ s.x0 ≤ s.x1 ∧ s.x1 ≤ x1 ∧
        ∀ u, s.x0 ≤ u → u ≤ s.x1 → p u = false) ∧
      sumWidths (sliceGo p y x1 cur xs) =
        (x1 - cur + 1) - ((xs.filter p).length : Int) := by
  intro xs
  induction xs with
  | nil =>
    intro cur hcov _ _ hle
    by_cases hc : cur ≤ x1
    · refine ⟨?_, ?_⟩
      · intro s hs
        simp only [sliceGo, if_pos hc, List.mem_singleton] at hs
        subst hs
        refine ⟨rfl, le_refl _, hc, le_refl _, ?_⟩
        intro u hu1 hu2
        rcases hcov u hu1 hu2 with h | h
        · cases h
        · exact h
      · simp [sliceGo, if_pos hc, sumWidths, Span.width]
    · refine ⟨?_, ?_⟩
      · intro s hs
        simp only [sliceGo, if_neg hc] at hs
        cases hs
      · simp only [sliceGo, if_neg hc, sumWidths, List.map_nil, List.sum_nil,
          List.filter_nil, List.length_nil]
        omega
  | cons x xs ih =>
    intro cur hcov hpw hbound hle
    obtain ⟨hcx1, hcx2⟩ := hbound x (List.mem_cons_self _ _)
    rcases List.pairwise_cons.mp hpw with ⟨hlt, hpw'⟩
    by_cases hp : p x
    · have hcov' : ∀ u, x + 1 ≤ u → u ≤ x1 → (u ∈ xs ∨ p u = false) := by
        intro u h1 h2
        rcases hcov u (by omega) h2 with h | h
        · rcases List.mem_cons.mp h with rfl | h
          · omega
          · exact Or.inl h
        · exact Or.inr h
      have hbound' : ∀ u ∈ xs, x + 1 ≤ u ∧ u ≤ x1 := by
        intro u hu
        have := hlt u hu
        have := (hbound u (List.mem_cons_of_mem x hu)).2
        omega
      obtain ⟨ihmem, ihsum⟩ := ih (x + 1) hcov' hpw' hbound' (by omega)
      simp only [sliceGo, hp, if_true]
      by_cases hcx : cur < x
      · rw [if_pos hcx]
        refine ⟨?_, ?_⟩
        · intro s hs
          rcases List.mem_append.mp hs with hs | hs
          · simp only [List.mem_singleton] at hs
            subst hs
            refine ⟨rfl, le_refl _, by (try dsimp only); omega,
              by (try dsimp only); omega, ?_⟩
            intro u h1 h2
            rcases hcov u h1 (by try dsimp only at h2; omega) with h | h
            · rcases List.mem_cons.mp h with rfl | h
              · try dsimp only at h2
                omega
              · have := hlt u h
                try dsimp only at h2
                omega
            · exact h
          · obtain ⟨h1, h2, h3, h4, h5⟩ := ihmem s hs
            exact ⟨h1, by omega, h3, h4, h5⟩
        · rw [sumWidths_append, ihsum]
          simp only [sumWidths, List.map_cons, List.map_nil, List.sum_cons, List.sum_nil,
            Span.width, List.filter_cons, hp, if_true, List.length_cons]
          try dsimp only
          push_cast
          omega
      · rw [if_neg hcx]
        simp only [List.nil_append]
        refine ⟨?_, ?_⟩
        · intro s hs
          obtain ⟨h1, h2, h3, h4, h5⟩ := ihmem s hs
          exact ⟨h1, by omega, h3, h4, h5⟩
        · rw [ihsum]
          simp only [List.filter_cons, hp, if_true, List.length_cons]
          push_cast
          omega
    · have hcov' : ∀ u, cur ≤ u → u ≤ x1 → (u ∈ xs ∨ p u = false) := by
        intro u h1 h2
        rcases hcov u h1 h2 with h | h
        · rcases List.mem_cons.mp h with rfl | h
          · exact Or.inr (by simpa using hp)
          · exact Or.inl h
        · exact Or.inr h
      have hbound' : ∀ u ∈ xs, cur ≤ u ∧ u ≤ x1 :=
        fun u hu => hbound u (List.mem_cons_of_mem x hu)
      obtain ⟨ihmem, ihsum⟩ := ih cur hcov' hpw' hbound' hle
      simp only [sliceGo, hp, Bool.false_eq_true, if_false]
      refine ⟨ihmem, ?_⟩
      rw [ihsum]
      simp only [List.filter_cons, hp, Bool.false_eq_true, if_false]

theorem leadScan_spec :
    ∀ (l : List Span) (minY : Int) (tl : List Span), leadScan l minY = some tl →
      ∃ pre, l = pre ++ tl ∧ (∀ s ∈ pre, s.y < minY) ∧
        ∃ h t, tl = h :: t ∧ minY ≤ h.y := by
  intro l
  induction l with
  | nil => intro minY tl h; cases h
  | cons s rest ih =>
    intro minY tl h
    by_cases hy : s.y < minY
    · simp only [leadScan, if_pos hy] at h
      obtain ⟨pre, heq, hpre, hhead⟩ := ih minY tl h
      refine ⟨s :: pre, ?_, ?_, hhead⟩
      · rw [heq, List.cons_append]
      · intro u hu
        rcases List.mem_cons.mp hu with rfl | hu
        · exact hy
        · exact hpre u hu
    · simp only [leadScan, if_neg hy, Option.some.injEq] at h
      refine ⟨[], ?_, ?_, ⟨s, rest, h.symm, by omega⟩⟩
      · rw [List.nil_append, h]
      · intro u hu
        cases hu

theorem sumWidths_nonneg {l : List Span} (hwf : ∀ s ∈ l, s.x0 ≤ s.x1) :
    0 ≤ sumWidths l := by
  induction l with
  | nil => simp [sumWidths]
  | cons s rest ih =>
    have h1 := hwf s (List.mem_cons_self _ _)
    have h2 := ih (fun u hu => hwf u (List.mem_cons_of_mem s hu))
    simp only [sumWidths, List.map_cons, List.sum_cons, Span.width] at h2 ⊢
    omega

theorem contribIm_le_width (mb : BoxRect) (p2 : Int → Int → Bool) (s : Span)
    (hwf : s.x0 ≤ s.x1) (hmb : mb.minX ≤ mb.maxX) :
    contribIm mb p2 s ≤ s.width := by
  unfold contribIm
  by_cases hc : mb.maxY < s.y ∨ s.x1 < mb.minX ∨ mb.maxX < s.x0
  · rw [if_pos hc]
    unfold Span.width
    omega
  · rw [if_neg hc]
    push_neg at hc
    obtain ⟨_, h1, h2⟩ := hc
    have hab : max s.x0 mb.minX ≤ min s.x1 mb.maxX + 1 := by omega
    have hcount : countUnmasked (fun x => p2 x s.y)
        (max s.x0 mb.minX) (min s.x1 mb.maxX) =
        ((intRange (max s.x0 mb.minX) (min s.x1 mb.maxX)).filter
          (fun x => !(p2 x s.y))).length := rfl
    rw [hcount]
    have hlen := intRange_length_of_le hab
    have hle := List.length_filter_le (fun x => !(p2 x s.y))
      (intRange (max s.x0 mb.minX) (min s.x1 mb.maxX))
    unfold Span.width
    omega

theorem imLoop_spec (mb : BoxRect) (p2 : Int → Int → Bool)
    (hmb : mb.minX ≤ mb.maxX) :
    ∀ (l : List Span), l.Pairwise sep → (∀ s ∈ l, s.x0 ≤ s.x1) →
      (∀ s' ∈ imLoop mb p2 l,
        (∃ s ∈ l, s.y = s'.y) ∧ s'.x0 ≤ s'.x1 ∧
        ∀ u, s'.x0 ≤ u → u ≤ s'.x1 → p2 u s'.y = false) ∧
      sumWidths (imLoop mb p2 l) = (l.map (contribIm mb p2)).sum := by
  intro l
  induction l with
  | nil =>
    intro _ _
    exact ⟨(by intro s' hs'; cases hs'), (by simp [imLoop, sumWidths])⟩
  | cons s rest ih =>
    intro hpw hwf
    rcases List.pairwise_cons.mp hpw with ⟨hsall, hprest⟩
    have hwfs : s.x0 ≤ s.x1 := hwf s (List.mem_cons_self _ _)
    have hwfrest : ∀ u ∈ rest, u.x0 ≤ u.x1 :=
      fun u hu => hwf u (List.mem_cons_of_mem s hu)
    obtain ⟨ihmem, ihsum⟩ := ih hprest hwfrest
    by_cases hbr : mb.maxY < s.y
    · simp only [imLoop, if_pos hbr]
      refine ⟨(by intro s' hs'; cases hs'), ?_⟩
      have hzero : ∀ u ∈ (s :: rest).map (contribIm mb p2), u = 0 := by
        intro u hu
        rcases List.mem_map.mp hu with ⟨v, hv, rfl⟩
        rcases List.mem_cons.mp hv with rfl | hv
        · unfold contribIm
          rw [if_pos (Or.inl hbr)]
        · have hsep := hsall v hv
          unfold sep at hsep
          unfold contribIm
          rw [if_pos (Or.inl (by omega))]
      rw [List.sum_eq_zero hzero]
      simp [sumWidths]
    · by_cases hsk : s.x1 < mb.minX ∨ mb.maxX < s.x0
      · simp only [imLoop, if_neg hbr, if_pos hsk]
        refine ⟨?_, ?_⟩
        · intro s' hs'
          obtain ⟨⟨u, hu, huy⟩, h2, h3⟩ := ihmem s' hs'
          exact ⟨⟨u, List.mem_cons_of_mem s hu, huy⟩, h2, h3⟩
        · rw [ihsum]
          simp only [List.map_cons, List.sum_cons]
          have hz : contribIm mb p2 s = 0 := by
            unfold contribIm
            rw [if_pos (Or.inr hsk)]
          rw [hz]
          omega
      · simp only [imLoop, if_neg hbr, if_neg hsk]
        push_neg at hsk
        obtain ⟨h1, h2⟩ := hsk
        have hab : max s.x0 mb.minX ≤ min s.x1 mb.maxX := by omega
        obtain ⟨smem, ssum⟩ := sliceGo_spec (fun x => p2 x s.y) s.y
          (min s.x1 mb.maxX) (intRange (max s.x0 mb.minX) (min s.x1 mb.maxX))
          (max s.x0 mb.minX)
          (by intro u hu1 hu2; exact Or.inl (mem_intRange.mpr ⟨hu1, hu2⟩))
          (intRange_pairwise _ _)
          (by intro u hu; exact mem_intRange.mp hu)
          (by omega)
        refine ⟨?_, ?_⟩
        · intro s' hs'
          rcases List.mem_append.mp hs' with hs' | hs'
          · obtain ⟨hy, _, hwfs', _, hunm⟩ := smem s' hs'
            refine ⟨⟨s, List.mem_cons_self _ _, hy.symm⟩, hwfs', ?_⟩
            intro u hu1 hu2
            rw [hy]
            exact hunm u hu1 hu2
          · obtain ⟨⟨u, hu, huy⟩, hh2, hh3⟩ := ihmem s' hs'
            exact ⟨⟨u, List.mem_cons_of_mem s hu, huy⟩, hh2, hh3⟩
        · rw [sumWidths_append, ihsum]
          simp only [List.map_cons, List.sum_cons]
          have hcon : contribIm mb p2 s =
              ((intRange (max s.x0 mb.minX) (min s.x1 mb.maxX)).filter
                (fun x => !(p2 x s.y))).length := by
            unfold contribIm
            rw [if_neg (by push_neg; exact ⟨by omega, by omega, by omega⟩)]
            rfl
          rw [hcon]
          unfold spanSlices
          rw [ssum]
          have hlen := intRange_length_of_le (a := max s.x0 mb.minX)
            (b := min s.x1 mb.maxX) (by omega)
          have hfl := length_filter_not_add (fun x => p2 x s.y)
            (intRange (max s.x0 mb.minX) (min s.x1 mb.maxX))
          push_cast
          omega

/-- Claim C2: for every normalized Footprint, mask (of positive dimensions)
and bitmask, when `intersectMask(mask, bitmask)` returns (the leading scan
not running off the list): every pixel of every surviving span reads from the
mask with `(pixel & bitmask) == 0`; the resulting area is the exact number of
kept (unmasked) pixels and is at most the original area; and the resulting
bbox is the original bbox intersected with the mask's bbox. -/
theorem c2_intersectMask (fp : Footprint) (m : Mask) (bm : Nat)
    (hw : 1 ≤ m.width) (hh : 1 ≤ m.height)
    (hnorm : fp.normalized = true) (hsep : fp.spans.Pairwise sep)
    (hwf : wfS fp.spans) (harea : fp.area = sumWidths fp.spans)
    (fp' : Footprint) (hres : fp.intersectMask m bm = some fp') :
    (∀ s ∈ fp'.spans, ∀ x : Int, s.x0 ≤ x → x ≤ s.x1 →
        (m.pix (x - m.bbox.minX) (s.y - m.bbox.minY)) &&& bm = 0) ∧
    fp'.area = keptCount fp m bm ∧
    fp'.area ≤ fp.area ∧
    fp'.bbox = boxClip fp.bbox m.bbox := by
  have hnn : fp.normalize = fp := by
    simp [Footprint.normalize, hnorm]
  have hmbx : m.bbox.minX ≤ m.bbox.maxX := by
    simp only [Mask.bbox]
    omega
  simp only [Footprint.intersectMask] at hres
  rw [hnn] at hres
  rcases hscan : leadScan fp.spans m.bbox.minY with _ | tl
  · rw [hscan] at hres
    cases hres
  · rw [hscan] at hres
    simp only [Option.some.injEq] at hres
    subst hres
    obtain ⟨pre, heq, hpre, h0, t0, htl, hminy⟩ :=
      leadScan_spec fp.spans m.bbox.minY tl hscan
    have hsep2 : (pre ++ tl).Pairwise sep := by rw [← heq]; exact hsep
    have hsept : tl.Pairwise sep := (List.pairwise_append.mp hsep2).2.1
    have hwft : ∀ s ∈ tl, s.x0 ≤ s.x1 := by
      intro s hs
      exact hwf s (by rw [heq]; exact List.mem_append_right pre hs)
    have hwfp : ∀ s ∈ pre, s.x0 ≤ s.x1 := by
      intro s hs
      exact hwf s (by rw [heq]; exact List.mem_append_left tl hs)
    have htly : ∀ s ∈ tl, m.bbox.minY ≤ s.y := by
      intro s hs
      rw [htl] at hs hsept
      rcases List.mem_cons.mp hs with rfl | hs
      · exact hminy
      · have := (List.pairwise_cons.mp hsept).1 s hs
        unfold sep at this
        omega
    obtain ⟨hmem, hsum⟩ := imLoop_spec m.bbox
      (fun x y => (m.pix (x - m.bbox.minX) (y - m.bbox.minY)) &&& bm != 0)
      hmbx tl hsept hwft
    refine ⟨?_, ?_, ?_, ?_⟩
    · intro s hs x hx1 hx2
      obtain ⟨_, _, h3⟩ := hmem s hs
      have := h3 x hx1 hx2
      simp only [bne_eq_false_iff_eq] at this
      exact this
    · show sumWidths (imLoop m.bbox
        (fun x y => (m.pix (x - m.bbox.minX) (y - m.bbox.minY)) &&& bm != 0) tl) =
        keptCount fp m bm
      rw [hsum]
      unfold keptCount
      rw [heq, List.map_append, List.sum_append]
      have hzero : ∀ v ∈ pre.map (fun s =>
          if s.y < m.bbox.minY then 0
          else contribIm m.bbox
            (fun x y => (m.pix (x - m.bbox.minX) (y - m.bbox.minY)) &&& bm != 0) s),
          v = (0 : Int) := by
        intro v hv
        rcases List.mem_map.mp hv with ⟨u, hu, rfl⟩
        rw [if_pos (hpre u hu)]
      rw [List.sum_eq_zero hzero]
      have hcongr : tl.map (fun s =>
          if s.y < m.bbox.minY then 0
          else contribIm m.bbox
            (fun x y => (m.pix (x - m.bbox.minX) (y - m.bbox.minY)) &&& bm != 0) s) =
          tl.map (contribIm m.bbox
            (fun x y => (m.pix (x - m.bbox.minX) (y - m.bbox.minY)) &&& bm != 0)) := by
        refine List.map_congr_left ?_
        intro u hu
        rw [if_neg (by have := htly u hu; omega)]
      rw [hcongr]
      omega
    · show sumWidths (imLoop m.bbox
        (fun x y => (m.pix (x - m.bbox.minX) (y - m.bbox.minY)) &&& bm != 0) tl) ≤
        fp.area
      rw [hsum, harea, heq, sumWidths_append]
      have hle1 : (tl.map (contribIm m.bbox
          (fun x y => (m.pix (x - m.bbox.minX) (y - m.bbox.minY)) &&& bm != 0))).sum ≤
          (tl.map Span.width).sum := by
        refine List.sum_le_sum ?_
        intro u hu
        exact contribIm_le_width m.bbox _ u (hwft u hu) hmbx
      have hle2 : (0 : Int) ≤ sumWidths pre := sumWidths_nonneg hwfp
      have : sumWidths tl = (tl.map Span.width).sum := rfl
      omega
    · rfl

/-- Witness for C2: the theorem applied to a concrete footprint and mask. -/
theorem c2_witness :
    (1 ≤ mC2.width ∧ 1 ≤ mC2.height ∧ fpC2.normalized = true ∧
     fpC2.spans.Pairwise sep ∧ wfS fpC2.spans ∧
     fpC2.area = sumWidths fpC2.spans ∧
     fpC2.intersectMask mC2 1 = some fpC2') ∧
    ((∀ s ∈ fpC2'.spans, ∀ x : Int, s.x0 ≤ x → x ≤ s.x1 →
        (mC2.pix (x - mC2.bbox.minX) (s.y - mC2.bbox.minY)) &&& 1 = 0) ∧
     fpC2'.area = keptCount fpC2 mC2 1 ∧
     fpC2'.area ≤ fpC2.area ∧
     fpC2'.bbox = boxClip fpC2.bbox mC2.bbox) :=
  ⟨⟨by decide, by decide, rfl, by decide, by decide, by decide, rfl⟩,
   c2_intersectMask fpC2 mC2 1 (by decide) (by decide) rfl (by decide) (by decide)
     (by decide) fpC2' rfl⟩

/-! ### Claims C7 and C8 -/

theorem setMaskStep_geom (bm : Nat) (acc : Mask) (s : Span) :
    (setMaskStep bm acc s).x0 = acc.x0 ∧ (setMaskStep bm acc s).y0 = acc.y0 ∧
    (setMaskStep bm acc s).width = acc.width ∧
    (setMaskStep bm acc s).height = acc.height := by
  unfold setMaskStep
  by_cases h : s.y - acc.y0 < 0 ∨ (acc.height : Int) ≤ s.y - acc.y0
  · rw [if_pos h]
    exact ⟨rfl, rfl, rfl, rfl⟩
  · rw [if_neg h]
    exact ⟨rfl, rfl, rfl, rfl⟩

theorem setMaskFold_geom (bm : Nat) :
    ∀ (l : List Span) (mk : Mask),
      (l.foldl (setMaskStep bm) mk).x0 = mk.x0 ∧
      (l.foldl (setMaskStep bm) mk).y0 = mk.y0 ∧
      (l.foldl (setMaskStep bm) mk).width = mk.width ∧
      (l.foldl (setMaskStep bm) mk).height = mk.height := by
  intro l
  induction l with
  | nil => intro mk; exact ⟨rfl, rfl, rfl, rfl⟩
  | cons s rest ih =>
    intro mk
    rw [List.foldl_cons]
    obtain ⟨g1, g2, g3, g4⟩ := ih (setMaskStep bm mk s)
    obtain ⟨s1, s2, s3, s4⟩ := setMaskStep_geom bm mk s
    exact ⟨by rw [g1, s1], by rw [g2, s2], by rw [g3, s3], by rw [g4, s4]⟩

theorem setMaskStep_pix (bm : Nat) (acc : Mask) (s : Span) (x y : Int) :
    (setMaskStep bm acc s).pix x y =
      if y = s.y - acc.y0 ∧ 0 ≤ y ∧ y < (acc.height : Int) ∧
         clampW (acc.width : Int) (s.x0 - acc.x0) ≤ x ∧
         x ≤ clampW (acc.width : Int) (s.x1 - acc.x0) then
        acc.pix x y ||| bm
      else acc.pix x y := by
  unfold setMaskStep
  by_cases h : s.y - acc.y0 < 0 ∨ (acc.height : Int) ≤ s.y - acc.y0
  · rw [if_pos h, if_neg (by omega)]
  · rw [if_neg h]
    by_cases hc : y = s.y - acc.y0 ∧
        clampW (acc.width : Int) (s.x0 - acc.x0) ≤ x ∧
        x ≤ clampW (acc.width : Int) (s.x1 - acc.x0)
    · show (if _ then _ else _) = _
      rw [if_pos hc, if_pos (by obtain ⟨h1, h2, h3⟩ := hc; exact ⟨h1, by omega, by omega, h2, h3⟩)]
    · show (if _ then _ else _) = _
      rw [if_neg hc, if_neg (by intro hfull; exact hc ⟨hfull.1, hfull.2.2.2⟩)]

theorem setMaskFold_pix (bm : Nat) :
    ∀ (l : List Span) (mk : Mask) (x y : Int),
      (l.foldl (setMaskStep bm) mk).pix x y =
        if (∃ s ∈ l, y = s.y - mk.y0 ∧ 0 ≤ y ∧ y < (mk.height : Int) ∧
            clampW (mk.width : Int) (s.x0 - mk.x0) ≤ x ∧
            x ≤ clampW (mk.width : Int) (s.x1 - mk.x0)) then
          mk.pix x y ||| bm
        else mk.pix x y := by
  intro l
  induction l with
  | nil =>
    intro mk x y
    rw [List.foldl_nil, if_neg (by rintro ⟨s, hs, _⟩; cases hs)]
  | cons s rest ih =>
    intro mk x y
    rw [List.foldl_cons]
    obtain ⟨g1, g2, g3, g4⟩ := setMaskStep_geom bm mk s
    have hstep := setMaskStep_pix bm mk s x y
    have hrec := ih (setMaskStep bm mk s) x y
    rw [g1, g2, g3, g4, hstep] at hrec
    rw [hrec]
    by_cases hc : y = s.y - mk.y0 ∧ 0 ≤ y ∧ y < (mk.height : Int) ∧
        clampW (mk.width : Int) (s.x0 - mk.x0) ≤ x ∧
        x ≤ clampW (mk.width : Int) (s.x1 - mk.x0)
    · rw [if_pos hc]
      have hbig : ∃ u ∈ s :: rest, y = u.y - mk.y0 ∧ 0 ≤ y ∧ y < (mk.height : Int) ∧
          clampW (mk.width : Int) (u.x0 - mk.x0) ≤ x ∧
          x ≤ clampW (mk.width : Int) (u.x1 - mk.x0) :=
        ⟨s, List.mem_cons_self _ _, hc⟩
      rw [if_pos hbig]
      by_cases hr : ∃ u ∈ rest, y = u.y - mk.y0 ∧ 0 ≤ y ∧ y < (mk.height : Int) ∧
          clampW (mk.width : Int) (u.x0 - mk.x0) ≤ x ∧
          x ≤ clampW (mk.width : Int) (u.x1 - mk.x0)
      · rw [if_pos hr, Nat.or_assoc, Nat.or_self]
      · rw [if_neg hr]
    · rw [if_neg hc]
      by_cases hr : ∃ u ∈ rest, y = u.y - mk.y0 ∧ 0 ≤ y ∧ y < (mk.height : Int) ∧
          clampW (mk.width : Int) (u.x0 - mk.x0) ≤ x ∧
          x ≤ clampW (mk.width : Int) (u.x1 - mk.x0)
      · rw [if_pos hr, if_pos ?_]
        obtain ⟨u, hu, hucond⟩ := hr
        exact ⟨u, List.mem_cons_of_mem s hu, hucond⟩
      · rw [if_neg hr, if_neg ?_]
        rintro ⟨u, hu, hucond⟩
        rcases List.mem_cons.mp hu with rfl | hu
        · exact hc hucond
        · exact hr ⟨u, hu, hucond⟩

/-- Claim C7, counterexample: a span entirely to the right of the mask's
columns still writes the bitmask into the boundary pixel (width-1, row),
although no pixel of the span clipped (intersected) to the raster bounds
covers it, refuting "exactly those mask pixels that lie under the footprint's
spans clipped to the raster's bounds". -/
theorem c7_counterexample :
    (setMaskFromFootprint mC7 fpC7 4).pix 3 0 = 4 ∧ mC7.pix 3 0 = 0 ∧
    ¬ (∃ s ∈ fpC7.spans, s.y - mC7.y0 = 0 ∧
        max (s.x0 - mC7.x0) 0 ≤ 3 ∧
        3 ≤ min (s.x1 - mC7.x0) ((mC7.width : Int) - 1)) := by
  refine ⟨rfl, rfl, ?_⟩
  rintro ⟨s, hs, h1, h2, h3⟩
  simp only [fpC7, List.mem_singleton] at hs
  subst hs
  simp only [mC7] at h2 h3
  omega

/-- Claim C7 (amended): `setMaskFromFootprint` ORs the bitmask into exactly
the pixels of each span's clamped column range `[clamp(x0), clamp(x1)]`
(clamp into `[0, width-1]`) on rows inside the raster — this is the span
clipped to the raster whenever span and raster overlap horizontally, but a
span lying entirely left (right) of the raster writes the single boundary
column 0 (width-1); every other pixel keeps its previous value, rows outside
the raster are skipped, the raster geometry is unchanged, and the call never
fails (it is total). -/
theorem c7_setMaskFromFootprint (mk : Mask) (fp : Footprint) (bm : Nat) :
    (setMaskFromFootprint mk fp bm).x0 = mk.x0 ∧
    (setMaskFromFootprint mk fp bm).y0 = mk.y0 ∧
    (setMaskFromFootprint mk fp bm).width = mk.width ∧
    (setMaskFromFootprint mk fp bm).height = mk.height ∧
    ∀ x y, (setMaskFromFootprint mk fp bm).pix x y =
      if maskWritten mk fp x y then mk.pix x y ||| bm else mk.pix x y := by
  obtain ⟨g1, g2, g3, g4⟩ := setMaskFold_geom bm fp.spans mk
  refine ⟨g1, g2, g3, g4, ?_⟩
  intro x y
  exact setMaskFold_pix bm fp.spans mk x y

/-- Claim C8, counterexample: the `insertIntoImage(idImage, id, region)`
overload performs no range check, so an id that does not fit the 8-bit pixel
type is accepted without OutOfRange, refuting "each of its overloads fails
with OutOfRange when the id does not fit in T". -/
theorem c8_counterexample :
    imgC8.maxVal < 300 ∧
    (fpC8.insertIntoImage1 imgC8 300 (some ⟨0, 0, 0, 0⟩)).isOk = true := by
  exact ⟨by decide, rfl⟩

/-- Claim C8 (amended): the overwrite-capable `insertIntoImage` overload
fails with OutOfRange when the id exceeds the pixel type's maximum, and fails
with InvalidArgument when the id has bits in common with the protected mask
(the size-mismatch check, also InvalidArgument, may fire first); on failure no
pixel is written (errors are returned before the write loop, and the
embedding returns no image).  The region-only overload performs no id range
check (protected mask fixed at 0) and never raises OutOfRange. -/
theorem c8_insert_errors (fp : Footprint) (img : Image) (id : Nat) (ov : Bool)
    (mask : Nat) (region : Option BoxRect) :
    (img.maxVal < id →
      fp.insertIntoImage2 img id ov mask region = .error .outOfRange) ∧
    (id ≤ img.maxVal → id &&& mask ≠ 0 →
      fp.insertIntoImage2 img id ov mask region = .error .invalidArgument) ∧
    fp.insertIntoImage1 img id region ≠ .error .outOfRange := by
  refine ⟨?_, ?_, ?_⟩
  · intro h
    unfold Footprint.insertIntoImage2
    rw [if_pos h]
  · intro h1 h2
    unfold Footprint.insertIntoImage2
    rw [if_neg (by omega)]
    simp only [doInsertIntoImage]
    by_cases hs : ¬(regW (if region ≠ none then region else fp.region) = (img.width : Int) ∧
        regH (if region ≠ none then region else fp.region) = (img.height : Int))
    · rw [if_pos hs]
    · rw [if_neg hs, if_pos h2]
  · simp only [Footprint.insertIntoImage1, doInsertIntoImage]
    by_cases hs : ¬(regW (if region ≠ none then region else fp.region) = (img.width : Int) ∧
        regH (if region ≠ none then region else fp.region) = (img.height : Int))
    · rw [if_pos hs]
      intro h
      injection h with h'
      cases h'
    · rw [if_neg hs]
      by_cases hm : id &&& 0 ≠ 0
      · rw [if_pos hm]
        intro h
        injection h with h'
        cases h'
      · rw [if_neg hm]
        intro h
        injection h

/-- Witness for C8 (amended): both failure modes of the overwrite-capable
overload at concrete inputs, via the theorem. -/
theorem c8_witness :
    fpC8.insertIntoImage2 imgC8 300 false 0 (some ⟨0, 0, 0, 0⟩) =
      .error .outOfRange ∧
    fpC8.insertIntoImage2 imgC8 3 false 1 (some ⟨0, 0, 0, 0⟩) =
      .error .invalidArgument :=
  ⟨(c8_insert_errors fpC8 imgC8 300 false 0 (some ⟨0, 0, 0, 0⟩)).1 (by decide),
   (c8_insert_errors fpC8 imgC8 3 false 1 (some ⟨0, 0, 0, 0⟩)).2.1 (by decide)
     (by decide)⟩

/-! ### Claim C6: findEdgePixels on solid rectangles -/

theorem intRange_nil {a b : Int} (h : b < a) : intRange a b = [] := by
  unfold intRange
  have h0 : (b - a + 1).toNat = 0 := by omega
  rw [h0]
  rfl

theorem intRange_cons {a b : Int} (h : a ≤ b) :
    intRange a b = a :: intRange (a + 1) b := by
  unfold intRange
  have h1 : (b - a + 1).toNat = (b - (a + 1) + 1).toNat + 1 := by omega
  rw [h1, List.range_succ_eq_map, List.map_cons, List.map_map]
  simp only [List.cons.injEq]
  constructor
  · omega
  · refine List.map_congr_left ?_
    intro n _
    simp only [Function.comp]
    omega

theorem intRange_snoc {a b : Int} (h : a ≤ b) :
    intRange a b = intRange a (b - 1) ++ [b] := by
  unfold intRange
  have h1 : (b - a + 1).toNat = (b - 1 - a + 1).toNat + 1 := by omega
  rw [h1, List.range_succ, List.map_append, List.map_cons, List.map_nil]
  simp only [List.append_cancel_left_eq, List.cons.injEq, and_true]
  omega

theorem intRange_length (a b : Int) :
    (intRange a b).length = (b - a + 1).toNat := by
  simp [intRange]

theorem rect_foldl_spans (y0 x0 x1 : Int) (hx : x0 ≤ x1) :
    ∀ (l : List Nat) (fp : Footprint),
      ((l.foldl (fun fp i => fp.addSpan (y0 + i) x0 x1) fp).spans) =
        fp.spans ++ l.map (fun (i : Nat) => (⟨y0 + (i : Int), x0, x1⟩ : Span)) := by
  intro l
  induction l with
  | nil => intro fp; simp
  | cons i l ih =>
    intro fp
    rw [List.foldl_cons, ih]
    simp only [Footprint.addSpan, List.map_cons]
    have hmin : min x0 x1 = x0 := by omega
    have hmax : max x0 x1 = x1 := by omega
    rw [hmin, hmax, List.append_assoc, List.singleton_append]

theorem rect_foldl_bbox (y0 x0 x1 y1 : Int) (hx : x0 ≤ x1) :
    ∀ (l : List Nat) (fp : Footprint),
      fp.bbox = some ⟨x0, y0, x1, y1⟩ →
      (∀ i ∈ l, y0 ≤ y0 + (i : Int) ∧ y0 + (i : Int) ≤ y1) →
      ((l.foldl (fun fp i => fp.addSpan (y0 + i) x0 x1) fp).bbox) =
        some ⟨x0, y0, x1, y1⟩ := by
  intro l
  induction l with
  | nil => intro fp hb _; simpa using hb
  | cons i l ih =>
    intro fp hb hm
    rw [List.foldl_cons]
    refine ih _ ?_ (fun j hj => hm j (List.mem_cons_of_mem i hj))
    obtain ⟨hi1, hi2⟩ := hm i (List.mem_cons_self _ _)
    simp only [Footprint.addSpan, hb, boxInclude]
    have hmin : min x0 x1 = x0 := by omega
    have hmax : max x0 x1 = x1 := by omega
    rw [hmin, hmax]
    simp only [Option.some.injEq, BoxRect.mk.injEq]
    refine ⟨by omega, by omega, by omega, by omega⟩

theorem rect_spans (x0 y0 x1 y1 : Int) (r : Option BoxRect)
    (hx : x0 ≤ x1) :
    (rectFootprint x0 y0 x1 y1 r).spans =
      (intRange y0 y1).map (fun y => (⟨y, x0, x1⟩ : Span)) := by
  unfold rectFootprint
  rw [rect_foldl_spans y0 x0 x1 hx]
  simp only [List.nil_append, intRange, List.map_map]
  refine List.map_congr_left ?_
  intro n _
  rfl

theorem rect_bbox (x0 y0 x1 y1 : Int) (r : Option BoxRect)
    (hx : x0 ≤ x1) (hy : y0 ≤ y1) :
    (rectFootprint x0 y0 x1 y1 r).bbox = some ⟨x0, y0, x1, y1⟩ := by
  unfold rectFootprint
  refine rect_foldl_bbox y0 x0 x1 y1 hx _ _ rfl ?_
  intro i hi
  rw [List.mem_range] at hi
  omega

theorem rect_normalized (x0 y0 x1 y1 : Int) (r : Option BoxRect) :
    (rectFootprint x0 y0 x1 y1 r).normalized = true := rfl

theorem fillRows_single (xStart : Int) (s : Span) (i : Int)
    (h1 : s.x0 - xStart ≤ i) (h2 : i ≤ s.x1 - xStart) :
    fillRows xStart (fun _ => false) [s] i = true := by
  simp [fillRows, fillRow, h1, h2]

theorem scan_interior (before after : Int → Bool) (y x1 xStart : Int) :
    ∀ (xs : List Int) (x0cur : Int),
      (∀ x ∈ xs, before (x - xStart) = true ∧ after (x - xStart) = true) →
      edgeScanGo before after y x1 xStart false x0cur xs = [⟨y, x1, x1⟩] := by
  intro xs
  induction xs with
  | nil => intro x0cur _; rfl
  | cons x xs ih =>
    intro x0cur hall
    obtain ⟨hb, ha⟩ := hall x (List.mem_cons_self _ _)
    simp only [edgeScanGo, Bool.false_eq_true, if_false]
    rw [if_neg (by simp [hb, ha])]
    exact ih x0cur (fun u hu => hall u (List.mem_cons_of_mem x hu))

theorem scan_full_wide (before after : Int → Bool) (y xa xb xStart : Int)
    (hx : xa + 2 ≤ xb)
    (hb : ∀ x, xa + 1 ≤ x → x ≤ xb - 1 → before (x - xStart) = true)
    (ha : ∀ x, xa + 1 ≤ x → x ≤ xb - 1 → after (x - xStart) = true) :
    edgeScanGo before after y xb xStart true xa (intRange (xa + 1) (xb - 1)) =
      [⟨y, xa, xa⟩, ⟨y, xb, xb⟩] := by
  rw [intRange_cons (by omega)]
  simp only [edgeScanGo, if_true]
  rw [if_pos ⟨hb (xa + 1) (by omega) (by omega), ha (xa + 1) (by omega) (by omega)⟩]
  rw [scan_interior before after y xb xStart _ xa ?_]
  · simp only [List.cons.injEq, Span.mk.injEq, and_true, true_and]
    omega
  · intro u hu
    rw [mem_intRange] at hu
    exact ⟨hb u (by omega) (by omega), ha u (by omega) (by omega)⟩

theorem edge_middle_loop (x0 x1 y0 y1 : Int) (hx : x0 + 1 ≤ x1) :
    ∀ (n : Nat) (yj : Int) (before now after : Int → Bool),
      y0 + 1 ≤ yj → yj ≤ y1 → (y1 - yj).toNat = n →
      (∀ i, 0 ≤ i → i ≤ x1 - x0 → now i = true) →
      (∀ i, 0 ≤ i → i ≤ x1 - x0 → after i = true) →
      edgeEmissions x0 y0 y1 before now after (yj - 1)
          ((intRange (yj + 1) y1).map (fun y => (⟨y, x0, x1⟩ : Span)))
          ((intRange yj y1).map (fun y => (⟨y, x0, x1⟩ : Span))) =
        (intRange yj (y1 - 1)).flatMap (scanEmit x0 x1) ++ [⟨y1, x0, x1⟩] := by
  intro n
  induction n with
  | zero =>
    intro yj before now after hy1 hy2 hn _ _
    obtain rfl : yj = y1 := by omega
    rw [intRange_nil (by omega : yj - 1 < yj), intRange_cons (le_refl yj),
      intRange_nil (by omega : yj < yj + 1)]
    simp only [List.map_nil, List.map_cons, List.flatMap_nil, List.nil_append]
    simp only [edgeEmissions]
    rw [if_pos (by tauto)]
  | succ n ih =>
    intro yj before now after hy1 hy2 hn hnow hafter
    have hylt : yj < y1 := by omega
    have e12 : yj + 1 + 1 = yj + 2 := by omega
    rw [intRange_cons (by omega : yj ≤ y1), List.map_cons]
    simp only [edgeEmissions]
    rw [if_neg (by (try dsimp only); omega)]
    rw [if_pos (by (try dsimp only); omega)]
    have hahead : (intRange (yj + 1) y1).map (fun y => (⟨y, x0, x1⟩ : Span)) =
        ⟨yj + 1, x0, x1⟩ ::
          (intRange (yj + 2) y1).map (fun y => (⟨y, x0, x1⟩ : Span)) := by
      rw [intRange_cons (by omega : yj + 1 ≤ y1), e12, List.map_cons]
    rw [hahead]
    rw [List.dropWhile_cons]
    rw [if_neg (by simp only [decide_eq_true_eq]; (try dsimp only); omega)]
    rw [List.takeWhile_cons_of_pos (by simp only [decide_eq_true_eq])]
    have htw : ((intRange (yj + 2) y1).map
        (fun y => (⟨y, x0, x1⟩ : Span))).takeWhile
          (fun t => decide (t.y = (⟨yj, x0, x1⟩ : Span).y + 1)) = [] := by
      by_cases hc : yj + 2 ≤ y1
      · rw [intRange_cons hc, List.map_cons]
        rw [List.takeWhile_cons_of_neg
          (by simp only [decide_eq_true_eq]; (try dsimp only); omega)]
      · rw [intRange_nil (by omega), List.map_nil, List.takeWhile_nil]
    rw [htw]
    simp only [List.length_cons, List.length_nil, List.drop_succ_cons, List.drop_zero]
    have hscan : edgeScanGo now
        (fillRows x0 (fun _ => false) [⟨(⟨yj, x0, x1⟩ : Span).y + 1, x0, x1⟩])
        (⟨yj, x0, x1⟩ : Span).y (⟨yj, x0, x1⟩ : Span).x1 x0 true
        (⟨yj, x0, x1⟩ : Span).x0
        (intRange ((⟨yj, x0, x1⟩ : Span).x0 + 1) ((⟨yj, x0, x1⟩ : Span).x1 - 1)) =
        scanEmit x0 x1 yj := by
      try dsimp only
      unfold scanEmit
      by_cases hw2 : x0 + 1 = x1
      · rw [if_pos hw2, intRange_nil (by omega)]
        rfl
      · rw [if_neg hw2]
        refine scan_full_wide now _ yj x0 x1 x0 (by omega) ?_ ?_
        · intro x hx1 hx2
          exact hnow (x - x0) (by omega) (by omega)
        · intro x hx1 hx2
          refine fillRows_single x0 _ (x - x0) ?_ ?_
          · try dsimp only
            omega
          · try dsimp only
            omega
    rw [hscan]
    have ihres := ih (yj + 1) now after
      (fillRows x0 (fun _ => false) [⟨(⟨yj, x0, x1⟩ : Span).y + 1, x0, x1⟩])
      (by omega) (by omega) (by omega) hafter ?_
    · rw [e12] at ihres
      have e1 : yj + 1 - 1 = yj := by omega
      rw [e1] at ihres
      try dsimp only at ihres
      rw [hahead] at ihres
      rw [ihres]
      rw [intRange_cons (by omega : yj ≤ y1 - 1), List.flatMap_cons, List.append_assoc]
    · intro i hi1 hi2
      refine fillRows_single x0 _ i ?_ ?_
      · try dsimp only
        omega
      · try dsimp only
        omega

theorem sumWidths_cons (s : Span) (l : List Span) :
    sumWidths (s :: l) = s.width + sumWidths l := by
  simp [sumWidths]

theorem sumWidths_scanEmit (x0 x1 y : Int) (hx : x0 + 1 ≤ x1) :
    sumWidths (scanEmit x0 x1 y) = 2 := by
  unfold scanEmit
  by_cases hw : x0 + 1 = x1
  · rw [if_pos hw]
    simp [sumWidths, Span.width]
    omega
  · rw [if_neg hw]
    simp [sumWidths, Span.width]

theorem sumWidths_flatMap_scanEmit (x0 x1 : Int) (hx : x0 + 1 ≤ x1) :
    ∀ l : List Int, sumWidths (l.flatMap (scanEmit x0 x1)) = 2 * l.length := by
  intro l
  induction l with
  | nil => simp [sumWidths]
  | cons a l ih =>
    rw [List.flatMap_cons, sumWidths_append, sumWidths_scanEmit x0 x1 a hx, ih,
      List.length_cons]
    push_cast
    ring

theorem emsChainAux (x0 x1 : Int) (hx : x0 + 1 ≤ x1) (y1 : Int) :
    ∀ (n : Nat) (yj : Int), yj ≤ y1 → (y1 - yj).toNat = n →
      List.Chain' sep
        ((intRange yj (y1 - 1)).flatMap (scanEmit x0 x1) ++
          [(⟨y1, x0, x1⟩ : Span)]) ∧
      ∀ t ∈ ((intRange yj (y1 - 1)).flatMap (scanEmit x0 x1) ++
          [(⟨y1, x0, x1⟩ : Span)]).head?, yj ≤ t.y := by
  intro n
  induction n with
  | zero =>
    intro yj hy hn
    obtain rfl : yj = y1 := by omega
    rw [intRange_nil (by omega : yj - 1 < yj), List.flatMap_nil, List.nil_append]
    refine ⟨List.chain'_singleton _, ?_⟩
    intro t ht
    simp only [List.head?_cons, Option.mem_def, Option.some.injEq] at ht
    subst ht
    exact le_refl _
  | succ n ih =>
    intro yj hy hn
    have hlt : yj ≤ y1 - 1 := by omega
    obtain ⟨ihc, ihh⟩ := ih (yj + 1) (by omega) (by omega)
    rw [intRange_cons hlt, List.flatMap_cons, List.append_assoc]
    unfold scanEmit
    by_cases hw : x0 + 1 = x1
    · rw [if_pos hw, List.singleton_append]
      constructor
      · rw [List.chain'_cons']
        refine ⟨?_, ihc⟩
        intro t ht
        have := ihh t ht
        exact Or.inl (show yj < t.y by omega)
      · intro t ht
        simp only [List.head?_cons, Option.mem_def, Option.some.injEq] at ht
        subst ht
        exact le_refl _
    · rw [if_neg hw]
      constructor
      · rw [List.cons_append, List.cons_append, List.nil_append,
          List.chain'_cons', List.chain'_cons']
        refine ⟨?_, ?_, ihc⟩
        · intro t ht
          simp only [List.head?_cons, Option.mem_def, Option.some.injEq] at ht
          subst ht
          exact Or.inr ⟨rfl, show x0 + 1 < x1 by omega⟩
        · intro t ht
          have := ihh t ht
          exact Or.inl (show yj < t.y by omega)
      · intro t ht
        simp only [List.cons_append, List.head?_cons, Option.mem_def,
          Option.some.injEq] at ht
        subst ht
        exact le_refl _

theorem wf_ems (x0 x1 y0 y1 : Int) (hx : x0 + 1 ≤ x1) :
    wfS ((⟨y0, x0, x1⟩ : Span) ::
      ((intRange (y0 + 1) (y1 - 1)).flatMap (scanEmit x0 x1) ++
        [(⟨y1, x0, x1⟩ : Span)])) := by
  intro s hs
  simp only [List.mem_cons, List.mem_append, List.mem_flatMap,
    List.mem_singleton, List.mem_nil_iff, or_false] at hs
  rcases hs with rfl | ⟨⟨yj, _, hsj⟩ | rfl⟩
  · exact show x0 ≤ x1 by omega
  · unfold scanEmit at hsj
    by_cases hw : x0 + 1 = x1
    · rw [if_pos hw] at hsj
      simp only [List.mem_singleton] at hsj
      subst hsj
      exact show x0 ≤ x1 by omega
    · rw [if_neg hw] at hsj
      simp only [List.mem_cons, List.mem_singleton, List.mem_nil_iff,
        or_false] at hsj
      rcases hsj with rfl | rfl
      · exact le_refl _
      · exact le_refl _
  · exact show x0 ≤ x1 by omega

theorem pix_rect_edges (x0 x1 y0 y1 x y : Int) (hx : x0 + 1 ≤ x1)
    (hy : y0 + 2 ≤ y1) :
    memPix ((⟨y0, x0, x1⟩ : Span) ::
        ((intRange (y0 + 1) (y1 - 1)).flatMap (scanEmit x0 x1) ++
          [(⟨y1, x0, x1⟩ : Span)])) x y ↔
      (x0 ≤ x ∧ x ≤ x1 ∧ y0 ≤ y ∧ y ≤ y1 ∧
        (x = x0 ∨ x = x1 ∨ y = y0 ∨ y = y1)) := by
  unfold memPix
  simp only [List.mem_cons, List.mem_append, List.mem_flatMap,
    List.mem_singleton, List.mem_nil_iff, or_false]
  constructor
  · rintro ⟨s, hs, hc⟩
    obtain ⟨hcy, hcl, hcr⟩ := hc
    rcases hs with rfl | ⟨⟨yj, hyj, hsj⟩ | rfl⟩
    · try dsimp only at hcy hcl hcr
      exact ⟨hcl, hcr, by omega, by omega, by omega⟩
    · rw [mem_intRange] at hyj
      unfold scanEmit at hsj
      by_cases hw : x0 + 1 = x1
      · rw [if_pos hw] at hsj
        simp only [List.mem_singleton] at hsj
        subst hsj
        try dsimp only at hcy hcl hcr
        exact ⟨hcl, hcr, by omega, by omega, by omega⟩
      · rw [if_neg hw] at hsj
        simp only [List.mem_cons, List.mem_singleton, List.mem_nil_iff,
          or_false] at hsj
        rcases hsj with rfl | rfl
        · try dsimp only at hcy hcl hcr
          exact ⟨by omega, by omega, by omega, by omega, by omega⟩
        · try dsimp only at hcy hcl hcr
          exact ⟨by omega, by omega, by omega, by omega, by omega⟩
    · try dsimp only at hcy hcl hcr
      exact ⟨hcl, hcr, by omega, by omega, by omega⟩
  · rintro ⟨h1, h2, h3, h4, h5⟩
    by_cases hb0 : y = y0
    · exact ⟨⟨y0, x0, x1⟩, Or.inl rfl, hb0.symm, h1, h2⟩
    by_cases hb1 : y = y1
    · exact ⟨⟨y1, x0, x1⟩, Or.inr (Or.inr rfl), hb1.symm, h1, h2⟩
    have hyi : y0 + 1 ≤ y ∧ y ≤ y1 - 1 := by omega
    have hx01 : x = x0 ∨ x = x1 := by tauto
    by_cases hw : x0 + 1 = x1
    · refine ⟨⟨y, x0, x1⟩, Or.inr (Or.inl ⟨y, mem_intRange.mpr hyi, ?_⟩),
        rfl, h1, h2⟩
      unfold scanEmit
      rw [if_pos hw]
      exact List.mem_singleton.mpr rfl
    · rcases hx01 with rfl | rfl
      · refine ⟨⟨y, x, x⟩, Or.inr (Or.inl ⟨y, mem_intRange.mpr hyi, ?_⟩),
          rfl, le_refl _, le_refl _⟩
        unfold scanEmit
        rw [if_neg hw]
        exact List.mem_cons_self _ _
      · refine ⟨⟨y, x, x⟩, Or.inr (Or.inl ⟨y, mem_intRange.mpr hyi, ?_⟩),
          rfl, le_refl _, le_refl _⟩
        unfold scanEmit
        rw [if_neg hw]
        exact List.mem_cons_of_mem _ (List.mem_cons_self _ _)

theorem emitAll_spec :
    ∀ (l : List Span) (fp : Footprint),
      fp.normalized = true →
      List.Chain' sep (fp.spans.getLast?.toList ++ l) →
      wfS l →
      ∃ fp2, emitAll fp l = .ok fp2 ∧ fp2.spans = fp.spans ++ l ∧
        fp2.area = fp.area + sumWidths l ∧ fp2.normalized = true := by
  intro l
  induction l with
  | nil =>
    intro fp hn _ _
    exact ⟨fp, rfl, (List.append_nil _).symm, by simp [sumWidths], hn⟩
  | cons s rest ih =>
    intro fp hn hch hwf
    have hws : s.x0 ≤ s.x1 := hwf s (List.mem_cons_self _ _)
    have hmin : min s.x0 s.x1 = s.x0 := min_eq_left hws
    have hmax : max s.x0 s.x1 = s.x1 := max_eq_right hws
    have hwfr : wfS rest := fun u hu => hwf u (List.mem_cons_of_mem s hu)
    cases hl : fp.spans.getLast? with
    | none =>
      have hstep : fp.addSpanInSeries s.y s.x0 s.x1 =
          .ok { fp with
                spans := fp.spans ++ [s],
                area := fp.area + (s.x1 - s.x0 + 1),
                bbox := boxInclude (boxInclude fp.bbox s.x0 s.y) s.x1 s.y,
                normalized := true } := by
        unfold Footprint.addSpanInSeries
        rw [hl]
        simp only [Footprint.addSpan, hmin, hmax]
      have hch2 : List.Chain' sep (s :: rest) := by
        rw [hl] at hch
        exact hch
      obtain ⟨fp2, h1, h2, h3, h4⟩ := ih
        { fp with
          spans := fp.spans ++ [s],
          area := fp.area + (s.x1 - s.x0 + 1),
          bbox := boxInclude (boxInclude fp.bbox s.x0 s.y) s.x1 s.y,
          normalized := true }
        rfl
        (by rw [show (fp.spans ++ [s]).getLast? = some s from
              List.getLast?_concat _]
            exact hch2)
        hwfr
      refine ⟨fp2, ?_, ?_, ?_, h4⟩
      · show (match fp.addSpanInSeries s.y s.x0 s.x1 with
          | Except.error e => (Except.error e : Except FpErr Footprint)
          | Except.ok fpx => emitAll fpx rest) = Except.ok fp2
        rw [hstep]
        exact h1
      · rw [h2]
        try dsimp only
        rw [List.append_assoc, List.singleton_append]
      · rw [h3, sumWidths_cons]
        unfold Span.width
        try dsimp only
        omega
    | some last =>
      have hch' : List.Chain' sep (last :: s :: rest) := by
        rw [hl] at hch
        exact hch
      rw [List.chain'_cons] at hch'
      obtain ⟨hsep, hch2⟩ := hch'
      unfold sep at hsep
      have hstep : fp.addSpanInSeries s.y s.x0 s.x1 =
          .ok { fp with
                spans := fp.spans ++ [s],
                area := fp.area + (s.x1 - s.x0 + 1),
                bbox := boxInclude (boxInclude fp.bbox s.x0 s.y) s.x1 s.y,
                normalized := true } := by
        unfold Footprint.addSpanInSeries
        rw [hl]
        simp only [hmin]
        rw [if_neg (by rcases hsep with h | ⟨h1, h2⟩ <;> omega)]
        rw [if_neg (show ¬¬(s.y > last.y ∨ s.x0 > last.x1 + 1) by
          rcases hsep with h | ⟨h1, h2⟩ <;> omega)]
        simp only [Footprint.addSpan, hmin, hmax]
      obtain ⟨fp2, h1, h2, h3, h4⟩ := ih
        { fp with
          spans := fp.spans ++ [s],
          area := fp.area + (s.x1 - s.x0 + 1),
          bbox := boxInclude (boxInclude fp.bbox s.x0 s.y) s.x1 s.y,
          normalized := true }
        rfl
        (by rw [show (fp.spans ++ [s]).getLast? = some s from
              List.getLast?_concat _]
            exact hch2)
        hwfr
      refine ⟨fp2, ?_, ?_, ?_, h4⟩
      · show (match fp.addSpanInSeries s.y s.x0 s.x1 with
          | Except.error e => (Except.error e : Except FpErr Footprint)
          | Except.ok fpx => emitAll fpx rest) = Except.ok fp2
        rw [hstep]
        exact h1
      · rw [h2]
        try dsimp only
        rw [List.append_assoc, List.singleton_append]
      · rw [h3, sumWidths_cons]
        unfold Span.width
        try dsimp only
        omega

theorem findEdgePixels_eq (fp : Footprint) (hn : fp.normalized = true)
    (hH : ¬(regH fp.bbox ≤ 2 ∨ fp.spans.length ≤ 2)) :
    fp.findEdgePixels =
      (match emitAll (Footprint.mkEmpty none)
          (edgeEmissions (regX0 fp.bbox) (regY0 fp.bbox)
            ((fp.spans.getLast?.getD ⟨0, 0, 0⟩).y)
            (fun _ => false)
            (fillRows (regX0 fp.bbox) (fun _ => false)
              (fp.spans.takeWhile (fun t => t.y = regY0 fp.bbox)))
            (fillRows (regX0 fp.bbox) (fun _ => false)
              (((fp.spans.drop
                  (fp.spans.takeWhile (fun t => t.y = regY0 fp.bbox)).length).takeWhile
                (fun t => t.y = regY0 fp.bbox + 1))))
            (regY0 fp.bbox)
            ((fp.spans.drop
                (fp.spans.takeWhile (fun t => t.y = regY0 fp.bbox)).length).drop
              ((fp.spans.drop
                  (fp.spans.takeWhile (fun t => t.y = regY0 fp.bbox)).length).takeWhile
                (fun t => t.y = regY0 fp.bbox + 1)).length)
            fp.spans) with
        | .error e => .error e
        | .ok edges => .ok edges.normalize) := by
  unfold Footprint.findEdgePixels
  rw [if_neg (by rw [hn]; simp), if_neg hH]

/-- Claim C6 (amended: the rectangle must be at least two columns wide):
for every solid rectangular Footprint with columns `[x0, x1]` (width
`W = x1 - x0 + 1 ≥ 2`) and rows `[y0, y1]` (height `H = y1 - y0 + 1 ≥ 3`),
`findEdgePixels()` succeeds and returns exactly the perimeter pixels of the
rectangle, a footprint of area `2W + 2(H - 2)`. -/
theorem c6_findEdgePixels_rect (x0 y0 x1 y1 : Int)
    (hx : x0 + 1 ≤ x1) (hy : y0 + 2 ≤ y1) :
    ∃ E, (rectFootprint x0 y0 x1 y1 none).findEdgePixels = .ok E ∧
      E.area = 2 * (x1 - x0 + 1) + 2 * ((y1 - y0 + 1) - 2) ∧
      ∀ x y, memPix E.spans x y ↔
        (x0 ≤ x ∧ x ≤ x1 ∧ y0 ≤ y ∧ y ≤ y1 ∧
          (x = x0 ∨ x = x1 ∨ y = y0 ∨ y = y1)) := by
  have hxle : x0 ≤ x1 := by omega
  have hy01 : y0 ≤ y1 := by omega
  have hsp := rect_spans x0 y0 x1 y1 none hxle
  have hbb := rect_bbox x0 y0 x1 y1 none hxle hy01
  have hwfe := wf_ems x0 x1 y0 y1 hx
  have hchain : List.Chain' sep ((⟨y0, x0, x1⟩ : Span) ::
      ((intRange (y0 + 1) (y1 - 1)).flatMap (scanEmit x0 x1) ++
        [(⟨y1, x0, x1⟩ : Span)])) := by
    rw [List.chain'_cons']
    obtain ⟨hc, hh⟩ := emsChainAux x0 x1 hx y1 ((y1 - (y0 + 1)).toNat)
      (y0 + 1) (by omega) rfl
    exact ⟨fun t ht => Or.inl (show y0 < t.y by have := hh t ht; omega), hc⟩
  obtain ⟨E, hE1, hE2, hE3, hE4⟩ := emitAll_spec
    ((⟨y0, x0, x1⟩ : Span) ::
      ((intRange (y0 + 1) (y1 - 1)).flatMap (scanEmit x0 x1) ++
        [(⟨y1, x0, x1⟩ : Span)]))
    (Footprint.mkEmpty none) rfl hchain hwfe
  have hnow : ∀ i, 0 ≤ i → i ≤ x1 - x0 →
      fillRows x0 (fun _ => false) [(⟨y0, x0, x1⟩ : Span)] i = true := by
    intro i h1 h2
    refine fillRows_single x0 _ i ?_ ?_
    · show x0 - x0 ≤ i
      omega
    · show i ≤ x1 - x0
      omega
  have hafter : ∀ i, 0 ≤ i → i ≤ x1 - x0 →
      fillRows x0 (fun _ => false) [(⟨y0 + 1, x0, x1⟩ : Span)] i = true := by
    intro i h1 h2
    refine fillRows_single x0 _ i ?_ ?_
    · show x0 - x0 ≤ i
      omega
    · show i ≤ x1 - x0
      omega
  refine ⟨E, ?_, ?_, ?_⟩
  · rw [findEdgePixels_eq _ (rect_normalized x0 y0 x1 y1 none)
      (by rw [hbb, hsp, List.length_map, intRange_length]
          simp only [regH]
          omega)]
    rw [hbb, hsp]
    simp only [regX0, regY0]
    have hg1 : (((intRange y0 y1).map
        (fun y => (⟨y, x0, x1⟩ : Span))).takeWhile (fun t => t.y = y0)) =
        [(⟨y0, x0, x1⟩ : Span)] := by
      rw [intRange_cons hy01, List.map_cons,
        List.takeWhile_cons_of_pos (by simp),
        intRange_cons (by omega : y0 + 1 ≤ y1), List.map_cons,
        List.takeWhile_cons_of_neg
          (by simp only [decide_eq_true_eq]; show ¬(y0 + 1 = y0); omega)]
    rw [hg1]
    simp only [List.length_cons, List.length_nil, Nat.zero_add]
    have hd1 : (((intRange y0 y1).map
        (fun y => (⟨y, x0, x1⟩ : Span))).drop 1) =
        (intRange (y0 + 1) y1).map (fun y => (⟨y, x0, x1⟩ : Span)) := by
      rw [intRange_cons hy01, List.map_cons, List.drop_one, List.tail_cons]
    rw [hd1]
    have e2 : y0 + 1 + 1 = y0 + 2 := by omega
    have hg2 : (((intRange (y0 + 1) y1).map
        (fun y => (⟨y, x0, x1⟩ : Span))).takeWhile
          (fun t => t.y = y0 + 1)) = [(⟨y0 + 1, x0, x1⟩ : Span)] := by
      rw [intRange_cons (by omega : y0 + 1 ≤ y1), List.map_cons,
        List.takeWhile_cons_of_pos (by simp),
        intRange_cons (by omega : y0 + 1 + 1 ≤ y1), List.map_cons,
        List.takeWhile_cons_of_neg
          (by simp only [decide_eq_true_eq]
              show ¬(y0 + 1 + 1 = y0 + 1)
              omega)]
    rw [hg2]
    simp only [List.length_cons, List.length_nil, Nat.zero_add]
    have hd2 : (((intRange (y0 + 1) y1).map
        (fun y => (⟨y, x0, x1⟩ : Span))).drop 1) =
        (intRange (y0 + 2) y1).map (fun y => (⟨y, x0, x1⟩ : Span)) := by
      rw [intRange_cons (by omega : y0 + 1 ≤ y1), List.map_cons,
        List.drop_one, List.tail_cons, e2]
    rw [hd2]
    have hlast : (((intRange y0 y1).map
        (fun y => (⟨y, x0, x1⟩ : Span))).getLast?) =
        some ⟨y1, x0, x1⟩ := by
      rw [intRange_snoc hy01, List.map_append]
      exact List.getLast?_concat _
    rw [hlast]
    simp only [Option.getD_some]
    have hspc : (intRange y0 y1).map (fun y => (⟨y, x0, x1⟩ : Span)) =
        ⟨y0, x0, x1⟩ :: (intRange (y0 + 1) y1).map
          (fun y => (⟨y, x0, x1⟩ : Span)) := by
      rw [intRange_cons hy01, List.map_cons]
    rw [hspc]
    have hstep0 : edgeEmissions x0 y0 y1 (fun _ => false)
        (fillRows x0 (fun _ => false) [(⟨y0, x0, x1⟩ : Span)])
        (fillRows x0 (fun _ => false) [(⟨y0 + 1, x0, x1⟩ : Span)]) y0
        ((intRange (y0 + 2) y1).map (fun y => (⟨y, x0, x1⟩ : Span)))
        ((⟨y0, x0, x1⟩ : Span) :: (intRange (y0 + 1) y1).map
          (fun y => (⟨y, x0, x1⟩ : Span))) =
        (⟨y0, x0, x1⟩ : Span) :: edgeEmissions x0 y0 y1 (fun _ => false)
          (fillRows x0 (fun _ => false) [(⟨y0, x0, x1⟩ : Span)])
          (fillRows x0 (fun _ => false) [(⟨y0 + 1, x0, x1⟩ : Span)]) y0
          ((intRange (y0 + 2) y1).map (fun y => (⟨y, x0, x1⟩ : Span)))
          ((intRange (y0 + 1) y1).map (fun y => (⟨y, x0, x1⟩ : Span))) := by
      simp only [edgeEmissions]
      rw [if_pos (Or.inl trivial)]
    rw [hstep0]
    have hmidl := edge_middle_loop x0 x1 y0 y1 hx ((y1 - (y0 + 1)).toNat)
      (y0 + 1) (fun _ => false)
      (fillRows x0 (fun _ => false) [(⟨y0, x0, x1⟩ : Span)])
      (fillRows x0 (fun _ => false) [(⟨y0 + 1, x0, x1⟩ : Span)])
      (by omega) (by omega) rfl hnow hafter
    have e1 : y0 + 1 - 1 = y0 := by omega
    have e2b : y0 + 1 + 1 = y0 + 2 := by omega
    rw [e1, e2b] at hmidl
    rw [hmidl, hE1]
    show Except.ok (Footprint.normalize E) = Except.ok E
    unfold Footprint.normalize
    rw [if_pos hE4]
  · rw [hE3, sumWidths_cons, sumWidths_append,
      sumWidths_flatMap_scanEmit x0 x1 hx, intRange_length]
    show 0 + ((⟨y0, x0, x1⟩ : Span).width +
      (2 * ((y1 - 1 - (y0 + 1) + 1).toNat : Int) +
        sumWidths [(⟨y1, x0, x1⟩ : Span)])) =
      2 * (x1 - x0 + 1) + 2 * ((y1 - y0 + 1) - 2)
    simp only [sumWidths, Span.width, List.map_cons, List.map_nil,
      List.sum_cons, List.sum_nil]
    try dsimp only
    omega
  · intro x y
    rw [hE2]
    show memPix ([] ++ ((⟨y0, x0, x1⟩ : Span) ::
      ((intRange (y0 + 1) (y1 - 1)).flatMap (scanEmit x0 x1) ++
        [(⟨y1, x0, x1⟩ : Span)]))) x y ↔ _
    rw [List.nil_append]
    exact pix_rect_edges x0 x1 y0 y1 x y hx hy

/-- Counterexample to claim C6 as stated: for the solid 1-column rectangle
with rows 0..3 (width W = 1, height H = 4 > 2), `findEdgePixels()` returns a
footprint of area 4 (= H, every pixel lies on the single column), not the
claimed `2W + 2(H-2) = 6`. -/
theorem c6_counterexample :
    edgeC6.area = 4 ∧ ¬(edgeC6.area = 2 * 1 + 2 * (4 - 2)) := by decide

/-- Witness for C6: the amended rectangle theorem applied to the 3x4
rectangle with columns 0..2 and rows 0..3. -/
theorem c6_witness :
    (0 : Int) + 1 ≤ 2 ∧ (0 : Int) + 2 ≤ 3 ∧
    ∃ E, (rectFootprint 0 0 2 3 none).findEdgePixels = .ok E ∧
      E.area = 2 * (2 - 0 + 1) + 2 * ((3 - 0 + 1) - 2) ∧
      ∀ x y, memPix E.spans x y ↔
        ((0 : Int) ≤ x ∧ x ≤ 2 ∧ (0 : Int) ≤ y ∧ y ≤ 3 ∧
          (x = 0 ∨ x = 2 ∨ y = 0 ∨ y = 3)) :=
  ⟨by decide, by decide, c6_findEdgePixels_rect 0 0 2 3 (by decide) (by decide)⟩

/-! ### Lemmas for the merge sweep (claim C3) -/

theorem sep_trans {s t u : Span} (h1 : sep s t) (hw : t.x0 ≤ t.x1)
    (h2 : sep t u) : sep s u := by
  unfold sep at h1 h2 ⊢
  omega

theorem sep_all_of_head {e : Span} {l : List Span} (hp : l.Pairwise sep)
    (hw : wfS l) (hh : ∀ t ∈ l.head?, sep e t) : ∀ t ∈ l, sep e t := by
  intro t ht
  cases l with
  | nil => cases ht
  | cons t0 tail =>
    have he0 : sep e t0 := hh t0 rfl
    rcases List.mem_cons.mp ht with rfl | htail
    · exact he0
    · exact sep_trans he0 (hw t0 (List.mem_cons_self _ _))
        ((List.pairwise_cons.mp hp).1 t htail)

theorem memPix_nil (x y : Int) : ¬ memPix [] x y := by
  rintro ⟨s, hs, _⟩
  cases hs

theorem memPix_cons (s : Span) (l : List Span) (x y : Int) :
    memPix (s :: l) x y ↔ s.containsPix x y ∨ memPix l x y := by
  unfold memPix
  simp [List.mem_cons, or_and_right, exists_or]

theorem memPix_append (l1 l2 : List Span) (x y : Int) :
    memPix (l1 ++ l2) x y ↔ memPix l1 x y ∨ memPix l2 x y := by
  unfold memPix
  simp [List.mem_append, or_and_right, exists_or]

theorem sep_disjoint {s v : Span} (h : sep s v) (x y : Int)
    (hv : v.containsPix x y) : ¬ s.containsPix x y := by
  obtain ⟨hvy, hv0, hv1⟩ := hv
  rintro ⟨hsy, hs0, hs1⟩
  unfold sep at h
  omega

theorem addSpanInSeries_append (fp : Footprint) (s : Span)
    (hls : ∀ last ∈ fp.spans.getLast?, sep last s) (hws : s.x0 ≤ s.x1) :
    fp.addSpanInSeries s.y s.x0 s.x1 =
      .ok { fp with
            spans := fp.spans ++ [s],
            area := fp.area + (s.x1 - s.x0 + 1),
            bbox := boxInclude (boxInclude fp.bbox s.x0 s.y) s.x1 s.y,
            normalized := true } := by
  have hmin : min s.x0 s.x1 = s.x0 := min_eq_left hws
  have hmax : max s.x0 s.x1 = s.x1 := max_eq_right hws
  cases hl : fp.spans.getLast? with
  | none =>
    unfold Footprint.addSpanInSeries
    rw [hl]
    simp only [Footprint.addSpan, hmin, hmax]
  | some last =>
    have hsep : sep last s := hls last (by rw [hl]; rfl)
    unfold sep at hsep
    unfold Footprint.addSpanInSeries
    rw [hl]
    simp only [hmin]
    rw [if_neg (by rcases hsep with h | ⟨h1, h2⟩ <;> omega)]
    rw [if_neg (show ¬¬(s.y > last.y ∨ s.x0 > last.x1 + 1) by
      rcases hsep with h | ⟨h1, h2⟩ <;> omega)]
    simp only [Footprint.addSpan, hmin, hmax]

theorem absorb_spec : ∀ (y x1 : Int) (aL bL : List Span),
    aL.Pairwise sep → bL.Pairwise sep → wfS aL → wfS bL →
    (∀ t ∈ aL, y ≤ t.y) → (∀ t ∈ bL, y ≤ t.y) →
    ∃ X na nb, absorb y x1 aL bL = (X, na, nb) ∧ x1 ≤ X ∧
      (∀ s ∈ aL.take na, s.y = y ∧ s.x1 ≤ X) ∧
      (∀ s ∈ bL.take nb, s.y = y ∧ s.x1 ≤ X) ∧
      (∀ t ∈ (aL.drop na).head?, ¬(t.y = y ∧ t.x0 ≤ X + 1)) ∧
      (∀ t ∈ (bL.drop nb).head?, ¬(t.y = y ∧ t.x0 ≤ X + 1)) ∧
      (∀ x : Int, x1 < x → x ≤ X →
        (∃ s ∈ aL.take na, s.x0 ≤ x ∧ x ≤ s.x1) ∨
        (∃ s ∈ bL.take nb, s.x0 ≤ x ∧ x ≤ s.x1)) := by
  intro y x1 aL bL
  induction y, x1, aL, bL using absorb.induct with
  | case1 y x1 a aT bL hcond ih =>
    intro hpa hpb hwa hwb hya hyb
    obtain ⟨X, na, nb, habs, hX, htka, htkb, hhda, hhdb, hcov⟩ :=
      ih (List.pairwise_cons.mp hpa).2 hpb
        (fun u hu => hwa u (List.mem_cons_of_mem _ hu)) hwb
        (fun u hu => hya u (List.mem_cons_of_mem _ hu)) hyb
    refine ⟨X, na + 1, nb, ?_, by omega, ?_, htkb, ?_, hhdb, ?_⟩
    · rw [absorb.eq_def]
      dsimp only
      rw [if_pos hcond]
      rw [habs]
    · intro s hs
      rw [List.take_succ_cons] at hs
      rcases List.mem_cons.mp hs with rfl | hs'
      · exact ⟨hcond.1, by omega⟩
      · exact htka s hs'
    · simp only [List.drop_succ_cons]
      exact hhda
    · intro x hx1 hxX
      by_cases hxm : x1 ⊔ a.x1 < x
      · rcases hcov x hxm hxX with ⟨s, hs, hb⟩ | ⟨s, hs, hb⟩
        · exact Or.inl ⟨s, by
            rw [List.take_succ_cons]; exact List.mem_cons_of_mem _ hs, hb⟩
        · exact Or.inr ⟨s, hs, hb⟩
      · refine Or.inl ⟨a, by
          rw [List.take_succ_cons]; exact List.mem_cons_self _ _, by omega⟩
  | case2 y x1 a aT hna b bT hcond ih =>
    intro hpa hpb hwa hwb hya hyb
    obtain ⟨X, na, nb, habs, hX, htka, htkb, hhda, hhdb, hcov⟩ :=
      ih hpa (List.pairwise_cons.mp hpb).2 hwa
        (fun u hu => hwb u (List.mem_cons_of_mem _ hu)) hya
        (fun u hu => hyb u (List.mem_cons_of_mem _ hu))
    refine ⟨X, na, nb + 1, ?_, by omega, htka, ?_, hhda, ?_, ?_⟩
    · rw [absorb.eq_def]
      dsimp only
      rw [if_neg hna]
      try dsimp only
      rw [if_pos hcond]
      rw [habs]
    · intro s hs
      rw [List.take_succ_cons] at hs
      rcases List.mem_cons.mp hs with rfl | hs'
      · exact ⟨hcond.1, by omega⟩
      · exact htkb s hs'
    · simp only [List.drop_succ_cons]
      exact hhdb
    · intro x hx1 hxX
      by_cases hxm : x1 ⊔ b.x1 < x
      · rcases hcov x hxm hxX with ⟨s, hs, hb⟩ | ⟨s, hs, hb⟩
        · exact Or.inl ⟨s, hs, hb⟩
        · exact Or.inr ⟨s, by
            rw [List.take_succ_cons]; exact List.mem_cons_of_mem _ hs, hb⟩
      · refine Or.inr ⟨b, by
          rw [List.take_succ_cons]; exact List.mem_cons_self _ _, by omega⟩
  | case3 y x1 a aT hna b bT hnb =>
    intro hpa hpb hwa hwb hya hyb
    refine ⟨x1, 0, 0, ?_, le_refl _, ?_, ?_, ?_, ?_, ?_⟩
    · rw [absorb.eq_def]
      dsimp only
      rw [if_neg hna]
      try dsimp only
      rw [if_neg hnb]
    · intro s hs
      simp at hs
    · intro s hs
      simp at hs
    · intro t ht
      simp only [List.drop_zero, List.head?_cons, Option.mem_def,
        Option.some.injEq] at ht
      subst ht
      exact hna
    · intro t ht
      simp only [List.drop_zero, List.head?_cons, Option.mem_def,
        Option.some.injEq] at ht
      subst ht
      exact hnb
    · intro x hx1 hxX
      omega
  | case4 y x1 a aT hna =>
    intro hpa hpb hwa hwb hya hyb
    refine ⟨x1, 0, 0, ?_, le_refl _, ?_, ?_, ?_, ?_, ?_⟩
    · rw [absorb.eq_def]
      dsimp only
      rw [if_neg hna]
    · intro s hs
      simp at hs
    · intro s hs
      simp at hs
    · intro t ht
      simp only [List.drop_zero, List.head?_cons, Option.mem_def,
        Option.some.injEq] at ht
      subst ht
      exact hna
    · intro t ht
      simp at ht
    · intro x hx1 hxX
      omega
  | case5 y x1 b bT hcond ih =>
    intro hpa hpb hwa hwb hya hyb
    obtain ⟨X, na, nb, habs, hX, htka, htkb, hhda, hhdb, hcov⟩ :=
      ih hpa (List.pairwise_cons.mp hpb).2 hwa
        (fun u hu => hwb u (List.mem_cons_of_mem _ hu)) hya
        (fun u hu => hyb u (List.mem_cons_of_mem _ hu))
    refine ⟨X, na, nb + 1, ?_, by omega, htka, ?_, hhda, ?_, ?_⟩
    · rw [absorb.eq_def]
      dsimp only
      rw [if_pos hcond]
      rw [habs]
    · intro s hs
      rw [List.take_succ_cons] at hs
      rcases List.mem_cons.mp hs with rfl | hs'
      · exact ⟨hcond.1, by omega⟩
      · exact htkb s hs'
    · simp only [List.drop_succ_cons]
      exact hhdb
    · intro x hx1 hxX
      by_cases hxm : x1 ⊔ b.x1 < x
      · rcases hcov x hxm hxX with ⟨s, hs, hb⟩ | ⟨s, hs, hb⟩
        · exact Or.inl ⟨s, hs, hb⟩
        · exact Or.inr ⟨s, by
            rw [List.take_succ_cons]; exact List.mem_cons_of_mem _ hs, hb⟩
      · refine Or.inr ⟨b, by
          rw [List.take_succ_cons]; exact List.mem_cons_self _ _, by omega⟩
  | case6 y x1 b bT hnb =>
    intro hpa hpb hwa hwb hya hyb
    refine ⟨x1, 0, 0, ?_, le_refl _, ?_, ?_, ?_, ?_, ?_⟩
    · rw [absorb.eq_def]
      dsimp only
      rw [if_neg hnb]
    · intro s hs
      simp at hs
    · intro s hs
      simp at hs
    · intro t ht
      simp at ht
    · intro t ht
      simp only [List.drop_zero, List.head?_cons, Option.mem_def,
        Option.some.injEq] at ht
      subst ht
      exact hnb
    · intro x hx1 hxX
      omega
  | case7 y x1 =>
    intro hpa hpb hwa hwb hya hyb
    refine ⟨x1, 0, 0, by rw [absorb.eq_def], le_refl _, ?_, ?_, ?_, ?_, ?_⟩
    · intro s hs
      simp at hs
    · intro s hs
      simp at hs
    · intro t ht
      simp at ht
    · intro t ht
      simp at ht
    · intro x hx1 hxX
      omega

theorem mergeLoop_spec : ∀ (N : Nat) (aL bL : List Span) (fp : Footprint),
    aL.length + bL.length ≤ N →
    aL.Pairwise sep → bL.Pairwise sep → wfS aL → wfS bL →
    fp.normalized = true →
    (∀ last ∈ fp.spans.getLast?,
      (∀ s ∈ aL, sep last s) ∧ (∀ s ∈ bL, sep last s)) →
    ∃ out fp2, mergeLoop aL bL fp = .ok fp2 ∧
      fp2.spans = fp.spans ++ out ∧
      fp2.area = fp.area + sumWidths out ∧
      fp2.normalized = true ∧
      (∀ x y, memPix out x y ↔ (memPix aL x y ∨ memPix bL x y)) ∧
      out.Pairwise sep ∧ wfS out ∧
      (∀ last ∈ fp.spans.getLast?, ∀ s ∈ out, sep last s) := by
  intro N
  induction N using Nat.strong_induction_on with
  | _ N ih =>
  intro aL bL fp hN hpa hpb hwa hwb hfn hlast
  match aL, bL with
  | [], bL =>
    have heq : mergeLoop [] bL fp = emitAll fp bL := by
      rw [mergeLoop.eq_def]
      cases bL <;> rfl
    have hch : List.Chain' sep (fp.spans.getLast?.toList ++ bL) := by
      cases hgl : fp.spans.getLast? with
      | none => exact hpb.chain'
      | some last =>
        show List.Chain' sep (last :: bL)
        rw [List.chain'_cons']
        exact ⟨fun t ht => (hlast last (by rw [hgl]; rfl)).2 t
          (List.mem_of_mem_head? ht), hpb.chain'⟩
    obtain ⟨fp2, h1, h2, h3, h4⟩ := emitAll_spec bL fp hfn hch hwb
    refine ⟨bL, fp2, by rw [heq]; exact h1, h2, h3, h4, ?_, hpb, hwb, ?_⟩
    · intro x y
      constructor
      · exact fun h => Or.inr h
      · rintro (h | h)
        · exact absurd h (memPix_nil x y)
        · exact h
    · intro last hl s hs
      exact (hlast last hl).2 s hs
  | a :: aT, [] =>
    have heq : mergeLoop (a :: aT) [] fp = emitAll fp (a :: aT) := by
      rw [mergeLoop.eq_def]
    have hch : List.Chain' sep (fp.spans.getLast?.toList ++ (a :: aT)) := by
      cases hgl : fp.spans.getLast? with
      | none => exact hpa.chain'
      | some last =>
        show List.Chain' sep (last :: a :: aT)
        rw [List.chain'_cons']
        exact ⟨fun t ht => (hlast last (by rw [hgl]; rfl)).1 t
          (List.mem_of_mem_head? ht), hpa.chain'⟩
    obtain ⟨fp2, h1, h2, h3, h4⟩ := emitAll_spec (a :: aT) fp hfn hch hwa
    refine ⟨a :: aT, fp2, by rw [heq]; exact h1, h2, h3, h4, ?_, hpa, hwa, ?_⟩
    · intro x y
      constructor
      · exact fun h => Or.inl h
      · rintro (h | h)
        · exact h
        · exact absurd h (memPix_nil x y)
    · intro last hl s hs
      exact (hlast last hl).1 s hs
  | a :: aT, b :: bT =>
    have hlen : (a :: aT).length + (b :: bT).length ≤ N := hN
    rw [mergeLoop.eq_def]
    dsimp only
    by_cases hc1 : a.y < b.y ∨ (a.y = b.y ∧ a.x1 < b.x0 - 1)
    · rw [if_pos hc1]
      have hsl : ∀ last ∈ fp.spans.getLast?, sep last a :=
        fun last hl => (hlast last hl).1 a (List.mem_cons_self _ _)
      have hstep : fp.addSpanInSeries a.y a.x0 a.x1 =
          .ok { fp with
                spans := fp.spans ++ [a],
                area := fp.area + (a.x1 - a.x0 + 1),
                bbox := boxInclude (boxInclude fp.bbox a.x0 a.y) a.x1 a.y,
                normalized := true } :=
        addSpanInSeries_append fp a hsl (hwa a (List.mem_cons_self _ _))
      rw [hstep]
      have hsab : sep a b := by
        unfold sep
        rcases hc1 with h | ⟨h1, h2⟩
        · exact Or.inl h
        · exact Or.inr ⟨h1, by omega⟩
      have hsbT : ∀ s ∈ b :: bT, sep a s := by
        intro s hs
        rcases List.mem_cons.mp hs with rfl | hs'
        · exact hsab
        · exact sep_trans hsab (hwb b (List.mem_cons_self _ _))
            ((List.pairwise_cons.mp hpb).1 s hs')
      obtain ⟨out', fp2, h1, h2, h3, h4, hpix, hop, how, hlsep⟩ :=
        ih (aT.length + (b :: bT).length)
          (by simp only [List.length_cons] at hlen ⊢; omega)
          aT (b :: bT)
          { fp with
            spans := fp.spans ++ [a],
            area := fp.area + (a.x1 - a.x0 + 1),
            bbox := boxInclude (boxInclude fp.bbox a.x0 a.y) a.x1 a.y,
            normalized := true }
          (le_refl _) (List.pairwise_cons.mp hpa).2 hpb
          (fun u hu => hwa u (List.mem_cons_of_mem _ hu)) hwb rfl
          (by intro last hl
              have hla : last = a := by
                rw [show (fp.spans ++ [a]).getLast? = some a from
                  List.getLast?_concat _] at hl
                exact (Option.some.inj hl).symm
              subst hla
              exact ⟨(List.pairwise_cons.mp hpa).1, hsbT⟩)
      refine ⟨a :: out', fp2, h1, ?_, ?_, h4, ?_, ?_, ?_, ?_⟩
      · rw [h2]
        try dsimp only
        rw [List.append_assoc, List.singleton_append]
      · rw [h3, sumWidths_cons]
        unfold Span.width
        try dsimp only
        omega
      · intro x y
        simp only [memPix_cons, hpix x y]
        tauto
      · rw [List.pairwise_cons]
        refine ⟨?_, hop⟩
        intro s hs
        refine hlsep a ?_ s hs
        rw [show (fp.spans ++ [a]).getLast? = some a from
          List.getLast?_concat _]
        rfl
      · intro s hs
        rcases List.mem_cons.mp hs with rfl | hs'
        · exact hwa s (List.mem_cons_self _ _)
        · exact how s hs'
      · intro last hl s hs
        rcases List.mem_cons.mp hs with rfl | hs'
        · exact hsl last hl
        · refine sep_trans (hsl last hl) (hwa a (List.mem_cons_self _ _)) ?_
          refine hlsep a ?_ s hs'
          rw [show (fp.spans ++ [a]).getLast? = some a from
            List.getLast?_concat _]
          rfl
    · by_cases hc2 : b.y < a.y ∨ (a.y = b.y ∧ b.x1 < a.x0 - 1)
      · rw [if_neg hc1, if_pos hc2]
        have hsl : ∀ last ∈ fp.spans.getLast?, sep last b :=
          fun last hl => (hlast last hl).2 b (List.mem_cons_self _ _)
        have hstep : fp.addSpanInSeries b.y b.x0 b.x1 =
            .ok { fp with
                  spans := fp.spans ++ [b],
                  area := fp.area + (b.x1 - b.x0 + 1),
                  bbox := boxInclude (boxInclude fp.bbox b.x0 b.y) b.x1 b.y,
                  normalized := true } :=
          addSpanInSeries_append fp b hsl (hwb b (List.mem_cons_self _ _))
        rw [hstep]
        have hsba : sep b a := by
          unfold sep
          rcases hc2 with h | ⟨h1, h2⟩
          · exact Or.inl h
          · exact Or.inr ⟨h1.symm, by omega⟩
        have hsaT : ∀ s ∈ a :: aT, sep b s := by
          intro s hs
          rcases List.mem_cons.mp hs with rfl | hs'
          · exact hsba
          · exact sep_trans hsba (hwa a (List.mem_cons_self _ _))
              ((List.pairwise_cons.mp hpa).1 s hs')
        obtain ⟨out', fp2, h1, h2, h3, h4, hpix, hop, how, hlsep⟩ :=
          ih ((a :: aT).length + bT.length)
            (by simp only [List.length_cons] at hlen ⊢; omega)
            (a :: aT) bT
            { fp with
              spans := fp.spans ++ [b],
              area := fp.area + (b.x1 - b.x0 + 1),
              bbox := boxInclude (boxInclude fp.bbox b.x0 b.y) b.x1 b.y,
              normalized := true }
            (le_refl _) hpa (List.pairwise_cons.mp hpb).2 hwa
            (fun u hu => hwb u (List.mem_cons_of_mem _ hu)) rfl
            (by intro last hl
                have hlb : last = b := by
                  rw [show (fp.spans ++ [b]).getLast? = some b from
                    List.getLast?_concat _] at hl
                  exact (Option.some.inj hl).symm
                subst hlb
                exact ⟨hsaT, (List.pairwise_cons.mp hpb).1⟩)
        refine ⟨b :: out', fp2, h1, ?_, ?_, h4, ?_, ?_, ?_, ?_⟩
        · rw [h2]
          try dsimp only
          rw [List.append_assoc, List.singleton_append]
        · rw [h3, sumWidths_cons]
          unfold Span.width
          try dsimp only
          omega
        · intro x y
          simp only [memPix_cons, hpix x y]
          tauto
        · rw [List.pairwise_cons]
          refine ⟨?_, hop⟩
          intro s hs
          refine hlsep b ?_ s hs
          rw [show (fp.spans ++ [b]).getLast? = some b from
            List.getLast?_concat _]
          rfl
        · intro s hs
          rcases List.mem_cons.mp hs with rfl | hs'
          · exact hwb s (List.mem_cons_self _ _)
          · exact how s hs'
        · intro last hl s hs
          rcases List.mem_cons.mp hs with rfl | hs'
          · exact hsl last hl
          · refine sep_trans (hsl last hl) (hwb b (List.mem_cons_self _ _)) ?_
            refine hlsep b ?_ s hs'
            rw [show (fp.spans ++ [b]).getLast? = some b from
              List.getLast?_concat _]
            rfl
      · rw [if_neg hc1, if_neg hc2]
        have hwfa : a.x0 ≤ a.x1 := hwa a (List.mem_cons_self _ _)
        have hwfb : b.x0 ≤ b.x1 := hwb b (List.mem_cons_self _ _)
        have hyy : a.y = b.y := by omega
        have hya' : ∀ t ∈ aT, a.y ≤ t.y := by
          intro t ht
          have := (List.pairwise_cons.mp hpa).1 t ht
          unfold sep at this
          omega
        have hyb' : ∀ t ∈ bT, a.y ≤ t.y := by
          intro t ht
          have := (List.pairwise_cons.mp hpb).1 t ht
          unfold sep at this
          omega
        obtain ⟨X, na, nb, habs, hX, htka, htkb, hhda, hhdb, hcov⟩ :=
          absorb_spec a.y (max a.x1 b.x1) aT bT
            (List.pairwise_cons.mp hpa).2 (List.pairwise_cons.mp hpb).2
            (fun u hu => hwa u (List.mem_cons_of_mem _ hu))
            (fun u hu => hwb u (List.mem_cons_of_mem _ hu))
            hya' hyb'
        rw [habs]
        dsimp only
        have hwfe : min a.x0 b.x0 ≤ X := by omega
        have hsl : ∀ last ∈ fp.spans.getLast?,
            sep last (⟨a.y, min a.x0 b.x0, X⟩ : Span) := by
          intro last hl
          have h1 := (hlast last hl).1 a (List.mem_cons_self _ _)
          have h2 := (hlast last hl).2 b (List.mem_cons_self _ _)
          unfold sep at h1 h2 ⊢
          try dsimp only
          omega
        have hstep : fp.addSpanInSeries a.y (min a.x0 b.x0) X =
            .ok { fp with
                  spans := fp.spans ++ [(⟨a.y, min a.x0 b.x0, X⟩ : Span)],
                  area := fp.area + (X - min a.x0 b.x0 + 1),
                  bbox := boxInclude
                    (boxInclude fp.bbox (min a.x0 b.x0) a.y) X a.y,
                  normalized := true } :=
          addSpanInSeries_append fp ⟨a.y, min a.x0 b.x0, X⟩ hsl hwfe
        rw [hstep]
        have hsepa : ∀ s ∈ aT.drop na, sep (⟨a.y, min a.x0 b.x0, X⟩ : Span) s := by
          refine sep_all_of_head
            (List.Pairwise.sublist (List.drop_sublist _ _)
              (List.pairwise_cons.mp hpa).2)
            (fun u hu => hwa u (List.mem_cons_of_mem _ (List.mem_of_mem_drop hu)))
            ?_
          intro t ht
          have hnc := hhda t ht
          have hyt : a.y ≤ t.y := hya' t (List.mem_of_mem_drop
            (List.mem_of_mem_head? ht))
          unfold sep
          try dsimp only
          omega
        have hsepb : ∀ s ∈ bT.drop nb, sep (⟨a.y, min a.x0 b.x0, X⟩ : Span) s := by
          refine sep_all_of_head
            (List.Pairwise.sublist (List.drop_sublist _ _)
              (List.pairwise_cons.mp hpb).2)
            (fun u hu => hwb u (List.mem_cons_of_mem _ (List.mem_of_mem_drop hu)))
            ?_
          intro t ht
          have hnc := hhdb t ht
          have hyt : a.y ≤ t.y := hyb' t (List.mem_of_mem_drop
            (List.mem_of_mem_head? ht))
          unfold sep
          try dsimp only
          omega
        obtain ⟨out', fp2, h1, h2, h3, h4, hpix, hop, how, hlsep⟩ :=
          ih ((aT.drop na).length + (bT.drop nb).length)
            (by simp only [List.length_cons] at hlen
                simp only [List.length_drop]
                omega)
            (aT.drop na) (bT.drop nb)
            { fp with
              spans := fp.spans ++ [(⟨a.y, min a.x0 b.x0, X⟩ : Span)],
              area := fp.area + (X - min a.x0 b.x0 + 1),
              bbox := boxInclude
                (boxInclude fp.bbox (min a.x0 b.x0) a.y) X a.y,
              normalized := true }
            (le_refl _)
            (List.Pairwise.sublist (List.drop_sublist _ _)
              (List.pairwise_cons.mp hpa).2)
            (List.Pairwise.sublist (List.drop_sublist _ _)
              (List.pairwise_cons.mp hpb).2)
            (fun u hu => hwa u (List.mem_cons_of_mem _ (List.mem_of_mem_drop hu)))
            (fun u hu => hwb u (List.mem_cons_of_mem _ (List.mem_of_mem_drop hu)))
            rfl
            (by intro last hl
                have hle : last = ⟨a.y, min a.x0 b.x0, X⟩ := by
                  rw [show (fp.spans ++ [(⟨a.y, min a.x0 b.x0, X⟩ : Span)]).getLast?
                      = some ⟨a.y, min a.x0 b.x0, X⟩ from
                    List.getLast?_concat _] at hl
                  exact (Option.some.inj hl).symm
                subst hle
                exact ⟨hsepa, hsepb⟩)
        refine ⟨⟨a.y, min a.x0 b.x0, X⟩ :: out', fp2, h1, ?_, ?_, h4, ?_, ?_, ?_, ?_⟩
        · rw [h2]
          try dsimp only
          rw [List.append_assoc, List.singleton_append]
        · rw [h3, sumWidths_cons]
          unfold Span.width
          try dsimp only
          omega
        · intro x y
          rw [memPix_cons, hpix x y]
          have hAsplit : memPix aT x y ↔
              memPix (aT.take na) x y ∨ memPix (aT.drop na) x y := by
            rw [← memPix_append, List.take_append_drop]
          have hBsplit : memPix bT x y ↔
              memPix (bT.take nb) x y ∨ memPix (bT.drop nb) x y := by
            rw [← memPix_append, List.take_append_drop]
          rw [memPix_cons, memPix_cons, hAsplit, hBsplit]
          constructor
          · rintro (hce | hdA | hdB)
            · obtain ⟨hey, hex0, hex1⟩ := hce
              try dsimp only at hey hex0 hex1
              by_cases hxm : x ≤ max a.x1 b.x1
              · by_cases hxa : a.x0 ≤ x ∧ x ≤ a.x1
                · exact Or.inl (Or.inl ⟨hey, hxa.1, hxa.2⟩)
                · exact Or.inr (Or.inl ⟨hyy ▸ hey, by omega, by omega⟩)
              · rcases hcov x (by omega) (by omega) with
                  ⟨s, hs, hsb⟩ | ⟨s, hs, hsb⟩
                · refine Or.inl (Or.inr (Or.inl ⟨s, hs, ?_, hsb.1, hsb.2⟩))
                  rw [(htka s hs).1]
                  exact hey
                · refine Or.inr (Or.inr (Or.inl ⟨s, hs, ?_, hsb.1, hsb.2⟩))
                  rw [(htkb s hs).1]
                  exact hey
            · exact Or.inl (Or.inr (Or.inr hdA))
            · exact Or.inr (Or.inr (Or.inr hdB))
          · rintro ((hca | hTk | hDr) | (hcb | hTk | hDr))
            · obtain ⟨hey, hex0, hex1⟩ := hca
              exact Or.inl ⟨by (try dsimp only); omega,
                by (try dsimp only); omega, by (try dsimp only); omega⟩
            · obtain ⟨s, hs, hsy, hs0, hs1⟩ := hTk
              have hts := htka s hs
              have hsep2 := (List.pairwise_cons.mp hpa).1 s
                (List.take_subset _ _ hs)
              unfold sep at hsep2
              exact Or.inl ⟨by (try dsimp only); omega,
                by (try dsimp only); omega, by (try dsimp only); omega⟩
            · exact Or.inr (Or.inl hDr)
            · obtain ⟨hey, hex0, hex1⟩ := hcb
              exact Or.inl ⟨by (try dsimp only); omega,
                by (try dsimp only); omega, by (try dsimp only); omega⟩
            · obtain ⟨s, hs, hsy, hs0, hs1⟩ := hTk
              have hts := htkb s hs
              have hsep2 := (List.pairwise_cons.mp hpb).1 s
                (List.take_subset _ _ hs)
              unfold sep at hsep2
              exact Or.inl ⟨by (try dsimp only); omega,
                by (try dsimp only); omega, by (try dsimp only); omega⟩
            · exact Or.inr (Or.inr hDr)
        · rw [List.pairwise_cons]
          refine ⟨?_, hop⟩
          intro s hs
          refine hlsep ⟨a.y, min a.x0 b.x0, X⟩ ?_ s hs
          rw [show (fp.spans ++ [(⟨a.y, min a.x0 b.x0, X⟩ : Span)]).getLast?
              = some ⟨a.y, min a.x0 b.x0, X⟩ from List.getLast?_concat _]
          rfl
        · intro s hs
          rcases List.mem_cons.mp hs with rfl | hs'
          · exact hwfe
          · exact how s hs'
        · intro last hl s hs
          rcases List.mem_cons.mp hs with rfl | hs'
          · exact hsl last hl
          · refine sep_trans (hsl last hl) hwfe ?_
            refine hlsep ⟨a.y, min a.x0 b.x0, X⟩ ?_ s hs'
            rw [show (fp.spans ++ [(⟨a.y, min a.x0 b.x0, X⟩ : Span)]).getLast?
                = some ⟨a.y, min a.x0 b.x0, X⟩ from List.getLast?_concat _]
            rfl

theorem normSpans_ext_eq : ∀ (p q : List Span),
    p.Pairwise sep → q.Pairwise sep → wfS p → wfS q →
    (∀ x y, memPix p x y ↔ memPix q x y) → p = q := by
  intro p
  induction p with
  | nil =>
    intro q hpp hpq hwp hwq hext
    cases q with
    | nil => rfl
    | cons t q' =>
      exfalso
      have ht : memPix (t :: q') t.x0 t.y :=
        (memPix_cons t q' t.x0 t.y).mpr
          (Or.inl ⟨rfl, le_refl _, hwq t (List.mem_cons_self _ _)⟩)
      exact memPix_nil t.x0 t.y ((hext t.x0 t.y).mpr ht)
  | cons s p' ih =>
    intro q hpp hpq hwp hwq hext
    cases q with
    | nil =>
      exfalso
      have hs : memPix (s :: p') s.x0 s.y :=
        (memPix_cons s p' s.x0 s.y).mpr
          (Or.inl ⟨rfl, le_refl _, hwp s (List.mem_cons_self _ _)⟩)
      exact memPix_nil s.x0 s.y ((hext s.x0 s.y).mp hs)
    | cons t q' =>
      have hws : s.x0 ≤ s.x1 := hwp s (List.mem_cons_self _ _)
      have hwt : t.x0 ≤ t.x1 := hwq t (List.mem_cons_self _ _)
      have hrowp : ∀ v ∈ p', s.y ≤ v.y := by
        intro v hv
        have := (List.pairwise_cons.mp hpp).1 v hv
        unfold sep at this
        omega
      have hrowq : ∀ v ∈ q', t.y ≤ v.y := by
        intro v hv
        have := (List.pairwise_cons.mp hpq).1 v hv
        unfold sep at this
        omega
      have hpixs : memPix (s :: p') s.x0 s.y :=
        (memPix_cons s p' s.x0 s.y).mpr (Or.inl ⟨rfl, le_refl _, hws⟩)
      have hpixt : memPix (t :: q') t.x0 t.y :=
        (memPix_cons t q' t.x0 t.y).mpr (Or.inl ⟨rfl, le_refl _, hwt⟩)
      have hyts : t.y ≤ s.y := by
        rcases (memPix_cons t q' s.x0 s.y).mp ((hext s.x0 s.y).mp hpixs) with
          hct | ⟨u, hu, hcu⟩
        · obtain ⟨h1, h2, h3⟩ := hct
          omega
        · have := hrowq u hu
          obtain ⟨huy, _, _⟩ := hcu
          omega
      have hyst : s.y ≤ t.y := by
        rcases (memPix_cons s p' t.x0 t.y).mp ((hext t.x0 t.y).mpr hpixt) with
          hcs | ⟨v, hv, hcv⟩
        · obtain ⟨h1, h2, h3⟩ := hcs
          omega
        · have := hrowp v hv
          obtain ⟨hvy, _, _⟩ := hcv
          omega
      have hy : s.y = t.y := by omega
      have htx0 : t.x0 ≤ s.x0 := by
        rcases (memPix_cons t q' s.x0 s.y).mp ((hext s.x0 s.y).mp hpixs) with
          hct | ⟨u, hu, hcu⟩
        · exact hct.2.1
        · have hsep := (List.pairwise_cons.mp hpq).1 u hu
          unfold sep at hsep
          obtain ⟨huy, hu0, hu1⟩ := hcu
          omega
      have hsx0 : s.x0 ≤ t.x0 := by
        rcases (memPix_cons s p' t.x0 t.y).mp ((hext t.x0 t.y).mpr hpixt) with
          hcs | ⟨v, hv, hcv⟩
        · exact hcs.2.1
        · have hsep := (List.pairwise_cons.mp hpp).1 v hv
          unfold sep at hsep
          obtain ⟨hvy, hv0, hv1⟩ := hcv
          omega
      have hx0 : s.x0 = t.x0 := by omega
      have hx1a : s.x1 ≤ t.x1 := by
        by_contra hlt
        have hpx : memPix (s :: p') (t.x1 + 1) s.y :=
          (memPix_cons s p' (t.x1 + 1) s.y).mpr
            (Or.inl ⟨rfl, by omega, by omega⟩)
        rcases (memPix_cons t q' (t.x1 + 1) s.y).mp
            ((hext (t.x1 + 1) s.y).mp hpx) with hct | ⟨u, hu, hcu⟩
        · obtain ⟨_, _, h⟩ := hct
          omega
        · have hsep := (List.pairwise_cons.mp hpq).1 u hu
          unfold sep at hsep
          obtain ⟨huy, hu0, hu1⟩ := hcu
          omega
      have hx1b : t.x1 ≤ s.x1 := by
        by_contra hlt
        have hpx : memPix (t :: q') (s.x1 + 1) t.y :=
          (memPix_cons t q' (s.x1 + 1) t.y).mpr
            (Or.inl ⟨rfl, by omega, by omega⟩)
        rcases (memPix_cons s p' (s.x1 + 1) t.y).mp
            ((hext (s.x1 + 1) t.y).mpr hpx) with hcs | ⟨v, hv, hcv⟩
        · obtain ⟨_, _, h⟩ := hcs
          omega
        · have hsep := (List.pairwise_cons.mp hpp).1 v hv
          unfold sep at hsep
          obtain ⟨hvy, hv0, hv1⟩ := hcv
          omega
      have hx1 : s.x1 = t.x1 := by omega
      have hst : s = t := by
        cases s
        cases t
        simp only [Span.mk.injEq]
        exact ⟨hy, hx0, hx1⟩
      subst hst
      have htail : p' = q' := by
        refine ih q' (List.pairwise_cons.mp hpp).2 (List.pairwise_cons.mp hpq).2
          (fun u hu => hwp u (List.mem_cons_of_mem _ hu))
          (fun u hu => hwq u (List.mem_cons_of_mem _ hu)) ?_
        intro x y
        constructor
        · rintro ⟨v, hv, hcv⟩
          have hq := (hext x y).mp
            ((memPix_cons s p' x y).mpr (Or.inr ⟨v, hv, hcv⟩))
          rcases (memPix_cons s q' x y).mp hq with hcs | h'
          · exfalso
            exact sep_disjoint ((List.pairwise_cons.mp hpp).1 v hv) x y hcv hcs
          · exact h'
        · rintro ⟨u, hu, hcu⟩
          have hp := (hext x y).mpr
            ((memPix_cons s q' x y).mpr (Or.inr ⟨u, hu, hcu⟩))
          rcases (memPix_cons s p' x y).mp hp with hcs | h'
          · exfalso
            exact sep_disjoint ((List.pairwise_cons.mp hpq).1 u hu) x y hcu hcs
          · exact h'
      rw [htail]

/-- Claim C3: for every pair of footprints a and b that are normalized
before the core merge (the `const&` overload requires the flag and the
sweep's correctness needs the normalize invariant on the span lists —
sorted, separated, valid spans), `mergeFootprints(a,b)` and
`mergeFootprints(b,a)` both succeed and produce footprints with identical
span lists and identical area once normalized (the merge output is already
normalized, so `normalize()` is a no-op on it). -/
theorem c3_merge_commutative (f1 f2 : Footprint)
    (h1 : f1.normalized = true) (h2 : f2.normalized = true)
    (hn1 : NormSpans f1.spans) (hn2 : NormSpans f2.spans) :
    ∃ m1 m2, mergeFootprints f1 f2 = .ok m1 ∧ mergeFootprints f2 f1 = .ok m2 ∧
      m1.normalize.spans = m2.normalize.spans ∧
      m1.normalize.area = m2.normalize.area := by
  obtain ⟨hp1, hw1⟩ := hn1
  obtain ⟨hp2, hw2⟩ := hn2
  obtain ⟨out12, m1, e1, s1, a1, n1, pix1, po1, wo1, _⟩ :=
    mergeLoop_spec (f1.spans.length + f2.spans.length) f1.spans f2.spans
      (Footprint.mkEmpty none) (le_refl _) hp1 hp2 hw1 hw2 rfl
      (by intro last hl; exact Option.noConfusion hl)
  obtain ⟨out21, m2, e2, s2, a2, n2, pix2, po2, wo2, _⟩ :=
    mergeLoop_spec (f2.spans.length + f1.spans.length) f2.spans f1.spans
      (Footprint.mkEmpty none) (le_refl _) hp2 hp1 hw2 hw1 rfl
      (by intro last hl; exact Option.noConfusion hl)
  have hm12 : mergeFootprints f1 f2 =
      mergeLoop f1.spans f2.spans (Footprint.mkEmpty none) := by
    unfold mergeFootprints mergeFootprintsCore
    rw [if_neg (by rw [h1, h2]; simp)]
  have hm21 : mergeFootprints f2 f1 =
      mergeLoop f2.spans f1.spans (Footprint.mkEmpty none) := by
    unfold mergeFootprints mergeFootprintsCore
    rw [if_neg (by rw [h1, h2]; simp)]
  have hout : out12 = out21 :=
    normSpans_ext_eq out12 out21 po1 po2 wo1 wo2
      (by intro x y; rw [pix1 x y, pix2 x y]; tauto)
  have hm1s : m1.spans = out12 := s1.trans (List.nil_append _)
  have hm2s : m2.spans = out21 := s2.trans (List.nil_append _)
  have hnorm1 : m1.normalize = m1 := by
    unfold Footprint.normalize
    rw [if_pos n1]
  have hnorm2 : m2.normalize = m2 := by
    unfold Footprint.normalize
    rw [if_pos n2]
  refine ⟨m1, m2, by rw [hm12]; exact e1, by rw [hm21]; exact e2, ?_, ?_⟩
  · rw [hnorm1, hnorm2, hm1s, hm2s, hout]
  · rw [hnorm1, hnorm2, a1, a2, hout]

/-- Witness for C3: the theorem applied to two concrete normalized
footprints whose rows overlap (A: row 0 columns 0..1, B: row 0 columns
1..3, and B has a second row). -/
theorem c3_witness :
    ((⟨[⟨0, 0, 1⟩], 2, some ⟨0, 0, 1, 0⟩, none, true⟩ : Footprint).normalized
        = true) ∧
    ((⟨[⟨0, 1, 3⟩, ⟨1, 0, 0⟩], 4, some ⟨0, 0, 3, 1⟩, none, true⟩ :
        Footprint).normalized = true) ∧
    NormSpans (⟨[⟨0, 0, 1⟩], 2, some ⟨0, 0, 1, 0⟩, none, true⟩ :
        Footprint).spans ∧
    NormSpans (⟨[⟨0, 1, 3⟩, ⟨1, 0, 0⟩], 4, some ⟨0, 0, 3, 1⟩, none, true⟩ :
        Footprint).spans ∧
    (∃ m1 m2,
      mergeFootprints
          ⟨[⟨0, 0, 1⟩], 2, some ⟨0, 0, 1, 0⟩, none, true⟩
          ⟨[⟨0, 1, 3⟩, ⟨1, 0, 0⟩], 4, some ⟨0, 0, 3, 1⟩, none, true⟩ = .ok m1 ∧
      mergeFootprints
          ⟨[⟨0, 1, 3⟩, ⟨1, 0, 0⟩], 4, some ⟨0, 0, 3, 1⟩, none, true⟩
          ⟨[⟨0, 0, 1⟩], 2, some ⟨0, 0, 1, 0⟩, none, true⟩ = .ok m2 ∧
      m1.normalize.spans = m2.normalize.spans ∧
      m1.normalize.area = m2.normalize.area) :=
  ⟨rfl, rfl, by decide, by decide,
    c3_merge_commutative
      ⟨[⟨0, 0, 1⟩], 2, some ⟨0, 0, 1, 0⟩, none, true⟩
      ⟨[⟨0, 1, 3⟩, ⟨1, 0, 0⟩], 4, some ⟨0, 0, 3, 1⟩, none, true⟩
      rfl rfl (by decide) (by decide)⟩

/-! ### Lemmas for grow and shrink (claim C4) -/

theorem normalize_memPix (fp : Footprint) (hwf : wfS fp.spans) :
    ∀ x y, memPix fp.normalize.spans x y ↔ memPix fp.spans x y := by
  intro x y
  unfold Footprint.normalize
  by_cases hflag : fp.normalized
  · rw [if_pos hflag]
  · rw [if_neg hflag]
    rcases hs : sortSpans fp.spans with _ | ⟨s, rest⟩
    · simp only []
    · have hperm := sortSpans_perm fp.spans
      rw [hs] at hperm
      have hsorted := sortSpans_pairwise fp.spans
      rw [hs] at hsorted
      rcases List.pairwise_cons.mp hsorted with ⟨hsall, hprest⟩
      have hwfsorted : ∀ u ∈ (s :: rest), u.x0 ≤ u.x1 := by
        intro u hu
        exact hwf u (hperm.mem_iff.mp hu)
      have hwfs : s.x0 ≤ s.x1 := hwfsorted s (List.mem_cons_self _ _)
      have hwfrest : ∀ u ∈ rest, u.x0 ≤ u.x1 :=
        fun u hu => hwfsorted u (List.mem_cons_of_mem s hu)
      have hH : ∀ u ∈ rest, s.y < u.y ∨ (s.y = u.y ∧ s.x0 ≤ u.x0) := by
        intro u hu
        have := hsall u hu
        unfold spanLexLe at this
        omega
      have h := normSweep_pix rest s s.width s.x0 s.x1 hwfs hwfrest hprest hH x y
      simp only []
      rw [h]
      have : (Span.containsPix s x y ∨ memPix rest x y) ↔ memPix (s :: rest) x y := by
        simp [memPix]
      rw [this]
      exact memPix_perm hperm x y

theorem rowLt_trans {p q u : Int × Int} (h1 : rowLt p q) (h2 : rowLt q u) :
    rowLt p u := by
  unfold rowLt at h1 h2 ⊢
  omega

theorem mem_rowInsert {u pr : Int × Int} :
    ∀ {ps : List (Int × Int)}, u ∈ rowInsert pr ps ↔ u = pr ∨ u ∈ ps := by
  intro ps
  induction ps with
  | nil => simp [rowInsert]
  | cons q rest ih =>
    unfold rowInsert
    by_cases h1 : pr.1 < q.1 ∨ (pr.1 = q.1 ∧ pr.2 < q.2)
    · rw [if_pos h1]
      simp [List.mem_cons]
    · rw [if_neg h1]
      by_cases h2 : pr = q
      · rw [if_pos h2]
        subst h2
        simp only [List.mem_cons]
        tauto
      · rw [if_neg h2]
        simp only [List.mem_cons, ih]
        tauto

theorem rowInsert_pairwise {pr : Int × Int} :
    ∀ {ps : List (Int × Int)}, ps.Pairwise rowLt →
      (rowInsert pr ps).Pairwise rowLt := by
  intro ps
  induction ps with
  | nil =>
    intro _
    simp [rowInsert]
  | cons q rest ih =>
    intro hp
    obtain ⟨hq, hrest⟩ := List.pairwise_cons.mp hp
    unfold rowInsert
    by_cases h1 : pr.1 < q.1 ∨ (pr.1 = q.1 ∧ pr.2 < q.2)
    · rw [if_pos h1]
      rw [List.pairwise_cons]
      refine ⟨?_, hp⟩
      intro u hu
      rcases List.mem_cons.mp hu with rfl | hu'
      · exact h1
      · exact rowLt_trans h1 (hq u hu')
    · rw [if_neg h1]
      by_cases h2 : pr = q
      · rw [if_pos h2]
        exact hp
      · rw [if_neg h2]
        rw [List.pairwise_cons]
        refine ⟨?_, ih hrest⟩
        intro u hu
        rcases mem_rowInsert.mp hu with rfl | hu'
        · unfold rowLt
          have : ¬(u.1 < q.1 ∨ (u.1 = q.1 ∧ u.2 < q.2)) := h1
          have hne : u ≠ q := h2
          have : u.1 ≠ q.1 ∨ u.2 ≠ q.2 := by
            by_contra hc
            push_neg at hc
            exact hne (Prod.ext hc.1 hc.2)
          unfold rowLt at *
          omega
        · exact hq u hu'

theorem coalGo_spec :
    ∀ (l : List (Int × Int)) (start e : Int), start ≤ e →
      (∀ p ∈ l, p.1 ≤ p.2) →
      l.Pairwise (fun p q => p.1 ≤ q.1) →
      (∀ p ∈ l, start ≤ p.1) →
      (∀ q ∈ coalGo start e l, q.1 ≤ q.2 ∧ start ≤ q.1) ∧
      (coalGo start e l).Pairwise rowSepP ∧
      (∀ x, pairCov (coalGo start e l) x ↔
        ((start ≤ x ∧ x ≤ e) ∨ pairCov l x)) := by
  intro l
  induction l with
  | nil =>
    intro start e hse _ _ _
    refine ⟨?_, ?_, ?_⟩
    · intro q hq
      simp only [coalGo, List.mem_singleton] at hq
      subst hq
      exact ⟨hse, le_refl _⟩
    · simp [coalGo]
    · intro x
      unfold pairCov
      simp only [coalGo, List.mem_singleton]
      constructor
      · rintro ⟨p, rfl, hp⟩
        exact Or.inl hp
      · rintro (h | ⟨p, hp, _⟩)
        · exact ⟨(start, e), rfl, h⟩
        · cases hp
  | cons q rest ih =>
    intro start e hse hwf hsort hge
    have hwq : q.1 ≤ q.2 := hwf q (List.mem_cons_self _ _)
    have hgq : start ≤ q.1 := hge q (List.mem_cons_self _ _)
    obtain ⟨hqall, hsrest⟩ := List.pairwise_cons.mp hsort
    have hwfr : ∀ p ∈ rest, p.1 ≤ p.2 :=
      fun p hp => hwf p (List.mem_cons_of_mem _ hp)
    unfold coalGo
    by_cases hc : q.1 ≤ e + 1
    · rw [if_pos hc]
      obtain ⟨h1, h2, h3⟩ := ih start (max e q.2) (by omega) hwfr hsrest
        (fun p hp => hge p (List.mem_cons_of_mem _ hp))
      refine ⟨h1, h2, ?_⟩
      intro x
      rw [h3 x]
      unfold pairCov
      simp only [List.mem_cons]
      constructor
      · rintro (h | ⟨p, hp, hb⟩)
        · by_cases hxe : x ≤ e
          · exact Or.inl ⟨h.1, hxe⟩
          · exact Or.inr ⟨q, Or.inl rfl, by omega⟩
        · exact Or.inr ⟨p, Or.inr hp, hb⟩
      · rintro (h | ⟨p, hp | hp, hb⟩)
        · exact Or.inl ⟨h.1, by omega⟩
        · subst hp
          exact Or.inl ⟨by omega, by omega⟩
        · exact Or.inr ⟨p, hp, hb⟩
    · rw [if_neg hc]
      obtain ⟨h1, h2, h3⟩ := ih q.1 q.2 hwq hwfr hsrest
        (fun p hp => hqall p hp)
      refine ⟨?_, ?_, ?_⟩
      · intro u hu
        rcases List.mem_cons.mp hu with rfl | hu'
        · exact ⟨hse, le_refl _⟩
        · obtain ⟨hw, hg⟩ := h1 u hu'
          exact ⟨hw, by omega⟩
      · rw [List.pairwise_cons]
        refine ⟨?_, h2⟩
        intro u hu
        obtain ⟨_, hg⟩ := h1 u hu
        unfold rowSepP
        omega
      · intro x
        unfold pairCov
        simp only [List.mem_cons]
        constructor
        · rintro ⟨p, hp | hp, hb⟩
          · subst hp
            exact Or.inl hb
          · rcases (h3 x).mp ⟨p, hp, hb⟩ with h | ⟨u, hu, hub⟩
            · exact Or.inr ⟨q, Or.inl rfl, h⟩
            · exact Or.inr ⟨u, Or.inr hu, hub⟩
        · rintro (h | ⟨p, hp | hp, hb⟩)
          · exact ⟨(start, e), Or.inl rfl, h⟩
          · subst hp
            obtain ⟨u, hu, hub⟩ := (h3 x).mpr (Or.inl hb)
            exact ⟨u, Or.inr hu, hub⟩
          · obtain ⟨u, hu, hub⟩ := (h3 x).mpr (Or.inr ⟨p, hp, hb⟩)
            exact ⟨u, Or.inr hu, hub⟩

theorem rowInsert_wf {pr : Int × Int} {ps : List (Int × Int)}
    (hpr : pr.1 ≤ pr.2) (hps : ∀ p ∈ ps, p.1 ≤ p.2) :
    ∀ p ∈ rowInsert pr ps, p.1 ≤ p.2 := by
  intro p hp
  rcases mem_rowInsert.mp hp with rfl | hp'
  · exact hpr
  · exact hps p hp'

theorem pairCov_rowInsert {pr : Int × Int} {ps : List (Int × Int)} (x : Int) :
    pairCov (rowInsert pr ps) x ↔ ((pr.1 ≤ x ∧ x ≤ pr.2) ∨ pairCov ps x) := by
  unfold pairCov
  constructor
  · rintro ⟨p, hp, hb⟩
    rcases mem_rowInsert.mp hp with rfl | hp'
    · exact Or.inl hb
    · exact Or.inr ⟨p, hp', hb⟩
  · rintro (h | ⟨p, hp, hb⟩)
    · exact ⟨pr, mem_rowInsert.mpr (Or.inl rfl), h⟩
    · exact ⟨p, mem_rowInsert.mpr (Or.inr hp), hb⟩

theorem rowLt_of_sep {ps : List (Int × Int)} (hsep : ps.Pairwise rowSepP)
    (hwf : ∀ p ∈ ps, p.1 ≤ p.2) : ps.Pairwise rowLt := by
  refine List.Pairwise.imp_of_mem ?_ hsep
  intro p q hp _ h
  unfold rowSepP at h
  unfold rowLt
  have := hwf p hp
  omega

theorem rowCoalesce_spec {ps : List (Int × Int)} (hlt : ps.Pairwise rowLt)
    (hwf : ∀ p ∈ ps, p.1 ≤ p.2) :
    (rowCoalesce ps).Pairwise rowSepP ∧
    (∀ p ∈ rowCoalesce ps, p.1 ≤ p.2) ∧
    (∀ x, pairCov (rowCoalesce ps) x ↔ pairCov ps x) := by
  cases ps with
  | nil =>
    refine ⟨by simp [rowCoalesce], by simp [rowCoalesce], ?_⟩
    intro x
    exact Iff.rfl
  | cons q rest =>
    obtain ⟨hqall, hrest⟩ := List.pairwise_cons.mp hlt
    have hsort : rest.Pairwise (fun p q => p.1 ≤ q.1) := by
      refine List.Pairwise.imp ?_ hrest
      intro p u h
      unfold rowLt at h
      omega
    obtain ⟨h1, h2, h3⟩ := coalGo_spec rest q.1 q.2
      (hwf q (List.mem_cons_self _ _))
      (fun p hp => hwf p (List.mem_cons_of_mem _ hp)) hsort
      (by intro p hp
          have := hqall p hp
          unfold rowLt at this
          omega)
    refine ⟨h2, fun p hp => (h1 p hp).1, ?_⟩
    intro x
    show pairCov (coalGo q.1 q.2 rest) x ↔ _
    rw [h3 x]
    unfold pairCov
    simp only [List.mem_cons]
    constructor
    · rintro (h | ⟨p, hp, hb⟩)
      · exact ⟨q, Or.inl rfl, h⟩
      · exact ⟨p, Or.inr hp, hb⟩
    · rintro ⟨p, hp | hp, hb⟩
      · subst hp
        exact Or.inl hb
      · exact Or.inr ⟨p, hp, hb⟩

theorem accPix_cons (rp : Int × List (Int × Int))
    (acc : List (Int × List (Int × Int))) (x y : Int) :
    accPix (rp :: acc) x y ↔
      (rp.1 = y ∧ pairCov rp.2 x) ∨ accPix acc x y := by
  unfold accPix
  simp only [List.mem_cons]
  constructor
  · rintro ⟨rq, hq | hq, hb⟩
    · subst hq
      exact Or.inl hb
    · exact Or.inr ⟨rq, hq, hb⟩
  · rintro (h | ⟨rq, hq, hb⟩)
    · exact ⟨rp, Or.inl rfl, h⟩
    · exact ⟨rq, Or.inr hq, hb⟩

theorem mapInsert_keys {y0 : Int} {pr : Int × Int} :
    ∀ {acc : List (Int × List (Int × Int))} {rq},
      rq ∈ mapInsert y0 pr acc → rq.1 = y0 ∨ ∃ rp ∈ acc, rq.1 = rp.1 := by
  intro acc
  induction acc with
  | nil =>
    intro rq hq
    simp only [mapInsert, List.mem_singleton] at hq
    subst hq
    exact Or.inl rfl
  | cons rp rest ih =>
    intro rq hq
    obtain ⟨y, ps⟩ := rp
    unfold mapInsert at hq
    by_cases h1 : y0 < y
    · rw [if_pos h1] at hq
      rcases List.mem_cons.mp hq with rfl | hq'
      · exact Or.inl rfl
      · rcases List.mem_cons.mp hq' with rfl | hq''
        · exact Or.inr ⟨(y, ps), List.mem_cons_self _ _, rfl⟩
        · exact Or.inr ⟨rq, List.mem_cons_of_mem _ hq'', rfl⟩
    · rw [if_neg h1] at hq
      by_cases h2 : y0 = y
      · rw [if_pos h2] at hq
        rcases List.mem_cons.mp hq with rfl | hq'
        · exact Or.inl h2.symm
        · exact Or.inr ⟨rq, List.mem_cons_of_mem _ hq', rfl⟩
      · rw [if_neg h2] at hq
        rcases List.mem_cons.mp hq with rfl | hq'
        · exact Or.inr ⟨(y, ps), List.mem_cons_self _ _, rfl⟩
        · rcases ih hq' with h | ⟨ru, hu, he⟩
          · exact Or.inl h
          · exact Or.inr ⟨ru, List.mem_cons_of_mem _ hu, he⟩

theorem mapInsert_spec {y0 : Int} {pr : Int × Int} (hpr : pr.1 ≤ pr.2) :
    ∀ {acc : List (Int × List (Int × Int))}, accOK acc →
      accOK (mapInsert y0 pr acc) ∧
      (∀ x y, accPix (mapInsert y0 pr acc) x y ↔
        ((y = y0 ∧ pr.1 ≤ x ∧ x ≤ pr.2) ∨ accPix acc x y)) := by
  intro acc
  induction acc with
  | nil =>
    intro _
    constructor
    · refine ⟨by simp [mapInsert], ?_⟩
      intro rp hp
      simp only [mapInsert, List.mem_singleton] at hp
      subst hp
      refine ⟨?_, ?_⟩
      · show ([(pr.1, pr.2)] : List (Int × Int)).Pairwise rowSepP
        simp
      · intro p hp
        have hp2 : p ∈ ([(pr.1, pr.2)] : List (Int × Int)) := hp
        simp only [List.mem_singleton] at hp2
        subst hp2
        exact hpr
    · intro x y
      rw [show mapInsert y0 pr [] = [(y0, [(pr.1, pr.2)])] from rfl]
      rw [accPix_cons]
      unfold accPix pairCov
      simp only [List.mem_singleton]
      constructor
      · rintro (⟨hy, p, hp, hb⟩ | ⟨rq, hq, _⟩)
        · subst hp
          exact Or.inl ⟨hy.symm, hb⟩
        · cases hq
      · rintro (⟨hy, hb⟩ | ⟨rq, hq, _⟩)
        · exact Or.inl ⟨hy.symm, (pr.1, pr.2), rfl, hb⟩
        · cases hq
  | cons rp rest ih =>
    intro hok
    obtain ⟨hkeys, hrows⟩ := hok
    obtain ⟨y, ps⟩ := rp
    obtain ⟨hkhead, hkrest⟩ := List.pairwise_cons.mp hkeys
    have hrowhead := hrows (y, ps) (List.mem_cons_self _ _)
    have hokrest : accOK rest :=
      ⟨hkrest, fun rq hq => hrows rq (List.mem_cons_of_mem _ hq)⟩
    unfold mapInsert
    by_cases h1 : y0 < y
    · rw [if_pos h1]
      constructor
      · constructor
        · rw [List.pairwise_cons]
          refine ⟨?_, hkeys⟩
          intro rq hq
          rcases List.mem_cons.mp hq with rfl | hq'
          · exact h1
          · have := hkhead rq hq'
            try dsimp only
            omega
        · intro rq hq
          rcases List.mem_cons.mp hq with rfl | hq'
          · refine ⟨?_, ?_⟩
            · show ([(pr.1, pr.2)] : List (Int × Int)).Pairwise rowSepP
              simp
            · intro p hp
              have hp2 : p ∈ ([(pr.1, pr.2)] : List (Int × Int)) := hp
              simp only [List.mem_singleton] at hp2
              subst hp2
              exact hpr
          · exact hrows rq hq'
      · intro x yy
        rw [show rowCoalesce (rowInsert pr []) = [(pr.1, pr.2)] from rfl]
        rw [accPix_cons]
        constructor
        · rintro (⟨hy, p, hp, hb⟩ | h)
          · simp only [List.mem_singleton] at hp
            subst hp
            exact Or.inl ⟨hy.symm, hb⟩
          · exact Or.inr h
        · rintro (⟨hy, hb⟩ | h)
          · exact Or.inl ⟨hy.symm, (pr.1, pr.2), List.mem_singleton.mpr rfl, hb⟩
          · exact Or.inr h
    · rw [if_neg h1]
      by_cases h2 : y0 = y
      · rw [if_pos h2]
        have hlt := rowLt_of_sep hrowhead.1 hrowhead.2
        have hins := @rowInsert_pairwise pr _ hlt
        have hinswf := rowInsert_wf hpr hrowhead.2
        obtain ⟨hc1, hc2, hc3⟩ := rowCoalesce_spec hins hinswf
        constructor
        · constructor
          · rw [List.pairwise_cons]
            refine ⟨?_, hkrest⟩
            intro rq hq
            exact hkhead rq hq
          · intro rq hq
            rcases List.mem_cons.mp hq with rfl | hq'
            · exact ⟨hc1, hc2⟩
            · exact hrows rq (List.mem_cons_of_mem _ hq')
        · intro x yy
          rw [accPix_cons, accPix_cons]
          constructor
          · rintro (⟨hy, hb⟩ | h)
            · rw [hc3 x, pairCov_rowInsert] at hb
              rcases hb with hb | hb
              · exact Or.inl ⟨by omega, hb⟩
              · exact Or.inr (Or.inl ⟨hy, hb⟩)
            · exact Or.inr (Or.inr h)
          · rintro (⟨hy, hb⟩ | ⟨hy, hb⟩ | h)
            · refine Or.inl ⟨by omega, ?_⟩
              rw [hc3 x, pairCov_rowInsert]
              exact Or.inl hb
            · refine Or.inl ⟨hy, ?_⟩
              rw [hc3 x, pairCov_rowInsert]
              exact Or.inr hb
            · exact Or.inr h
      · rw [if_neg h2]
        obtain ⟨hih1, hih2⟩ := ih hokrest
        constructor
        · constructor
          · rw [List.pairwise_cons]
            refine ⟨?_, hih1.1⟩
            intro rq hq
            rcases mapInsert_keys hq with h | ⟨ru, hu, he⟩
            · try dsimp only
              omega
            · have := hkhead ru hu
              try dsimp only
              omega
          · intro rq hq
            rcases List.mem_cons.mp hq with rfl | hq'
            · exact hrowhead
            · exact hih1.2 rq hq'
        · intro x yy
          rw [accPix_cons]
          rw [hih2 x yy]
          rw [accPix_cons]
          tauto

theorem elemFold_spec (s : Span) (hws : s.x0 ≤ s.x1) :
    ∀ (elem : List Span) (acc : List (Int × List (Int × Int))),
      wfS elem → accOK acc →
      accOK (elem.foldl (fun acc2 e =>
        mapInsert (s.y + e.y) (s.x0 + e.x0, s.x1 + e.x1) acc2) acc) ∧
      (∀ x y, accPix (elem.foldl (fun acc2 e =>
          mapInsert (s.y + e.y) (s.x0 + e.x0, s.x1 + e.x1) acc2) acc) x y ↔
        ((∃ e ∈ elem, y = s.y + e.y ∧ s.x0 + e.x0 ≤ x ∧ x ≤ s.x1 + e.x1) ∨
          accPix acc x y)) := by
  intro elem
  induction elem with
  | nil =>
    intro acc _ hok
    refine ⟨hok, ?_⟩
    intro x y
    simp only [List.foldl_nil, List.not_mem_nil, false_and, exists_false,
      false_or]
  | cons e elem' ih =>
    intro acc hel hok
    have hwe : e.x0 ≤ e.x1 := hel e (List.mem_cons_self _ _)
    have hprw : (s.x0 + e.x0, s.x1 + e.x1).1 ≤ (s.x0 + e.x0, s.x1 + e.x1).2 := by
      try dsimp only
      omega
    obtain ⟨hok2, hpix2⟩ := @mapInsert_spec (s.y + e.y) (s.x0 + e.x0, s.x1 + e.x1) hprw _ hok
    obtain ⟨hok3, hpix3⟩ := ih
      (mapInsert (s.y + e.y) (s.x0 + e.x0, s.x1 + e.x1) acc)
      (fun u hu => hel u (List.mem_cons_of_mem _ hu)) hok2
    rw [List.foldl_cons]
    refine ⟨hok3, ?_⟩
    intro x y
    rw [hpix3 x y, hpix2 x y]
    simp only [List.mem_cons]
    constructor
    · rintro (⟨u, hu, hc⟩ | ⟨h1, h2, h3⟩ | h)
      · exact Or.inl ⟨u, Or.inr hu, hc⟩
      · exact Or.inl ⟨e, Or.inl rfl, by omega⟩
      · exact Or.inr h
    · rintro (⟨u, hu | hu, hc⟩ | h)
      · subst hu
        refine Or.inr (Or.inl ⟨hc.1, ?_, ?_⟩)
        · try dsimp only
          omega
        · try dsimp only
          omega
      · exact Or.inl ⟨u, hu, hc⟩
      · exact Or.inr (Or.inr h)

theorem growAccum_spec (spans elem : List Span) (hspw : wfS spans)
    (hel : wfS elem) :
    accOK (growAccum spans elem) ∧
    (∀ x y, accPix (growAccum spans elem) x y ↔ dilPix spans elem x y) := by
  unfold growAccum dilPix
  have main : ∀ (l : List Span) (acc : List (Int × List (Int × Int))),
      wfS l → accOK acc →
      accOK (l.foldl (fun acc s => elem.foldl (fun acc2 e =>
        mapInsert (s.y + e.y) (s.x0 + e.x0, s.x1 + e.x1) acc2) acc) acc) ∧
      (∀ x y, accPix (l.foldl (fun acc s => elem.foldl (fun acc2 e =>
          mapInsert (s.y + e.y) (s.x0 + e.x0, s.x1 + e.x1) acc2) acc) acc) x y ↔
        ((∃ s ∈ l, ∃ e ∈ elem, y = s.y + e.y ∧
            s.x0 + e.x0 ≤ x ∧ x ≤ s.x1 + e.x1) ∨ accPix acc x y)) := by
    intro l
    induction l with
    | nil =>
      intro acc _ hok
      refine ⟨hok, ?_⟩
      intro x y
      simp only [List.foldl_nil, List.not_mem_nil, false_and, exists_false,
        false_or]
    | cons s l' ih =>
      intro acc hw hok
      have hws := hw s (List.mem_cons_self _ _)
      obtain ⟨hok2, hpix2⟩ := elemFold_spec s hws elem acc hel hok
      obtain ⟨hok3, hpix3⟩ := ih _
        (fun u hu => hw u (List.mem_cons_of_mem _ hu)) hok2
      rw [List.foldl_cons]
      refine ⟨hok3, ?_⟩
      intro x y
      rw [hpix3 x y, hpix2 x y]
      simp only [List.mem_cons]
      constructor
      · rintro (⟨u, hu, hc⟩ | ⟨u, hu, hc⟩ | h)
        · exact Or.inl ⟨u, Or.inr hu, hc⟩
        · exact Or.inl ⟨s, Or.inl rfl, u, hu, hc⟩
        · exact Or.inr h
      · rintro (⟨u, hu | hu, hc⟩ | h)
        · subst hu
          exact Or.inr (Or.inl hc)
        · exact Or.inl ⟨u, hu, hc⟩
        · exact Or.inr (Or.inr h)
  obtain ⟨h1, h2⟩ := main spans [] hspw ⟨List.Pairwise.nil, by intro rp hp; cases hp⟩
  refine ⟨h1, ?_⟩
  intro x y
  rw [h2 x y]
  constructor
  · rintro (h | ⟨rp, hp, _⟩)
    · exact h
    · cases hp
  · exact fun h => Or.inl h

theorem accFlatten_memPix (acc : List (Int × List (Int × Int))) (x y : Int) :
    memPix (accFlatten acc) x y ↔ accPix acc x y := by
  unfold memPix accFlatten accPix pairCov Span.containsPix
  simp only [List.mem_flatMap, List.mem_map]
  constructor
  · rintro ⟨sp, ⟨rp, hrp, p, hp, rfl⟩, hy, h0, h1⟩
    exact ⟨rp, hrp, hy, p, hp, h0, h1⟩
  · rintro ⟨rp, hrp, hy, p, hp, h0, h1⟩
    exact ⟨⟨rp.1, p.1, p.2⟩, ⟨rp, hrp, p, hp, rfl⟩, hy, h0, h1⟩

theorem accFlatten_key {acc : List (Int × List (Int × Int))} {sp : Span}
    (h : sp ∈ accFlatten acc) : ∃ rp ∈ acc, sp.y = rp.1 := by
  unfold accFlatten at h
  rw [List.mem_flatMap] at h
  obtain ⟨rp, hrp, hm⟩ := h
  rw [List.mem_map] at hm
  obtain ⟨p, _, rfl⟩ := hm
  exact ⟨rp, hrp, rfl⟩

theorem accFlatten_wf (acc : List (Int × List (Int × Int))) (hok : accOK acc) :
    wfS (accFlatten acc) := by
  intro sp hsp
  unfold accFlatten at hsp
  rw [List.mem_flatMap] at hsp
  obtain ⟨rp, hrp, hm⟩ := hsp
  rw [List.mem_map] at hm
  obtain ⟨p, hp, rfl⟩ := hm
  exact (hok.2 rp hrp).2 p hp

theorem accFlatten_pairwise :
    ∀ (acc : List (Int × List (Int × Int))), accOK acc →
      (accFlatten acc).Pairwise sep := by
  intro acc
  induction acc with
  | nil =>
    intro _
    simp [accFlatten]
  | cons rp rest ih =>
    intro hok
    obtain ⟨hkeys, hrows⟩ := hok
    obtain ⟨hkhead, hkrest⟩ := List.pairwise_cons.mp hkeys
    show (rp.2.map (fun p => (⟨rp.1, p.1, p.2⟩ : Span)) ++
      accFlatten rest).Pairwise sep
    rw [List.pairwise_append]
    refine ⟨?_, ih ⟨hkrest, fun rq hq => hrows rq (List.mem_cons_of_mem _ hq)⟩, ?_⟩
    · rw [List.pairwise_map]
      refine List.Pairwise.imp ?_ (hrows rp (List.mem_cons_self _ _)).1
      intro p q h
      unfold rowSepP at h
      exact Or.inr ⟨rfl, h⟩
    · intro sp hsp tp htp
      rw [List.mem_map] at hsp
      obtain ⟨p, _, rfl⟩ := hsp
      obtain ⟨rq, hrq, hky⟩ := accFlatten_key htp
      have := hkhead rq hrq
      refine Or.inl ?_
      show rp.1 < tp.y
      omega

theorem growImpl_spec (fp : Footprint) (elem : List Span)
    (hwf : wfS fp.spans) (hel : wfS elem) :
    ∃ G, growFootprintImpl fp elem = .ok G ∧
      G.spans = accFlatten (growAccum fp.spans elem) ∧
      G.spans.Pairwise sep ∧ wfS G.spans ∧ G.normalized = true ∧
      (∀ x y, memPix G.spans x y ↔ dilPix fp.spans elem x y) := by
  obtain ⟨hok, hpix⟩ := growAccum_spec fp.spans elem hwf hel
  have hp := accFlatten_pairwise _ hok
  have hw := accFlatten_wf _ hok
  obtain ⟨G, h1, h2, h3, h4⟩ := emitAll_spec
    (accFlatten (growAccum fp.spans elem)) (Footprint.mkEmpty fp.region)
    rfl hp.chain' hw
  have hGs : G.spans = accFlatten (growAccum fp.spans elem) :=
    h2.trans (List.nil_append _)
  refine ⟨G, h1, hGs, by rw [hGs]; exact hp, by rw [hGs]; exact hw, h4, ?_⟩
  intro x y
  rw [hGs, accFlatten_memPix, hpix x y]

theorem prLeB_iff (p q : PrimaryRun) : prLeB p q = true ↔
    (p.y < q.y ∨ (p.y = q.y ∧
      (p.m < q.m ∨ (p.m = q.m ∧ p.xmin ≤ q.xmin)))) := by
  unfold prLeB
  by_cases h1 : p.y = q.y
  · rw [if_pos h1]
    by_cases h2 : p.m = q.m
    · rw [if_pos h2]
      simp only [decide_eq_true_eq]
      omega
    · rw [if_neg h2]
      simp only [decide_eq_true_eq]
      omega
  · rw [if_neg h1]
    simp only [decide_eq_true_eq]
    omega

theorem prLeB_total (p q : PrimaryRun) : prLeB p q = true ∨ prLeB q p = true := by
  rw [prLeB_iff, prLeB_iff]
  omega

theorem prLeB_trans {p q u : PrimaryRun} (h1 : prLeB p q = true)
    (h2 : prLeB q u = true) : prLeB p u = true := by
  rw [prLeB_iff] at h1 h2 ⊢
  omega

theorem prInsert_perm (p : PrimaryRun) (l : List PrimaryRun) :
    List.Perm (prInsert p l) (p :: l) := by
  induction l with
  | nil => simp [prInsert]
  | cons q qs ih =>
    by_cases h : prLeB p q
    · simp [prInsert, h]
    · simp only [prInsert, h, Bool.false_eq_true, if_false]
      exact ((ih.cons q).trans (List.Perm.swap p q qs))

theorem mem_prInsert {u p : PrimaryRun} {l : List PrimaryRun} :
    u ∈ prInsert p l ↔ u = p ∨ u ∈ l := by
  have h := (prInsert_perm p l).mem_iff (a := u)
  simpa using h

theorem prInsert_pairwise {p : PrimaryRun} {l : List PrimaryRun}
    (h : l.Pairwise (fun a b => prLeB a b = true)) :
    (prInsert p l).Pairwise (fun a b => prLeB a b = true) := by
  induction l with
  | nil => simp [prInsert]
  | cons q qs ih =>
    rcases List.pairwise_cons.mp h with ⟨hq, hqs⟩
    by_cases hc : prLeB p q
    · simp only [prInsert, hc, if_true]
      refine List.pairwise_cons.mpr ⟨?_, h⟩
      intro u hu
      rcases List.mem_cons.mp hu with rfl | hu
      · exact hc
      · exact prLeB_trans hc (hq u hu)
    · have hqp : prLeB q p = true := by
        rcases prLeB_total p q with h1 | h1
        · exact absurd h1 hc
        · exact h1
      simp only [prInsert, hc, Bool.false_eq_true, if_false]
      refine List.pairwise_cons.mpr ⟨?_, ih hqs⟩
      intro u hu
      rcases mem_prInsert.mp hu with rfl | hu
      · exact hqp
      · exact hq u hu

theorem prSort_perm (l : List PrimaryRun) : List.Perm (prSort l) l := by
  induction l with
  | nil => simp [prSort]
  | cons p ps ih =>
    exact (prInsert_perm p (prSort ps)).trans (ih.cons p)

theorem prSort_pairwise (l : List PrimaryRun) :
    (prSort l).Pairwise (fun a b => prLeB a b = true) := by
  induction l with
  | nil => simp [prSort]
  | cons p ps ih => exact prInsert_pairwise ih

theorem pairwise_mem_cases {α : Type} {R : α → α → Prop} :
    ∀ {l : List α}, l.Pairwise R → ∀ {a b : α}, a ∈ l → b ∈ l →
      a = b ∨ R a b ∨ R b a := by
  intro l
  induction l with
  | nil =>
    intro _ a b ha
    cases ha
  | cons c cs ih =>
    intro hp a b ha hb
    obtain ⟨hc, hcs⟩ := List.pairwise_cons.mp hp
    rcases List.mem_cons.mp ha with rfl | ha'
    · rcases List.mem_cons.mp hb with rfl | hb'
      · exact Or.inl rfl
      · exact Or.inr (Or.inl (hc b hb'))
    · rcases List.mem_cons.mp hb with rfl | hb'
      · exact Or.inr (Or.inr (hc a ha'))
      · exact ih hcs ha' hb'

theorem pairwise_getLast {α : Type} {R : α → α → Prop} :
    ∀ {l : List α} (h : l.Pairwise R) (hne : l ≠ []) {a}, a ∈ l →
      a = l.getLast hne ∨ R a (l.getLast hne) := by
  intro l
  induction l with
  | nil =>
    intro _ hne
    exact absurd rfl hne
  | cons b rest ih =>
    intro hp hne a ha
    obtain ⟨hb, hrest⟩ := List.pairwise_cons.mp hp
    cases rest with
    | nil =>
      rcases List.mem_cons.mp ha with rfl | ha'
      · exact Or.inl rfl
      · cases ha'
    | cons c rest' =>
      rw [List.getLast_cons (List.cons_ne_nil c rest')]
      rcases List.mem_cons.mp ha with rfl | ha'
      · exact Or.inr (hb _ (List.getLast_mem _))
      · exact ih hrest (List.cons_ne_nil c rest') ha'

theorem enum_functional {l : List Span} {i : Nat} {a b : Span}
    (h1 : (i, a) ∈ l.enum) (h2 : (i, b) ∈ l.enum) : a = b := by
  rw [List.mk_mem_enum_iff_getElem?] at h1 h2
  rw [h1] at h2
  exact Option.some.inj h2

theorem mem_of_mem_enum {l : List Span} {i : Nat} {a : Span}
    (h : (i, a) ∈ l.enum) : a ∈ l := by
  rw [List.mk_mem_enum_iff_getElem?] at h
  exact List.getElem?_mem h

theorem mem_primaryRuns {spans elem : List Span} {r : PrimaryRun} :
    r ∈ primaryRuns spans elem ↔
      ∃ s ∈ spans, ∃ i : Nat, ∃ e : Span, (i, e) ∈ elem.enum ∧
        e.x1 - e.x0 ≤ s.x1 - s.x0 ∧
        r = ⟨(i : Int), s.y - e.y, s.x0 - e.x0, s.x1 - e.x1⟩ := by
  unfold primaryRuns
  simp only [List.mem_flatMap, List.mem_filterMap]
  constructor
  · rintro ⟨s, hs, em, hem, hr⟩
    by_cases hc : em.2.x1 - em.2.x0 ≤ s.x1 - s.x0
    · rw [if_pos hc] at hr
      exact ⟨s, hs, em.1, em.2, hem, hc, (Option.some.inj hr).symm⟩
    · rw [if_neg hc] at hr
      cases hr
  · rintro ⟨s, hs, i, e, hie, hc, rfl⟩
    refine ⟨s, hs, (i, e), hie, ?_⟩
    rw [if_pos hc]

theorem consolidate_spec :
    ∀ (l : List PrimaryRun) (m y start e : Int),
      l.Pairwise (fun p q => p.xmax < q.xmin ∨
        (p.xmin = q.xmin ∧ p.xmax = q.xmax)) →
      (∀ u ∈ l, e < u.xmin ∨ (start = u.xmin ∧ e = u.xmax)) →
      (∀ c ∈ consolidate m y start e l, c.y = y) ∧
      (∀ x : Int, ((start ≤ x ∧ x ≤ e) ∨
          ∃ u ∈ l, u.xmin ≤ x ∧ x ≤ u.xmax) →
        ∃ c ∈ consolidate m y start e l, c.xmin ≤ x ∧ x ≤ c.xmax) := by
  intro l
  induction l with
  | nil =>
    intro m y start e _ _
    constructor
    · intro c hc
      simp only [consolidate, List.mem_singleton] at hc
      subst hc
      rfl
    · intro x hx
      rcases hx with h | ⟨u, hu, _⟩
      · exact ⟨⟨m, y, start, e⟩, List.mem_singleton.mpr rfl, h⟩
      · cases hu
  | cons r rest ih =>
    intro m y start e hpw hhead
    obtain ⟨hrall, hprest⟩ := List.pairwise_cons.mp hpw
    unfold consolidate
    by_cases hgt : r.xmin > e
    · rw [if_pos hgt]
      obtain ⟨ihf, ihc⟩ := ih m y r.xmin r.xmax hprest
        (by intro u hu
            rcases hrall u hu with h | ⟨h1, h2⟩
            · exact Or.inl h
            · exact Or.inr ⟨h1, h2⟩)
      constructor
      · intro c hc
        rcases List.mem_cons.mp hc with rfl | hc'
        · rfl
        · exact ihf c hc'
      · intro x hx
        rcases hx with h | ⟨u, hu, hb⟩
        · exact ⟨⟨m, y, start, e⟩, List.mem_cons_self _ _, h⟩
        · rcases List.mem_cons.mp hu with rfl | hu'
          · obtain ⟨c, hc, hcb⟩ := ihc x (Or.inl hb)
            exact ⟨c, List.mem_cons_of_mem _ hc, hcb⟩
          · obtain ⟨c, hc, hcb⟩ := ihc x (Or.inr ⟨u, hu', hb⟩)
            exact ⟨c, List.mem_cons_of_mem _ hc, hcb⟩
    · rw [if_neg hgt]
      have hse : start = r.xmin ∧ e = r.xmax := by
        rcases hhead r (List.mem_cons_self _ _) with h | h
        · omega
        · exact h
      obtain ⟨ihf, ihc⟩ := ih m y start r.xmax hprest
        (by intro u hu
            rcases hrall u hu with h | ⟨h1, h2⟩
            · exact Or.inl h
            · exact Or.inr ⟨by omega, h2⟩)
      refine ⟨ihf, ?_⟩
      intro x hx
      refine ihc x ?_
      rcases hx with h | ⟨u, hu, hb⟩
      · exact Or.inl ⟨h.1, by omega⟩
      · rcases List.mem_cons.mp hu with rfl | hu'
        · exact Or.inl ⟨by omega, by omega⟩
        · exact Or.inr ⟨u, hu', hb⟩

theorem intersectRuns_fields {m y : Int} {good cand : List PrimaryRun} :
    ∀ u ∈ intersectRuns m y good cand, u.y = y := by
  intro u hu
  unfold intersectRuns at hu
  rw [List.mem_flatMap] at hu
  obtain ⟨g, _, hu2⟩ := hu
  rw [List.mem_filterMap] at hu2
  obtain ⟨c, _, hc⟩ := hu2
  by_cases h : max g.xmin c.xmin ≤ min g.xmax c.xmax
  · rw [if_pos h] at hc
    rw [← Option.some.inj hc]
  · rw [if_neg h] at hc
    cases hc

theorem intersectRuns_cov {m y : Int} {good cand : List PrimaryRun}
    {x : Int} (hg : ∃ g ∈ good, g.xmin ≤ x ∧ x ≤ g.xmax)
    (hc : ∃ c ∈ cand, c.xmin ≤ x ∧ x ≤ c.xmax) :
    ∃ u ∈ intersectRuns m y good cand, u.xmin ≤ x ∧ x ≤ u.xmax := by
  obtain ⟨g, hgm, hgb⟩ := hg
  obtain ⟨c, hcm, hcb⟩ := hc
  refine ⟨⟨m, y, max g.xmin c.xmin, min g.xmax c.xmax⟩, ?_, by
    constructor
    · show max g.xmin c.xmin ≤ x
      omega
    · show x ≤ min g.xmax c.xmax
      omega⟩
  unfold intersectRuns
  rw [List.mem_flatMap]
  refine ⟨g, hgm, ?_⟩
  rw [List.mem_filterMap]
  refine ⟨c, hcm, ?_⟩
  rw [if_pos (by omega)]

theorem goodFold_succ (M : Nat) (yRuns : List PrimaryRun) (y : Int) :
    goodFold (M + 1) yRuns y =
      (match yRuns.filter (fun r => r.m = ((M : Nat) : Int)) with
        | [] => []
        | r0 :: rest =>
          let cand := consolidate ((M : Nat) : Int) y r0.xmin r0.xmax rest
          if M = 0 then cand
          else intersectRuns ((M : Nat) : Int) y (goodFold M yRuns y) cand) := by
  unfold goodFold
  rw [List.range_succ, List.foldl_append, List.foldl_cons, List.foldl_nil]

theorem goodFold_cov (yRuns : List PrimaryRun) (y x : Int) :
    ∀ M : Nat, 0 < M →
      (∀ m : Nat, m < M →
        (yRuns.filter (fun r => r.m = (m : Int))).Pairwise
          (fun p q => p.xmax < q.xmin ∨
            (p.xmin = q.xmin ∧ p.xmax = q.xmax)) ∧
        ∃ u ∈ yRuns.filter (fun r => r.m = (m : Int)),
          u.xmin ≤ x ∧ x ≤ u.xmax) →
      (∀ g ∈ goodFold M yRuns y, g.y = y) ∧
      ∃ g ∈ goodFold M yRuns y, g.xmin ≤ x ∧ x ≤ g.xmax := by
  intro M
  induction M with
  | zero =>
    intro h
    exact absurd h (by omega)
  | succ M ihM =>
    intro _ hall
    obtain ⟨hpwM, uM, huM, hubM⟩ := hall M (by omega)
    rw [goodFold_succ]
    rcases hfm : yRuns.filter (fun r => r.m = ((M : Nat) : Int)) with
      _ | ⟨r0, rest⟩
    · rw [hfm] at huM
      cases huM
    · rw [hfm] at hpwM huM
      rw [hfm]
      dsimp only
      obtain ⟨hr0, hprest⟩ := List.pairwise_cons.mp hpwM
      obtain ⟨hcf, hcc⟩ := consolidate_spec rest ((M : Nat) : Int) y
        r0.xmin r0.xmax hprest (fun u hu => hr0 u hu)
      have hcandcov : ∃ c ∈ consolidate ((M : Nat) : Int) y
          r0.xmin r0.xmax rest, c.xmin ≤ x ∧ x ≤ c.xmax := by
        refine hcc x ?_
        rcases List.mem_cons.mp huM with rfl | hu'
        · exact Or.inl hubM
        · exact Or.inr ⟨uM, hu', hubM⟩
      by_cases hM0 : M = 0
      · subst hM0
        rw [if_pos rfl]
        exact ⟨hcf, hcandcov⟩
      · rw [if_neg hM0]
        obtain ⟨hgf, hgcov⟩ := ihM (by omega)
          (fun m hm => hall m (by omega))
        exact ⟨intersectRuns_fields, intersectRuns_cov hgcov hcandcov⟩

theorem foldl_addSpan_spans :
    ∀ (runs : List PrimaryRun) (acc : Footprint),
      ((runs.foldl (fun fp r => fp.addSpan r.y r.xmin r.xmax) acc).spans) =
        acc.spans ++ runs.map
          (fun r => (⟨r.y, min r.xmin r.xmax, max r.xmin r.xmax⟩ : Span)) := by
  intro runs
  induction runs with
  | nil =>
    intro acc
    simp
  | cons r rest ih =>
    intro acc
    rw [List.foldl_cons, ih]
    simp only [Footprint.addSpan, List.map_cons]
    rw [List.append_assoc, List.singleton_append]

theorem shrinkRow_mono (M : Nat) (runs : List PrimaryRun) (acc : Footprint)
    (yr : Int) :
    (∀ x y, memPix acc.spans x y → memPix (shrinkRow M runs acc yr).spans x y) ∧
    (wfS acc.spans → wfS (shrinkRow M runs acc yr).spans) := by
  unfold shrinkRow
  by_cases hl : (runs.filter (fun r => r.y = yr)).length < M
  · rw [if_pos hl]
    exact ⟨fun x y h => h, fun h => h⟩
  · rw [if_neg hl]
    rw [show ∀ fpacc : Footprint,
        ((goodFold M (runs.filter (fun r => r.y = yr)) yr).foldl
          (fun fp r => fp.addSpan r.y r.xmin r.xmax) fpacc).spans =
        fpacc.spans ++ _ from fun fpacc => foldl_addSpan_spans _ fpacc]
    constructor
    · intro x y h
      rw [memPix_append]
      exact Or.inl h
    · intro h s hs
      rw [List.mem_append] at hs
      rcases hs with hs | hs
      · exact h s hs
      · rw [List.mem_map] at hs
        obtain ⟨r, _, rfl⟩ := hs
        show min r.xmin r.xmax ≤ max r.xmin r.xmax
        omega

theorem shrinkRow_hit (M : Nat) (runs : List PrimaryRun) (acc : Footprint)
    (x y : Int)
    (hl : ¬((runs.filter (fun r => r.y = y)).length < M))
    (hg : ∃ g ∈ goodFold M (runs.filter (fun r => r.y = y)) y,
      (g.xmin ≤ x ∧ x ≤ g.xmax) ∧ g.y = y) :
    memPix (shrinkRow M runs acc y).spans x y := by
  unfold shrinkRow
  rw [if_neg hl, foldl_addSpan_spans, memPix_append]
  obtain ⟨g, hgm, hgb, hgy⟩ := hg
  refine Or.inr ⟨⟨g.y, min g.xmin g.xmax, max g.xmin g.xmax⟩,
    List.mem_map.mpr ⟨g, hgm, rfl⟩, hgy, ?_, ?_⟩
  · show min g.xmin g.xmax ≤ x
    omega
  · show x ≤ max g.xmin g.xmax
    omega

theorem foldRows_mono (M : Nat) (runs : List PrimaryRun) :
    ∀ (l : List Int) (acc : Footprint),
      (∀ x y, memPix acc.spans x y →
        memPix ((l.foldl (shrinkRow M runs) acc).spans) x y) ∧
      (wfS acc.spans → wfS ((l.foldl (shrinkRow M runs) acc).spans)) := by
  intro l
  induction l with
  | nil => exact fun acc => ⟨fun x y h => h, fun h => h⟩
  | cons yr l' ih =>
    intro acc
    rw [List.foldl_cons]
    obtain ⟨ihm, ihw⟩ := ih (shrinkRow M runs acc yr)
    obtain ⟨hm, hw⟩ := shrinkRow_mono M runs acc yr
    exact ⟨fun x y h => ihm x y (hm x y h), fun h => ihw (hw h)⟩

theorem foldRows_hit (M : Nat) (runs : List PrimaryRun) (x y : Int)
    (hl : ¬((runs.filter (fun r => r.y = y)).length < M))
    (hg : ∃ g ∈ goodFold M (runs.filter (fun r => r.y = y)) y,
      (g.xmin ≤ x ∧ x ≤ g.xmax) ∧ g.y = y) :
    ∀ (l : List Int) (acc : Footprint), y ∈ l →
      memPix ((l.foldl (shrinkRow M runs) acc).spans) x y := by
  intro l
  induction l with
  | nil =>
    intro acc hy
    cases hy
  | cons yr l' ih =>
    intro acc hy
    rw [List.foldl_cons]
    rcases List.mem_cons.mp hy with rfl | hy'
    · exact (foldRows_mono M runs l' _).1 x y (shrinkRow_hit M runs acc x y hl hg)
    · exact ih _ hy'

theorem length_ge_of_distinct_m (yRuns : List PrimaryRun) (M : Nat)
    (h : ∀ m : Nat, m < M → ∃ r ∈ yRuns, r.m = (m : Int)) :
    M ≤ yRuns.length := by
  classical
  have hch : ∀ m : Nat, ∃ r, m < M → r ∈ yRuns ∧ r.m = (m : Int) := by
    intro m
    by_cases hm : m < M
    · obtain ⟨r, hr1, hr2⟩ := h m hm
      exact ⟨r, fun _ => ⟨hr1, hr2⟩⟩
    · exact ⟨⟨0, 0, 0, 0⟩, fun hc => absurd hc hm⟩
  choose f hf using hch
  have hinj : Set.InjOn f (Finset.range M) := by
    intro m1 hm1 m2 hm2 he
    rw [Finset.coe_range, Set.mem_Iio] at hm1 hm2
    have h1 := (hf m1 hm1).2
    have h2 := (hf m2 hm2).2
    rw [he] at h1
    rw [h1] at h2
    exact_mod_cast h2
  have hmap : ∀ m ∈ Finset.range M, f m ∈ yRuns.toFinset := by
    intro m hm
    rw [Finset.mem_range] at hm
    rw [List.mem_toFinset]
    exact (hf m hm).1
  calc M = (Finset.range M).card := (Finset.card_range M).symm
    _ ≤ yRuns.toFinset.card := Finset.card_le_card_of_injOn f hmap hinj
    _ ≤ yRuns.length := yRuns.toFinset_card_le

theorem mRuns_chain (spans elem : List Span) (hpw : spans.Pairwise sep)
    (hwf : wfS spans) (hew : wfS elem)
    {l : List PrimaryRun}
    (hpl : l.Pairwise (fun a b => prLeB a b = true))
    (hsub : ∀ r ∈ l, r ∈ primaryRuns spans elem)
    (y m : Int)
    (hy : ∀ r ∈ l, r.y = y) (hm : ∀ r ∈ l, r.m = m) :
    l.Pairwise (fun p q => p.xmax < q.xmin ∨
      (p.xmin = q.xmin ∧ p.xmax = q.xmax)) := by
  refine List.Pairwise.imp_of_mem ?_ hpl
  intro p q hpmem hqmem hle
  obtain ⟨sp, hsp, ip, ep, hiep, hcp, hpe⟩ := mem_primaryRuns.mp (hsub p hpmem)
  obtain ⟨sq, hsq, iq, eq2, hieq, hcq, hqe⟩ := mem_primaryRuns.mp (hsub q hqmem)
  have hpm := hm p hpmem
  have hqm := hm q hqmem
  have hpy := hy p hpmem
  have hqy := hy q hqmem
  have hip : (ip : Int) = m := by rw [hpe] at hpm; exact hpm
  have hiq : (iq : Int) = m := by rw [hqe] at hqm; exact hqm
  have hii : ip = iq := by
    have h2 : (ip : Int) = (iq : Int) := by omega
    exact_mod_cast h2
  subst hii
  have hee : ep = eq2 := enum_functional hiep hieq
  subst hee
  have hrow : sp.y = sq.y := by
    have e1 : sp.y - ep.y = y := by rw [hpe] at hpy; exact hpy
    have e2 : sq.y - ep.y = y := by rw [hqe] at hqy; exact hqy
    omega
  have hwsp := hwf sp hsp
  have hwsq := hwf sq hsq
  have hwep := hew ep (mem_of_mem_enum hiep)
  rw [prLeB_iff] at hle
  rcases pairwise_mem_cases hpw hsp hsq with rfl | hsep | hsep
  · refine Or.inr ?_
    rw [hpe, hqe]
    exact ⟨rfl, rfl⟩
  · unfold sep at hsep
    refine Or.inl ?_
    rw [hpe, hqe]
    show sp.x1 - ep.x1 < sq.x0 - ep.x0
    omega
  · unfold sep at hsep
    exfalso
    have hpxm : p.xmin = sp.x0 - ep.x0 := by rw [hpe]
    have hqxm : q.xmin = sq.x0 - ep.x0 := by rw [hqe]
    have hle2 : p.xmin ≤ q.xmin := by omega
    omega

theorem shrink_spec (fp : Footprint) (elem : List Span) (M : Nat)
    (hpw : fp.spans.Pairwise sep) (hwf : wfS fp.spans) (hew : wfS elem)
    (hM : 0 < M) (hne : primaryRuns fp.spans elem ≠ []) :
    ∃ S, shrinkFootprintImpl fp elem M = some S ∧
      ∀ x y,
        (∀ m : Nat, m < M → ∃ r ∈ primaryRuns fp.spans elem,
          r.y = y ∧ r.m = (m : Int) ∧ r.xmin ≤ x ∧ x ≤ r.xmax) →
        memPix S.spans x y := by
  have hperm := prSort_perm (primaryRuns fp.spans elem)
  have hsorted := prSort_pairwise (primaryRuns fp.spans elem)
  unfold shrinkFootprintImpl
  rcases hs : prSort (primaryRuns fp.spans elem) with _ | ⟨r0, rest⟩
  · rw [hs] at hperm
    exact absurd (List.Perm.eq_nil hperm.symm) hne
  · rw [hs] at hperm hsorted
    refine ⟨_, rfl, ?_⟩
    intro x y hall
    have hwfF : wfS (((intRange r0.y
        ((r0 :: rest).getLast (List.cons_ne_nil r0 rest)).y).foldl
        (shrinkRow M (r0 :: rest)) (Footprint.mkEmpty fp.region)).spans) :=
      (foldRows_mono M (r0 :: rest) _ _).2 (by intro s hs2; cases hs2)
    rw [normalize_memPix _ hwfF x y]
    obtain ⟨rm0, hrm0, hy0, hm0, hb0⟩ := hall 0 hM
    have hrm0' : rm0 ∈ r0 :: rest := hperm.mem_iff.mpr hrm0
    have hylo : r0.y ≤ y := by
      rcases List.mem_cons.mp hrm0' with heq | h'
      · rw [heq] at hy0
        omega
      · have := (List.pairwise_cons.mp hsorted).1 rm0 h'
        rw [prLeB_iff] at this
        omega
    have hyhi : y ≤ ((r0 :: rest).getLast (List.cons_ne_nil r0 rest)).y := by
      rcases pairwise_getLast hsorted (List.cons_ne_nil r0 rest) hrm0' with
        he | hple
      · rw [← he]
        omega
      · rw [prLeB_iff] at hple
        omega
    have hmemy : ∀ m : Nat, m < M →
        ∃ r ∈ (r0 :: rest).filter (fun r => r.y = y),
          r.m = (m : Int) ∧ r.xmin ≤ x ∧ x ≤ r.xmax := by
      intro m hm
      obtain ⟨r, hr, hry, hrm, hrb⟩ := hall m hm
      exact ⟨r, List.mem_filter.mpr ⟨hperm.mem_iff.mpr hr,
        by simp [hry]⟩, hrm, hrb⟩
    have hlen : ¬(((r0 :: rest).filter (fun r => r.y = y)).length < M) := by
      have := length_ge_of_distinct_m
        ((r0 :: rest).filter (fun r => r.y = y)) M
        (fun m hm => (hmemy m hm).elim (fun r hr => ⟨r, hr.1, hr.2.1⟩))
      omega
    have hcond : ∀ m : Nat, m < M →
        (((r0 :: rest).filter (fun r => r.y = y)).filter
            (fun r => r.m = (m : Int))).Pairwise
          (fun p q => p.xmax < q.xmin ∨
            (p.xmin = q.xmin ∧ p.xmax = q.xmax)) ∧
        ∃ u ∈ ((r0 :: rest).filter (fun r => r.y = y)).filter
            (fun r => r.m = (m : Int)), u.xmin ≤ x ∧ x ≤ u.xmax := by
      intro m hm
      constructor
      · refine mRuns_chain fp.spans elem hpw hwf hew
          (List.Pairwise.filter _ (List.Pairwise.filter _ hsorted))
          ?_ y (m : Int) ?_ ?_
        · intro r hr
          have h1 := (List.mem_filter.mp hr).1
          have h2 := (List.mem_filter.mp h1).1
          exact hperm.mem_iff.mp h2
        · intro r hr
          have h1 := (List.mem_filter.mp hr).1
          have h2 := (List.mem_filter.mp h1).2
          simpa using h2
        · intro r hr
          have h2 := (List.mem_filter.mp hr).2
          simpa using h2
      · obtain ⟨r, hr, hrm, hrb⟩ := hmemy m hm
        exact ⟨r, List.mem_filter.mpr ⟨hr, by simp [hrm]⟩, hrb⟩
    obtain ⟨hgfields, g, hg, hgb⟩ := goodFold_cov
      ((r0 :: rest).filter (fun r => r.y = y)) y x M hM hcond
    exact foldRows_hit M (r0 :: rest) x y hlen
      ⟨g, hg, hgb, hgfields g hg⟩ _ _ (mem_intRange.mpr ⟨hylo, hyhi⟩)

theorem intRange_getElem? (a b : Int) (i : Nat) (h : (i : Int) ≤ b - a) :
    (intRange a b)[i]? = some (a + (i : Int)) := by
  unfold intRange
  rw [List.getElem?_map, List.getElem?_range (by omega : i < (b - a + 1).toNat)]
  rfl

theorem diamond_mem_enum (r : Int) (m : Nat) (hm : (m : Int) ≤ 2 * r) :
    (m, (⟨(m : Int) - r, -(r - |(m : Int) - r|), r - |(m : Int) - r|⟩ : Span)) ∈
      (diamondElement r).enum := by
  rw [List.mk_mem_enum_iff_getElem?]
  unfold diamondElement
  rw [List.getElem?_map, intRange_getElem? (-r) r m (by omega)]
  have he : -r + (m : Int) = (m : Int) - r := by omega
  rw [he]
  rfl

theorem diamond_wf (r : Int) (hr : 0 ≤ r) : wfS (diamondElement r) := by
  intro s hs
  unfold diamondElement at hs
  rw [List.mem_map] at hs
  obtain ⟨dy, hdy, rfl⟩ := hs
  rw [mem_intRange] at hdy
  show -(r - |dy|) ≤ r - |dy|
  rcases abs_cases dy with ⟨he, h0⟩ | ⟨he, h0⟩ <;> omega

theorem sumWidths_pos {l : List Span} (hwf : wfS l) (hne : l ≠ []) :
    0 < sumWidths l := by
  cases l with
  | nil => exact absurd rfl hne
  | cons s rest =>
    rw [sumWidths_cons]
    have h1 := hwf s (List.mem_cons_self _ _)
    have h2 := sumWidths_nonneg (fun u hu => hwf u (List.mem_cons_of_mem _ hu))
    unfold Span.width
    omega

theorem interval_in_one_span {l : List Span} (hpw : l.Pairwise sep)
    (y a b : Int) (hab : a ≤ b)
    (hcov : ∀ x, a ≤ x → x ≤ b → memPix l x y) :
    ∃ t ∈ l, t.y = y ∧ t.x0 ≤ a ∧ b ≤ t.x1 := by
  obtain ⟨t, ht, hty, hta, hta2⟩ := hcov a (le_refl _) hab
  refine ⟨t, ht, hty, hta, ?_⟩
  by_contra hlt
  have h1 : a ≤ t.x1 + 1 := by omega
  have h2 : t.x1 + 1 ≤ b := by omega
  obtain ⟨u, hu, huy, hua, hub⟩ := hcov (t.x1 + 1) h1 h2
  rcases pairwise_mem_cases hpw ht hu with rfl | hsep | hsep
  · omega
  · unfold sep at hsep
    omega
  · unfold sep at hsep
    omega

/-- Claim C4: for every normalized non-empty footprint (satisfying the
normalize invariant: sorted separated valid spans with area the sum of span
widths) and every radius r > 0, growing by r with the diamond (Manhattan)
structuring element and then shrinking the result by r with the same
element succeeds and yields a footprint whose pixel set contains the pixel
set of the original footprint (morphological closing property). -/
theorem c4_grow_shrink_closing (fp : Footprint) (r : Int) (hr : 0 < r)
    (hns : NormSpans fp.spans) (hne : fp.spans ≠ [])
    (harea : fp.area = sumWidths fp.spans) :
    ∃ G S, growFootprint fp r = .ok G ∧ shrinkFootprint G r = some S ∧
      ∀ x y, memPix fp.spans x y → memPix S.spans x y := by
  obtain ⟨hpw, hwf⟩ := hns
  have hel := diamond_wf r (by omega)
  obtain ⟨G, hG1, hG2, hGpw, hGwf, hGn, hGpix⟩ :=
    growImpl_spec fp (diamondElement r) hwf hel
  have hgrow : growFootprint fp r = .ok G := by
    unfold growFootprint
    rw [if_neg (by have := sumWidths_pos hwf hne; omega)]
    exact hG1
  have hM : 0 < (2 * r + 1).toNat := by omega
  obtain ⟨s0, hs0⟩ := List.exists_mem_of_ne_nil fp.spans hne
  have hws0 := hwf s0 hs0
  have h0e := diamond_mem_enum r 0 (by omega)
  have habs0 : |(0 : Int) - r| = r := by
    rcases abs_cases ((0 : Int) - r) with ⟨he, h0⟩ | ⟨he, h0⟩ <;> omega
  have hpix0 : memPix G.spans (s0.x0 + (-(r - |(0 : Int) - r|)))
      (s0.y + ((0 : Int) - r)) := by
    rw [hGpix]
    refine ⟨s0, hs0,
      ⟨(0 : Int) - r, -(r - |(0 : Int) - r|), r - |(0 : Int) - r|⟩,
      mem_of_mem_enum h0e, ?_, ?_, ?_⟩
    · show s0.y + ((0 : Int) - r) = s0.y + ((0 : Int) - r)
      rfl
    · show s0.x0 + (-(r - |(0 : Int) - r|)) ≤ s0.x0 + (-(r - |(0 : Int) - r|))
      exact le_refl _
    · show s0.x0 + (-(r - |(0 : Int) - r|)) ≤ s0.x1 + (r - |(0 : Int) - r|)
      omega
  obtain ⟨t0, ht0, hty0, hta0, htb0⟩ := hpix0
  have hrun0 : (⟨((0 : Nat) : Int), t0.y - ((0 : Int) - r),
      t0.x0 - (-(r - |(0 : Int) - r|)), t0.x1 - (r - |(0 : Int) - r|)⟩ :
        PrimaryRun) ∈ primaryRuns G.spans (diamondElement r) := by
    refine mem_primaryRuns.mpr ⟨t0, ht0, 0, _, h0e, ?_, rfl⟩
    show (r - |(0 : Int) - r|) - (-(r - |(0 : Int) - r|)) ≤ t0.x1 - t0.x0
    have := hGwf t0 ht0
    omega
  have hneR : primaryRuns G.spans (diamondElement r) ≠ [] :=
    List.ne_nil_of_mem hrun0
  obtain ⟨S, hS1, hScov⟩ := shrink_spec G (diamondElement r)
    (2 * r + 1).toNat hGpw hGwf hel hM hneR
  refine ⟨G, S, hgrow, hS1, ?_⟩
  intro x y hxy
  obtain ⟨s1, hs1, hs1y, hs1a, hs1b⟩ := hxy
  apply hScov
  intro m hm
  have hmle : (m : Int) ≤ 2 * r := by omega
  have hme := diamond_mem_enum r m hmle
  have habs : |(m : Int) - r| ≤ r := by
    rcases abs_cases ((m : Int) - r) with ⟨he, h0⟩ | ⟨he, h0⟩ <;> omega
  have hcovI : ∀ x', x + (-(r - |(m : Int) - r|)) ≤ x' →
      x' ≤ x + (r - |(m : Int) - r|) →
      memPix G.spans x' (y + ((m : Int) - r)) := by
    intro x' h1 h2
    rw [hGpix]
    refine ⟨s1, hs1,
      ⟨(m : Int) - r, -(r - |(m : Int) - r|), r - |(m : Int) - r|⟩,
      mem_of_mem_enum hme, ?_, ?_, ?_⟩
    · show y + ((m : Int) - r) = s1.y + ((m : Int) - r)
      omega
    · show s1.x0 + (-(r - |(m : Int) - r|)) ≤ x'
      omega
    · show x' ≤ s1.x1 + (r - |(m : Int) - r|)
      omega
  obtain ⟨t, htm, hty, hta, htb⟩ := interval_in_one_span hGpw
    (y + ((m : Int) - r)) (x + (-(r - |(m : Int) - r|)))
    (x + (r - |(m : Int) - r|)) (by omega) hcovI
  refine ⟨⟨(m : Int), t.y - ((m : Int) - r),
    t.x0 - (-(r - |(m : Int) - r|)), t.x1 - (r - |(m : Int) - r|)⟩,
    ?_, ?_, rfl, ?_, ?_⟩
  · refine mem_primaryRuns.mpr ⟨t, htm, m, _, hme, ?_, rfl⟩
    show (r - |(m : Int) - r|) - (-(r - |(m : Int) - r|)) ≤ t.x1 - t.x0
    omega
  · show t.y - ((m : Int) - r) = y
    omega
  · show t.x0 - (-(r - |(m : Int) - r|)) ≤ x
    omega
  · show x ≤ t.x1 - (r - |(m : Int) - r|)
    omega

/-- Witness for C4: the closing theorem applied to the single-pixel
footprint at the origin with radius 1. -/
theorem c4_witness :
    (0 : Int) < 1 ∧
    NormSpans (⟨[⟨0, 0, 0⟩], 1, some ⟨0, 0, 0, 0⟩, none, true⟩ :
      Footprint).spans ∧
    (⟨[⟨0, 0, 0⟩], 1, some ⟨0, 0, 0, 0⟩, none, true⟩ :
      Footprint).spans ≠ [] ∧
    (⟨[⟨0, 0, 0⟩], 1, some ⟨0, 0, 0, 0⟩, none, true⟩ : Footprint).area =
      sumWidths (⟨[⟨0, 0, 0⟩], 1, some ⟨0, 0, 0, 0⟩, none, true⟩ :
        Footprint).spans ∧
    ∃ G S,
      growFootprint ⟨[⟨0, 0, 0⟩], 1, some ⟨0, 0, 0, 0⟩, none, true⟩ 1 =
        .ok G ∧
      shrinkFootprint G 1 = some S ∧
      ∀ x y,
        memPix (⟨[⟨0, 0, 0⟩], 1, some ⟨0, 0, 0, 0⟩, none, true⟩ :
          Footprint).spans x y →
        memPix S.spans x y :=
  ⟨by decide, by decide, by decide, by decide,
    c4_grow_shrink_closing ⟨[⟨0, 0, 0⟩], 1, some ⟨0, 0, 0, 0⟩, none, true⟩ 1
      (by decide) (by decide) (by decide) (by decide)⟩
